import Mathlib

/-!
Verification of the diff/patch versioning engine of `hooks/memory_logger.py`.

The Python source is shallowly embedded: strings are Lean `String`s
(sequences of unicode characters, like Python `str`), Python's
`str.splitlines` is modelled including its full set of line terminators,
list slice assignment is modelled with Python's index clamping semantics,
and `difflib.unified_diff` (as invoked by `create_unified_diff`, i.e. with
`isjunk=None`, so the junk set is always empty, and the default
`autojunk=True` popularity heuristic) is embedded as executable functions.

One deliberate simplification, noted here once: the regular expression
`\d` in `apply_diff` is modelled as an ASCII digit.  Python's `\d` also
accepts non-ASCII decimal digits, which the serializer in `difflib` never
produces.
-/

namespace MemLog

/-- The set of line-boundary characters recognised by Python `str.splitlines`. -/
def isLineTerm (c : Char) : Bool :=
  c = '\n' || c = '\r' || c = '\x0b' || c = '\x0c' ||
  c = '\x1c' || c = '\x1d' || c = '\x1e' || c = '\x85' ||
  c = ' ' || c = ' '

/-- Core splitter: returns the list of (line content, line terminator) pairs of
a character stream, treating `"\r\n"` as a single terminator.  `acc` holds the
(reversed) characters of the line currently being read. -/
def pyLinesGo : List Char → List Char → List (List Char × List Char)
  | acc, [] => if acc.isEmpty then [] else [(acc.reverse, [])]
  | acc, c :: rest =>
    if isLineTerm c then
      match rest with
      | d :: rest2 =>
        if c = '\r' ∧ d = '\n' then (acc.reverse, [c, d]) :: pyLinesGo [] rest2
        else (acc.reverse, [c]) :: pyLinesGo [] (d :: rest2)
      | [] => (acc.reverse, [c]) :: pyLinesGo [] []
    else pyLinesGo (c :: acc) rest

/-- Python `s.splitlines()` (terminators removed). -/
def pySplitlines (s : String) : List String :=
  (pyLinesGo [] s.data).map (fun p => ⟨p.1⟩)

/-- Python `s.splitlines(keepends=True)`. -/
def pySplitlinesKeep (s : String) : List String :=
  (pyLinesGo [] s.data).map (fun p => ⟨p.1 ++ p.2⟩)

/-- Normalise a Python slice index to an absolute position in a list of
length `L` (negative indices count from the end; everything is clamped
into `[0, L]`). -/
def pyIdx (L : Nat) (i : Int) : Nat :=
  if i < 0 then ((L : Int) + i).toNat else min i.toNat L

/-- Python list slice assignment `xs[i:j] = v`. -/
def pySetSlice {α : Type} (xs : List α) (i j : Int) (v : List α) : List α :=
  let a := pyIdx xs.length i
  let b := max a (pyIdx xs.length j)
  xs.take a ++ v ++ xs.drop b

/-- A parsed hunk, as built by `apply_diff`: the two 1-based starts from the
`@@` header and the list of (op character, line text) changes. -/
structure Hunk where
  old_start : Nat
  new_start : Nat
  changes : List (Char × String)
  deriving DecidableEq, Repr

/-- Decimal value of a digit list (what Python `int()` computes on it). -/
def digitsVal (ds : List Char) : Nat :=
  ds.foldl (fun n c => n * 10 + (c.toNat - 48)) 0

/-- Parse a nonempty run of ASCII digits from the front of a character list
(the `(\d+)` groups of the hunk-header regex). -/
def parseNatCore (cs : List Char) : Option (Nat × List Char) :=
  let ds := cs.takeWhile (fun c => c.isDigit)
  if ds.isEmpty then none else some (digitsVal ds, cs.dropWhile (fun c => c.isDigit))

/-- Consume the optional `,count` part of a hunk-header range (the
`(?:,(\d+))?` group; the count itself is validated but discarded by the
source). -/
def afterCount : List Char → List Char
  | [] => []
  | c :: rest =>
    if c = ',' then
      match parseNatCore rest with
      | some (_, rest2) => rest2
      | none => c :: rest
    else c :: rest

/-- `re.match(r'@@ -(\d+)(?:,(\d+))? \+(\d+)(?:,(\d+))? @@', line)`, returning
the two starts (groups 1 and 3), the only captures `apply_diff` uses. -/
def parseHunkHeader (line : String) : Option (Nat × Nat) :=
  match line.data with
  | a :: b :: c :: d :: rest =>
    if a = '@' ∧ b = '@' ∧ c = ' ' ∧ d = '-' then
      match parseNatCore rest with
      | none => none
      | some (oldS, r1) =>
        match afterCount r1 with
        | c1 :: c2 :: r3 =>
          if c1 = ' ' ∧ c2 = '+' then
            match parseNatCore r3 with
            | none => none
            | some (newS, r4) =>
              match afterCount r4 with
              | d1 :: d2 :: d3 :: _ =>
                if d1 = ' ' ∧ d2 = '@' ∧ d3 = '@' then some (oldS, newS)
                else none
              | _ => none
          else none
        | _ => none
    else none
  | _ => none

/-- Character-list prefix test (the model of `str.startswith`). -/
def charsPre : List Char → List Char → Bool
  | [], _ => true
  | _ :: _, [] => false
  | c :: cs, d :: ds => c = d && charsPre cs ds

/-- `s.startswith(p)`. -/
def strStartsWith (s p : String) : Bool := charsPre p.data s.data

/-- `s[1:]`. -/
def strDrop1 (s : String) : String := ⟨s.data.drop 1⟩

/-- One step of the hunk-parsing loop of `apply_diff`.  State: hunks already
closed (in order) and the hunk currently being filled. -/
def parseStep (st : List Hunk × Option Hunk) (line : String) :
    List Hunk × Option Hunk :=
  if strStartsWith line "@@" then
    match parseHunkHeader line with
    | some (o, n) => (st.1 ++ st.2.toList, some ⟨o, n, []⟩)
    | none => st
  else
    match st.2 with
    | none => st
    | some h =>
      if strStartsWith line "-" then
        (st.1, some { h with changes := h.changes ++ [('-', strDrop1 line)] })
      else if strStartsWith line "+" then
        (st.1, some { h with changes := h.changes ++ [('+', strDrop1 line)] })
      else if strStartsWith line " " then
        (st.1, some { h with changes := h.changes ++ [(' ', strDrop1 line)] })
      else st

/-- The hunk-parsing loop of `apply_diff`, over already-split diff lines. -/
def parse_hunks_lines (ls : List String) : List Hunk :=
  let st := ls.foldl parseStep ([], none)
  st.1 ++ st.2.toList

/-- Hunks parsed by `apply_diff` from a diff text. -/
def parse_hunks (diff_text : String) : List Hunk :=
  parse_hunks_lines (pySplitlines diff_text)

/-- The direction-dependent swap of an op character (`'-'` and `'+'` trade
places when reverse-applying). -/
def hunkChangeOp (pr : Char × String) (reverse : Bool) : Char :=
  if reverse then (if pr.1 = '-' then '+' else if pr.1 = '+' then '-' else pr.1)
  else pr.1

/-- The replacement lines of a hunk: texts of `' '` and `'+'` ops after the
direction-dependent swap of `'-'`/`'+'`. -/
def hunkNewLines (h : Hunk) (reverse : Bool) : List String :=
  h.changes.filterMap (fun pr =>
    if hunkChangeOp pr reverse = ' ' ∨ hunkChangeOp pr reverse = '+' then
      some pr.2
    else none)

/-- `old_count`: how many existing lines the hunk replaces. -/
def hunkOldCount (h : Hunk) (reverse : Bool) : Nat :=
  (h.changes.filter (fun pr =>
    decide ((if reverse then pr.1 = '+' else pr.1 = '-') ∨ pr.1 = ' '))).length

/-- The 0-based (possibly `-1`) start index at which a hunk is applied. -/
def hunkStart (h : Hunk) (reverse : Bool) : Int :=
  (if reverse then (h.new_start : Int) else (h.old_start : Int)) - 1

/-- `'\n'.join(ls)`. -/
def joinNL : List String → String
  | [] => ""
  | [x] => x
  | x :: xs => x ++ "\n" ++ joinNL xs

/-- `"".join(ls)`. -/
def joinAll : List String → String
  | [] => ""
  | x :: xs => x ++ joinAll xs

/-- Whether a text ends with a line terminator. -/
def endsWithLineTerm (s : String) : Bool :=
  match s.data.getLast? with
  | some c => isLineTerm c
  | none => false

/-- Application of a single hunk by slice assignment. -/
def applyHunk (lines : List String) (h : Hunk) (reverse : Bool) : List String :=
  let s := hunkStart h reverse
  pySetSlice lines s (s + hunkOldCount h reverse) (hunkNewLines h reverse)

/-- The hunk-application loop of `apply_diff` (hunks applied in reverse
order to preserve line numbers). -/
def apply_hunks (lines : List String) (hs : List Hunk) (reverse : Bool) :
    List String :=
  hs.reverse.foldl (fun res h => applyHunk res h reverse) lines

/-- `apply_diff(content, diff_text, reverse)` from the source: parse hunks,
and if any were found, apply them and re-join with `'\n'`. -/
def apply_diff (content diff_text : String) (reverse : Bool) : String :=
  let lines := pySplitlines content
  let hunks := parse_hunks diff_text
  if hunks.isEmpty then content
  else joinNL (apply_hunks lines hunks reverse)

/-! ### The embedding of `difflib` as called by `create_unified_diff`

`difflib.unified_diff(a, b, ...)` constructs `SequenceMatcher(None, a, b)`:
`isjunk` is `None`, so the junk set `bjunk` is empty and the final two
junk-extension loops of `find_longest_match` never fire; the `autojunk`
popularity heuristic is active. -/

/-- All indices of `s` in `b` (the raw `b2j` mapping, ascending). -/
def b2jAll (b : List String) (s : String) : List Nat :=
  (List.range b.length).filter (fun j => b.getD j "" = s)

/-- The `autojunk` popularity test: with at least 200 elements, an element
seen more than `len(b) // 100 + 1` times is dropped from `b2j`. -/
def isPopular (b : List String) (s : String) : Bool :=
  decide (200 ≤ b.length) && decide (b.length / 100 + 1 < (b2jAll b s).length)

/-- The thinned `b2j` mapping used by the matching loop. -/
def b2j (b : List String) (s : String) : List Nat :=
  if isPopular b s then [] else b2jAll b s

/-- A match triple `(i, j, size)` as returned by `find_longest_match`. -/
structure FlmBest where
  i : Nat
  j : Nat
  size : Nat
  deriving DecidableEq, Repr

/-- One cell of the longest-match dynamic programming loop: `j2len` is the
previous row, the new row is built by `newj2len[j] = j2len.get(j-1, 0) + 1`,
and a strictly larger run becomes the new best. -/
def dpInner (j2len : Nat → Nat) (i : Nat) (st : (Nat → Nat) × FlmBest)
    (j : Nat) : (Nat → Nat) × FlmBest :=
  let k := (if j = 0 then 0 else j2len (j - 1)) + 1
  let nr := Function.update st.1 j k
  if st.2.size < k then (nr, ⟨i + 1 - k, j + 1 - k, k⟩) else (nr, st.2)

/-- One outer iteration (one element of `a`) of the matching loop; the
`continue`/`break` pair keeps exactly the indices in `[blo, bhi)` of the
ascending `b2j` list. -/
def dpOuter (a b : List String) (blo bhi : Nat) (st : (Nat → Nat) × FlmBest)
    (i : Nat) : (Nat → Nat) × FlmBest :=
  let js := (b2j b (a.getD i "")).filter
    (fun j => decide (blo ≤ j) && decide (j < bhi))
  js.foldl (dpInner st.1 i) ((fun _ => 0), st.2)

/-- The full dynamic-programming phase of `find_longest_match`. -/
def dpLoop (a b : List String) (alo ahi blo bhi : Nat) : FlmBest :=
  ((List.range' alo (ahi - alo)).foldl (dpOuter a b blo bhi)
    ((fun _ => 0), ⟨alo, blo, 0⟩)).2

/-- The backward extension loop of `find_longest_match` (with an empty junk
set the junk condition is vacuous). -/
def extendBack (a b : List String) (alo blo : Nat) : Nat → FlmBest → FlmBest
  | 0, st => st
  | fuel + 1, st =>
    if alo < st.i ∧ blo < st.j ∧ a.getD (st.i - 1) "" = b.getD (st.j - 1) "" then
      extendBack a b alo blo fuel ⟨st.i - 1, st.j - 1, st.size + 1⟩
    else st

/-- The forward extension loop of `find_longest_match`. -/
def extendFwd (a b : List String) (ahi bhi : Nat) : Nat → FlmBest → FlmBest
  | 0, st => st
  | fuel + 1, st =>
    if st.i + st.size < ahi ∧ st.j + st.size < bhi ∧
        a.getD (st.i + st.size) "" = b.getD (st.j + st.size) "" then
      extendFwd a b ahi bhi fuel ⟨st.i, st.j, st.size + 1⟩
    else st

/-- `SequenceMatcher.find_longest_match` on the window
`a[alo:ahi]`, `b[blo:bhi]`.  The extension fuels dominate the number of
possible steps (at most `i` backward and `ahi` forward). -/
def find_longest_match (a b : List String) (alo ahi blo bhi : Nat) : FlmBest :=
  let st0 := dpLoop a b alo ahi blo bhi
  let st1 := extendBack a b alo blo st0.i st0
  extendFwd a b ahi bhi (ahi + bhi) st1

/-- The worklist loop of `get_matching_blocks`: windows are processed LIFO
(the head of the list is the most recently pushed window), nonzero matches
are collected, and both flanking sub-windows are pushed.  Fuel
`la + lb + 1` bounds the iteration count (each step strictly decreases the
total window measure). -/
def gmbLoop (a b : List String) :
    Nat → List (Nat × Nat × Nat × Nat) → List FlmBest → List FlmBest
  | 0, _, blocks => blocks
  | _ + 1, [], blocks => blocks
  | fuel + 1, (alo, ahi, blo, bhi) :: rest, blocks =>
    let m := find_longest_match a b alo ahi blo bhi
    if m.size = 0 then gmbLoop a b fuel rest blocks
    else
      let q1 : List (Nat × Nat × Nat × Nat) :=
        if alo < m.i ∧ blo < m.j then [(alo, m.i, blo, m.j)] else []
      let q2 : List (Nat × Nat × Nat × Nat) :=
        if m.i + m.size < ahi ∧ m.j + m.size < bhi then
          [(m.i + m.size, ahi, m.j + m.size, bhi)] else []
      gmbLoop a b fuel (q2 ++ q1 ++ rest) (blocks ++ [m])

/-- Lexicographic comparison of match triples (Python tuple ordering, as
used by `matching_blocks.sort()`). -/
def blockLe (x y : FlmBest) : Bool :=
  decide (x.i < y.i) || (decide (x.i = y.i) &&
    (decide (x.j < y.j) || (decide (x.j = y.j) && decide (x.size ≤ y.size))))

/-- Sorted insertion for `sortBlocks`. -/
def insertBlock (x : FlmBest) : List FlmBest → List FlmBest
  | [] => [x]
  | y :: l => if blockLe x y then x :: y :: l else y :: insertBlock x l

/-- `matching_blocks.sort()`. -/
def sortBlocks (l : List FlmBest) : List FlmBest := l.foldr insertBlock []

/-- The second phase of `get_matching_blocks`: collapse adjacent matches,
starting from the sentinel accumulator `(0, 0, 0)`. -/
def mergeAdjacent : FlmBest → List FlmBest → List FlmBest
  | acc, [] => if acc.size ≠ 0 then [acc] else []
  | acc, blk :: rest =>
    if acc.i + acc.size = blk.i ∧ acc.j + acc.size = blk.j then
      mergeAdjacent ⟨acc.i, acc.j, acc.size + blk.size⟩ rest
    else if acc.size ≠ 0 then acc :: mergeAdjacent blk rest
    else mergeAdjacent blk rest

/-- `SequenceMatcher.get_matching_blocks`, ending with the `(la, lb, 0)`
sentinel. -/
def get_matching_blocks (a b : List String) : List FlmBest :=
  let la := a.length
  let lb := b.length
  let raw := gmbLoop a b (la + lb + 1) [(0, la, 0, lb)] []
  mergeAdjacent ⟨0, 0, 0⟩ (sortBlocks raw) ++ [⟨la, lb, 0⟩]

/-- An opcode `(tag, i1, i2, j1, j2)` of `get_opcodes`. -/
structure Opcode where
  tag : String
  a1 : Nat
  a2 : Nat
  b1 : Nat
  b2 : Nat
  deriving DecidableEq, Repr

/-- The conversion of matching blocks into a tiling list of opcodes. -/
def opcodesGo : Nat → Nat → List FlmBest → List Opcode
  | _, _, [] => []
  | i, j, blk :: rest =>
    let tag := if i < blk.i ∧ j < blk.j then "replace"
      else if i < blk.i then "delete"
      else if j < blk.j then "insert" else ""
    (if tag ≠ "" then [⟨tag, i, blk.i, j, blk.j⟩] else []) ++
    (if blk.size ≠ 0 then
      [⟨"equal", blk.i, blk.i + blk.size, blk.j, blk.j + blk.size⟩] else []) ++
    opcodesGo (blk.i + blk.size) (blk.j + blk.size) rest

/-- `SequenceMatcher.get_opcodes`. -/
def get_opcodes (a b : List String) : List Opcode :=
  opcodesGo 0 0 (get_matching_blocks a b)

/-- Trim the leading `equal` opcode to at most `n = 3` lines of context. -/
def adjustHead : List Opcode → List Opcode
  | [] => []
  | c :: rest =>
    if c.tag = "equal" then
      { c with a1 := max c.a1 (c.a2 - 3), b1 := max c.b1 (c.b2 - 3) } :: rest
    else c :: rest

/-- Trim the trailing `equal` opcode to at most `n = 3` lines of context. -/
def adjustLast : List Opcode → List Opcode
  | [] => []
  | [c] =>
    if c.tag = "equal" then
      [{ c with a2 := min c.a2 (c.a1 + 3), b2 := min c.b2 (c.b1 + 3) }]
    else [c]
  | c :: rest => c :: adjustLast rest

/-- One step of the grouping loop of `get_grouped_opcodes` (`n = 3`,
`nn = 6`): a large interior `equal` opcode closes the current group (keeping
3 lines of context on each side). -/
def groupStep (st : List (List Opcode) × List Opcode) (c : Opcode) :
    List (List Opcode) × List Opcode :=
  if c.tag = "equal" ∧ 6 < c.a2 - c.a1 then
    (st.1 ++ [st.2 ++ [{ c with a2 := min c.a2 (c.a1 + 3), b2 := min c.b2 (c.b1 + 3) }]],
     [{ c with a1 := max c.a1 (c.a2 - 3), b1 := max c.b1 (c.b2 - 3) }])
  else (st.1, st.2 ++ [c])

/-- `SequenceMatcher.get_grouped_opcodes(3)`: a trailing group that is a
single `equal` opcode is dropped, as is (vacuously) an empty one. -/
def get_grouped_opcodes (a b : List String) : List (List Opcode) :=
  let codes0 := get_opcodes a b
  let codes1 : List Opcode := if codes0.isEmpty then [⟨"equal", 0, 1, 0, 1⟩] else codes0
  let codes2 := adjustLast (adjustHead codes1)
  let st := codes2.foldl groupStep ([], [])
  match st.2 with
  | [] => st.1
  | [c] => if c.tag = "equal" then st.1 else st.1 ++ [[c]]
  | g => st.1 ++ [g]

/-- The character of a decimal digit. -/
def digitChar (d : Nat) : Char := Char.ofNat (48 + d)

/-- Decimal digit list of `n`, most significant first (fuel-driven). -/
def natDigitsGo : Nat → Nat → List Char
  | 0, _ => []
  | fuel + 1, n =>
    if n < 10 then [digitChar n] else natDigitsGo fuel (n / 10) ++ [digitChar (n % 10)]

/-- Python `str(n)` for a natural number. -/
def natDecimal (n : Nat) : String := ⟨natDigitsGo (n + 1) n⟩

/-- `difflib._format_range_unified`. -/
def formatRangeUnified (start stop : Nat) : String :=
  let beginning := start + 1
  let length := stop - start
  if length = 1 then natDecimal beginning
  else natDecimal (if length = 0 then start else beginning) ++ "," ++ natDecimal length

/-- Python slice `l[i:j]`. -/
def sliceList {α : Type} (l : List α) (i j : Nat) : List α :=
  (l.drop i).take (j - i)

/-- The op lines emitted for one opcode of a group. -/
def renderOpcode (a b : List String) (c : Opcode) : List String :=
  if c.tag = "equal" then (sliceList a c.a1 c.a2).map (fun l => " " ++ l)
  else
    (if c.tag = "replace" ∨ c.tag = "delete" then
      (sliceList a c.a1 c.a2).map (fun l => "-" ++ l) else []) ++
    (if c.tag = "replace" ∨ c.tag = "insert" then
      (sliceList b c.b1 c.b2).map (fun l => "+" ++ l) else [])

/-- The lines emitted for one group: its `@@` header then its op lines. -/
def renderGroup (a b : List String) (g : List Opcode) : List String :=
  let f := g.headD ⟨"", 0, 0, 0, 0⟩
  let l := g.getLastD ⟨"", 0, 0, 0, 0⟩
  ("@@ -" ++ formatRangeUnified f.a1 l.a2 ++ " +" ++
    formatRangeUnified f.b1 l.b2 ++ " @@\n") ::
  (g.map (renderOpcode a b)).flatten

/-- `difflib.unified_diff(a, b, fromfile, tofile)` with the default
`lineterm='\n'` and empty dates: the two `---`/`+++` header lines are
emitted before the first group only. -/
def unified_diff (a b : List String) (fromfile tofile : String) : List String :=
  let groups := get_grouped_opcodes a b
  if groups.isEmpty then []
  else ("--- " ++ fromfile ++ "\n") :: ("+++ " ++ tofile ++ "\n") ::
    (groups.map (renderGroup a b)).flatten

/-- The trailing-newline normalisation of `create_unified_diff`: if the last
line does not end with `'\n'`, append one to it. -/
def forceTrailingNL (ls : List String) : List String :=
  match ls.getLast? with
  | none => ls
  | some l => if l.data.getLast? = some '\n' then ls else ls.dropLast ++ [l ++ "\n"]

/-- `create_unified_diff(old_content, new_content, block_name)`. -/
def create_unified_diff (old_content new_content block_name : String) : String :=
  let old_lines := forceTrailingNL (pySplitlinesKeep old_content)
  let new_lines := forceTrailingNL (pySplitlinesKeep new_content)
  joinAll (unified_diff old_lines new_lines
    ("a/" ++ block_name) ("b/" ++ block_name))

/-- A log entry as replayed by `cmd_history`: its timestamp and diff text
(`entry.get("diff", "")`, so a missing field reads as `""`). -/
structure LogEntry where
  timestamp : String
  diff : String
  deriving DecidableEq, Repr

/-- A reconstructed version shown by `cmd_history`. -/
structure Version where
  content : String
  timestamp : String
  diff : Option String
  deriving DecidableEq, Repr

/-- One step of the reconstruction walk of `cmd_history`: reverse-apply a
non-empty diff to the running content and prepend the obtained version;
skip entries whose diff text is empty. -/
def reconstructStep (st : String × List Version) (e : LogEntry) :
    String × List Version :=
  if e.diff ≠ "" then
    let c := apply_diff st.1 e.diff true
    (c, ⟨c, e.timestamp, some e.diff⟩ :: st.2)
  else st

/-- The version-list reconstruction of `cmd_history`: walk the log newest to
oldest; the current snapshot (with no originating diff) stays last. -/
def reconstruct_versions (current : String) (history : List LogEntry) :
    List Version :=
  (history.reverse.foldl reconstructStep
    (current, [⟨current, "current", none⟩])).2

/-- A string free of line-terminator characters (the shape of every element
produced by `pySplitlines`). -/
def TermFreeStr (s : String) : Prop := ∀ c ∈ s.data, isLineTerm c = false

/-- `load_diff_history` at the interface level: a missing log file reads as
the empty sequence, never an error (the JSON decoding of present files is
outside this embedding). -/
def load_diff_history (file : Option (List LogEntry)) : List LogEntry :=
  file.getD []

/-- The per-block persistent state handled by `handle_hook`: the current
snapshot (`None` before the first observation) and the log of diff texts. -/
structure BlockState where
  snapshot : Option String
  log : List String
  deriving DecidableEq, Repr

/-- The per-block body of `handle_hook`: initialise a missing snapshot
without logging; on changed content log the diff (only if non-empty) and
overwrite the snapshot; otherwise do nothing. -/
def observe_block (name : String) (st : BlockState) (server : String) :
    BlockState :=
  match st.snapshot with
  | none => { snapshot := some server, log := st.log }
  | some local_content =>
    if local_content = server then st
    else
      let d := create_unified_diff local_content server name
      { snapshot := some server,
        log := st.log ++ (if d ≠ "" then [d] else []) }

/-! ## Basic lemmas about parsing and application -/

lemma parseStep_skip (st : List Hunk × Option Hunk) (l : String)
    (h : (strStartsWith l "@@" = true ∧ parseHunkHeader l = none) ∨
      (strStartsWith l "@@" = false ∧ strStartsWith l "-" = false ∧
       strStartsWith l "+" = false ∧ strStartsWith l " " = false)) :
    parseStep st l = st := by
  obtain ⟨done, cur⟩ := st
  rcases h with ⟨h1, h2⟩ | ⟨h1, h2, h3, h4⟩
  · simp [parseStep, h1, h2]
  · cases cur <;> simp [parseStep, h1, h2, h3, h4]

lemma foldl_parseStep_none (ls : List String)
    (h : ∀ l ∈ ls, parseHunkHeader l = none) :
    ls.foldl parseStep ([], none) = ([], none) := by
  induction ls with
  | nil => rfl
  | cons l ls ih =>
    have hstep : parseStep ([], none) l = ([], none) := by
      by_cases hs : strStartsWith l "@@" = true
      · simp [parseStep, hs, h l (by simp)]
      · simp [parseStep, hs]
    rw [List.foldl_cons, hstep]
    exact ih fun l hl => h l (by simp [hl])

lemma parse_hunks_nil_of_headers (d : String)
    (h : ∀ l ∈ pySplitlines d, parseHunkHeader l = none) : parse_hunks d = [] := by
  unfold parse_hunks parse_hunks_lines
  rw [foldl_parseStep_none _ h]
  rfl

lemma apply_diff_of_no_hunks (content d : String) (rev : Bool)
    (h : parse_hunks d = []) : apply_diff content d rev = content := by
  simp [apply_diff, h]

/-! ## Claim theorems: totality, malformed input, bounds -/

/-- C10: the applier is total: `apply_diff` is a plain function on strings
(it can raise nothing).  Lines whose hunk header does not match the numeric
`@@` pattern, and op lines not prefixed by `' '`, `'-'` or `'+'`, are
silently skipped by the parsing loop, and a diff text yielding no parsed
hunks returns the input content unchanged. -/
theorem apply_diff_total_and_skips :
    (∀ (content d : String) (rev : Bool),
      parse_hunks d = [] → apply_diff content d rev = content) ∧
    (∀ (xs ys : List String) (l : String),
      ((strStartsWith l "@@" = true ∧ parseHunkHeader l = none) ∨
       (strStartsWith l "@@" = false ∧ strStartsWith l "-" = false ∧
        strStartsWith l "+" = false ∧ strStartsWith l " " = false)) →
      parse_hunks_lines (xs ++ l :: ys) = parse_hunks_lines (xs ++ ys)) := by
  refine ⟨fun content d rev h => apply_diff_of_no_hunks content d rev h,
    fun xs ys l h => ?_⟩
  unfold parse_hunks_lines
  rw [List.foldl_append, List.foldl_cons, parseStep_skip _ l h, ← List.foldl_append]

/-- Witness for C10 at concrete inputs. -/
theorem apply_diff_total_and_skips_witness :
    apply_diff "keep\nme" "no hunk headers at all" true = "keep\nme" ∧
    parse_hunks_lines (["@@ -1 +1 @@", "+a"] ++ "junk" :: [" b"]) =
      parse_hunks_lines (["@@ -1 +1 @@", "+a"] ++ [" b"]) :=
  ⟨apply_diff_total_and_skips.1 "keep\nme" "no hunk headers at all" true (by rfl),
   apply_diff_total_and_skips.2 ["@@ -1 +1 @@", "+a"] [" b"] "junk"
     (Or.inr (by refine ⟨rfl, rfl, rfl, rfl⟩))⟩

/-- C5 counterexample: a malformed hunk header raises nothing — no
`MalformedPatchError` exists in the code.  Parsing yields zero hunks and
`apply_diff` silently returns the content unchanged. -/
theorem malformed_header_not_rejected :
    parse_hunks "@@ bad header @@\n+x" = [] ∧
    apply_diff "a" "@@ bad header @@\n+x" false = "a" := ⟨rfl, rfl⟩

/-- C5 amended: a hunk header missing the `@@` markers or with non-numeric
ranges is silently skipped; if no line of the patch parses as a valid
header, the parse result is the empty hunk list and applying the patch
returns the content unchanged — no error is ever raised. -/
theorem malformed_headers_skipped (content d : String) (rev : Bool)
    (h : ∀ l ∈ pySplitlines d, parseHunkHeader l = none) :
    parse_hunks d = [] ∧ apply_diff content d rev = content := by
  have hp := parse_hunks_nil_of_headers d h
  exact ⟨hp, apply_diff_of_no_hunks content d rev hp⟩

/-- Witness for the amended C5 (a header with non-numeric ranges). -/
theorem malformed_headers_skipped_witness :
    parse_hunks "@@ -x,y +1 @@\n+new line" = [] ∧
    apply_diff "base" "@@ -x,y +1 @@\n+new line" false = "base" :=
  malformed_headers_skipped "base" "@@ -x,y +1 @@\n+new line" false (by decide)

/-- C4 counterexample: a hunk whose declared start/count lie far beyond the
single line of the content is applied anyway — Python slice assignment
clamps, the replacement lines are appended, and no `PatchMismatchError`
exists to be raised. -/
theorem out_of_bounds_hunk_no_error :
    apply_diff "a" "@@ -5,3 +5,3 @@\n-x\n-y\n-z\n+p\n+q\n+r" false = "a\np\nq\nr" := rfl

/-- C4 amended: `apply_diff` performs no bounds checking: a hunk whose
start lies at or beyond the end of the content is applied by clamping (its
replacement lines are appended after the existing lines) instead of
failing; consequently nothing can abort a history reconstruction. -/
theorem out_of_bounds_hunk_clamped (content d : String) (rev : Bool) (h : Hunk)
    (hp : parse_hunks d = [h])
    (hb : ((pySplitlines content).length : Int) ≤ hunkStart h rev) :
    apply_diff content d rev =
      joinNL (pySplitlines content ++ hunkNewLines h rev) := by
  set L := (pySplitlines content).length with hL
  have h0 : (0 : Int) ≤ hunkStart h rev := le_trans (by positivity) hb
  have hmain : applyHunk (pySplitlines content) h rev =
      pySplitlines content ++ hunkNewLines h rev := by
    simp only [applyHunk, pySetSlice]
    have e1 : pyIdx L (hunkStart h rev) = L := by
      unfold pyIdx
      rw [if_neg (by omega)]
      exact Nat.min_eq_right ((Int.le_toNat h0).2 hb)
    have e2 : pyIdx L (hunkStart h rev + (hunkOldCount h rev : Int)) = L := by
      unfold pyIdx
      rw [if_neg (by omega)]
      exact Nat.min_eq_right ((Int.le_toNat (by omega)).2 (by omega))
    rw [← hL, e1, e2, max_self, List.take_length, List.drop_length,
      List.append_nil]
  unfold apply_diff
  rw [hp]
  simp only [List.isEmpty_cons, Bool.false_eq_true, if_false]
  unfold apply_hunks
  simp [hmain]

/-- Witness for the amended C4. -/
theorem out_of_bounds_hunk_clamped_witness :
    apply_diff "a" "@@ -5,3 +5,3 @@\n-x\n-y\n-z\n+p\n+q\n+r" true =
      joinNL (pySplitlines "a" ++
        hunkNewLines ⟨5, 5, [('-', "x"), ('-', "y"), ('-', "z"),
          ('+', "p"), ('+', "q"), ('+', "r")]⟩ true) :=
  out_of_bounds_hunk_clamped "a" "@@ -5,3 +5,3 @@\n-x\n-y\n-z\n+p\n+q\n+r" true
    ⟨5, 5, [('-', "x"), ('-', "y"), ('-', "z"), ('+', "p"), ('+', "q"), ('+', "r")]⟩
    (by rfl) (by decide)

/-! ## Shape of split lines, and the trailing-terminator behaviour -/

lemma pyLinesGo_nil (acc : List Char) :
    pyLinesGo acc [] = if acc.isEmpty then [] else [(acc.reverse, [])] := by
  rw [pyLinesGo.eq_def]

lemma pyLinesGo_cons_nonterm (acc : List Char) (c : Char) (rest : List Char)
    (h : isLineTerm c = false) :
    pyLinesGo acc (c :: rest) = pyLinesGo (c :: acc) rest := by
  rw [pyLinesGo.eq_def]
  cases rest <;> simp [h]

lemma pyLinesGo_cons_crlf (acc : List Char) (rest2 : List Char) :
    pyLinesGo acc ('\r' :: '\n' :: rest2) =
      (acc.reverse, ['\r', '\n']) :: pyLinesGo [] rest2 := by
  rw [pyLinesGo.eq_def]
  norm_num [isLineTerm]

lemma pyLinesGo_cons_term (acc : List Char) (c : Char) (rest : List Char)
    (h : isLineTerm c = true) (hshape : ¬(c = '\r' ∧ rest.head? = some '\n')) :
    pyLinesGo acc (c :: rest) = (acc.reverse, [c]) :: pyLinesGo [] rest := by
  rw [pyLinesGo.eq_def]
  cases rest with
  | nil => simp [h]
  | cons d r2 =>
    have hcd : ¬(c = '\r' ∧ d = '\n') := by simpa using hshape
    simp [h, hcd]

lemma pyLinesGo_termFree : ∀ (acc cs : List Char),
    (∀ c ∈ acc, isLineTerm c = false) →
    ∀ p ∈ pyLinesGo acc cs, ∀ c ∈ p.1, isLineTerm c = false := by
  intro acc cs
  induction acc, cs using pyLinesGo.induct with
  | case1 acc hempty =>
    intro _ p hp
    rw [pyLinesGo_nil, if_pos hempty] at hp
    simp at hp
  | case2 acc hempty =>
    intro hacc p hp c hc
    rw [pyLinesGo_nil, if_neg hempty] at hp
    simp at hp
    subst hp
    simp only at hc
    exact hacc c (List.mem_reverse.1 hc)
  | case3 acc c hterm d rest2 hcd ih =>
    intro hacc p hp x hx
    obtain ⟨rfl, rfl⟩ := hcd
    rw [pyLinesGo_cons_crlf] at hp
    rcases List.mem_cons.1 hp with rfl | hp2
    · exact hacc x (List.mem_reverse.1 hx)
    · exact ih (by simp) p hp2 x hx
  | case4 acc c hterm d rest2 hcd ih =>
    intro hacc p hp x hx
    rw [pyLinesGo_cons_term acc c (d :: rest2) hterm (by simpa using hcd)] at hp
    rcases List.mem_cons.1 hp with rfl | hp2
    · exact hacc x (List.mem_reverse.1 hx)
    · exact ih (by simp) p hp2 x hx
  | case5 acc c hterm ih =>
    intro hacc p hp x hx
    rw [pyLinesGo_cons_term acc c [] hterm (by simp)] at hp
    rcases List.mem_cons.1 hp with rfl | hp2
    · exact hacc x (List.mem_reverse.1 hx)
    · exact ih (by simp) p hp2 x hx
  | case6 acc c rest hterm ih =>
    intro hacc p hp x hx
    rw [pyLinesGo_cons_nonterm acc c rest (by simpa using hterm)] at hp
    refine ih ?_ p hp x hx
    intro e he
    rcases List.mem_cons.1 he with rfl | he2
    · simpa using hterm
    · exact hacc e he2

lemma pySplitlines_termFree (t : String) :
    ∀ s ∈ pySplitlines t, TermFreeStr s := by
  intro s hs
  unfold pySplitlines at hs
  obtain ⟨p, hp, rfl⟩ := List.mem_map.1 hs
  intro c hc
  exact pyLinesGo_termFree [] t.data (by simp) p hp c hc

lemma strDrop1_termFree {s : String} (h : TermFreeStr s) :
    TermFreeStr (strDrop1 s) := by
  intro c hc
  exact h c (List.mem_of_mem_drop hc)

lemma parseStep_termFree (st : List Hunk × Option Hunk) (l : String)
    (hl : TermFreeStr l)
    (h1 : ∀ h ∈ st.1, ∀ pr ∈ h.changes, TermFreeStr pr.2)
    (h2 : ∀ h ∈ st.2.toList, ∀ pr ∈ h.changes, TermFreeStr pr.2) :
    (∀ h ∈ (parseStep st l).1, ∀ pr ∈ h.changes, TermFreeStr pr.2) ∧
    (∀ h ∈ (parseStep st l).2.toList, ∀ pr ∈ h.changes, TermFreeStr pr.2) := by
  obtain ⟨done, cur⟩ := st
  unfold parseStep
  by_cases hs : strStartsWith l "@@" = true
  · rw [if_pos hs]
    cases hh : parseHunkHeader l with
    | none => exact ⟨h1, h2⟩
    | some v =>
      obtain ⟨o, n⟩ := v
      refine ⟨?_, ?_⟩
      · intro h hmem
        rcases List.mem_append.1 hmem with hm | hm
        · exact h1 h hm
        · exact h2 h hm
      · intro h hmem pr hpr
        simp at hmem
        subst hmem
        simp at hpr
  · rw [if_neg hs]
    cases cur with
    | none => exact ⟨h1, h2⟩
    | some h0 =>
      have hh0 := h2 h0 (by simp)
      have key : ∀ (ch : Char) (pr : Char × String),
          pr ∈ h0.changes ++ [(ch, strDrop1 l)] → TermFreeStr pr.2 := by
        intro ch pr hpr
        rcases List.mem_append.1 hpr with hm | hm
        · exact hh0 pr hm
        · simp at hm
          rw [hm]
          exact strDrop1_termFree hl
      split_ifs with b1 b2 b3
      · exact ⟨h1, by intro h hm pr hpr; simp at hm; subst hm; exact key _ pr hpr⟩
      · exact ⟨h1, by intro h hm pr hpr; simp at hm; subst hm; exact key _ pr hpr⟩
      · exact ⟨h1, by intro h hm pr hpr; simp at hm; subst hm; exact key _ pr hpr⟩
      · exact ⟨h1, h2⟩

lemma foldl_parseStep_termFree (ls : List String)
    (hls : ∀ l ∈ ls, TermFreeStr l) :
    ∀ (st : List Hunk × Option Hunk),
    (∀ h ∈ st.1, ∀ pr ∈ h.changes, TermFreeStr pr.2) →
    (∀ h ∈ st.2.toList, ∀ pr ∈ h.changes, TermFreeStr pr.2) →
    ∀ h ∈ (ls.foldl parseStep st).1 ++ (ls.foldl parseStep st).2.toList,
      ∀ pr ∈ h.changes, TermFreeStr pr.2 := by
  induction ls with
  | nil =>
    intro st h1 h2 h hm
    rcases List.mem_append.1 hm with hm | hm
    exacts [h1 h hm, h2 h hm]
  | cons l ls ih =>
    intro st h1 h2
    rw [List.foldl_cons]
    have hstep := parseStep_termFree st l (hls l (by simp)) h1 h2
    exact ih (fun x hx => hls x (by simp [hx])) _ hstep.1 hstep.2

lemma parse_hunks_termFree (d : String) :
    ∀ h ∈ parse_hunks d, ∀ pr ∈ h.changes, TermFreeStr pr.2 := by
  have := foldl_parseStep_termFree (pySplitlines d) (pySplitlines_termFree d)
    ([], none) (by simp) (by simp)
  exact this

lemma hunkNewLines_termFree (h : Hunk) (rev : Bool)
    (hh : ∀ pr ∈ h.changes, TermFreeStr pr.2) :
    ∀ s ∈ hunkNewLines h rev, TermFreeStr s := by
  intro s hs
  unfold hunkNewLines at hs
  obtain ⟨pr, hpr, he⟩ := List.mem_filterMap.1 hs
  by_cases hcond : hunkChangeOp pr rev = ' ' ∨ hunkChangeOp pr rev = '+'
  · rw [if_pos hcond] at he
    cases he
    exact hh pr hpr
  · rw [if_neg hcond] at he
    cases he

lemma applyHunk_termFree (lines : List String) (h : Hunk) (rev : Bool)
    (hl : ∀ s ∈ lines, TermFreeStr s)
    (hh : ∀ pr ∈ h.changes, TermFreeStr pr.2) :
    ∀ s ∈ applyHunk lines h rev, TermFreeStr s := by
  intro s hs
  simp only [applyHunk, pySetSlice, List.mem_append] at hs
  rcases hs with (hs | hs) | hs
  · exact hl s (List.mem_of_mem_take hs)
  · exact hunkNewLines_termFree h rev hh s hs
  · exact hl s (List.mem_of_mem_drop hs)

lemma apply_hunks_termFree (lines : List String) (hs : List Hunk) (rev : Bool)
    (hl : ∀ s ∈ lines, TermFreeStr s)
    (hh : ∀ h ∈ hs, ∀ pr ∈ h.changes, TermFreeStr pr.2) :
    ∀ s ∈ apply_hunks lines hs rev, TermFreeStr s := by
  unfold apply_hunks
  suffices H : ∀ (l : List Hunk),
      (∀ h ∈ l, ∀ pr ∈ h.changes, TermFreeStr pr.2) →
      ∀ (cur : List String), (∀ s ∈ cur, TermFreeStr s) →
      ∀ s ∈ l.foldl (fun res h => applyHunk res h rev) cur, TermFreeStr s by
    exact H hs.reverse (fun h hm => hh h (List.mem_reverse.1 hm)) lines hl
  intro l
  induction l with
  | nil => intro _ cur hc s hsm; exact hc s hsm
  | cons h0 l ih =>
    intro hHs cur hc
    rw [List.foldl_cons]
    exact ih (fun h hm => hHs h (by simp [hm])) _
      (applyHunk_termFree cur h0 rev hc (hHs h0 (by simp)))

lemma endsWithLineTerm_append_right (a b : String) (hb : b.data ≠ []) :
    endsWithLineTerm (a ++ b) = endsWithLineTerm b := by
  unfold endsWithLineTerm
  rw [String.data_append, List.getLast?_append]
  cases hbl : b.data.getLast? with
  | none => exact absurd (List.getLast?_eq_none_iff.1 hbl) hb
  | some c => simp

lemma endsWithLineTerm_append_nl (a : String) :
    endsWithLineTerm (a ++ "\n") = true := by
  rw [endsWithLineTerm_append_right a "\n" (by decide)]
  rfl

lemma joinNL_cons_cons (x y : String) (l : List String) :
    joinNL (x :: y :: l) = x ++ "\n" ++ joinNL (y :: l) := by
  rw [joinNL]
  simp

lemma joinNL_ne_nil_data (x : String) (l : List String) (hl : l ≠ []) :
    (joinNL (x :: l)).data ≠ [] := by
  cases l with
  | nil => exact absurd rfl hl
  | cons y l =>
    rw [joinNL_cons_cons, String.data_append, String.data_append]
    simp

lemma endsWithLineTerm_joinNL (R : List String)
    (h : ∀ s ∈ R, TermFreeStr s) :
    endsWithLineTerm (joinNL R) =
      (decide (2 ≤ R.length) && decide (R.getLast? = some "")) := by
  induction R with
  | nil => rfl
  | cons x R ih =>
    cases R with
    | nil =>
      have hx : endsWithLineTerm x = false := by
        unfold endsWithLineTerm
        cases hxl : x.data.getLast? with
        | none => rfl
        | some c => exact h x (by simp) c (List.mem_of_mem_getLast? hxl)
      show endsWithLineTerm (joinNL [x]) = _
      rw [show joinNL [x] = x from rfl, hx]
      simp
    | cons y R' =>
      rw [joinNL_cons_cons]
      by_cases hR : (joinNL (y :: R')).data = []
      · have hyR : R' = [] ∧ y = "" := by
          cases R' with
          | nil =>
            refine ⟨rfl, ?_⟩
            have : (joinNL [y]) = y := rfl
            rw [this] at hR
            exact String.ext hR
          | cons z R'' => exact absurd hR (joinNL_ne_nil_data y (z :: R'') (by simp))
        obtain ⟨rfl, rfl⟩ := hyR
        have hj : joinNL [("" : String)] = "" := rfl
        rw [hj]
        have : (x ++ "\n" ++ "") = x ++ "\n" := by
          apply String.ext
          simp [String.data_append]
        rw [this, endsWithLineTerm_append_nl]
        simp
      · rw [endsWithLineTerm_append_right _ _ hR,
          ih (fun s hsm => h s (by simp [hsm]))]
        cases R' with
        | nil =>
          have hy : y ≠ "" := by
            intro he
            apply hR
            rw [he]
            rfl
          simp [hy]
        | cons z R'' => simp [List.getLast?_cons_cons]

/-- C3 counterexample: applying a patch that inserts an empty final line to
a content text lacking a trailing terminator produces an output that ends
with one — the applier does not preserve the absence of the trailing
terminator. -/
theorem trailing_terminator_added :
    endsWithLineTerm "x" = false ∧
    apply_diff "x" "@@ -1 +1,2 @@\n x\n+" false = "x\n" ∧
    endsWithLineTerm (apply_diff "x" "@@ -1 +1,2 @@\n x\n+" false) = true :=
  ⟨rfl, rfl, rfl⟩

/-- C3 amended: with at least one parsed hunk the applier rebuilds the text
as its lines joined by `'\n'`, so for content lacking a trailing
terminator, the output carries a trailing terminator exactly when the
patched line list ends with an empty line (and has at least two lines);
with no parsed hunks the content is returned unchanged. -/
theorem trailing_terminator_policy (content d : String) (rev : Bool)
    (h : endsWithLineTerm content = false) :
    endsWithLineTerm (apply_diff content d rev) = true ↔
      (parse_hunks d ≠ [] ∧
       2 ≤ (apply_hunks (pySplitlines content) (parse_hunks d) rev).length ∧
       (apply_hunks (pySplitlines content) (parse_hunks d) rev).getLast? =
         some "") := by
  by_cases hp : parse_hunks d = []
  · rw [apply_diff_of_no_hunks content d rev hp, h]
    simp [hp]
  · have happ : apply_diff content d rev =
        joinNL (apply_hunks (pySplitlines content) (parse_hunks d) rev) := by
      simp only [apply_diff]
      rw [if_neg (by simpa [List.isEmpty_iff] using hp)]
    rw [happ, endsWithLineTerm_joinNL _
      (apply_hunks_termFree _ _ _ (pySplitlines_termFree content)
        (parse_hunks_termFree d))]
    simp [hp, and_assoc]

/-- Witness for the amended C3. -/
theorem trailing_terminator_policy_witness :
    endsWithLineTerm "x" = false ∧
    (endsWithLineTerm (apply_diff "x" "@@ -1 +1,2 @@\n x\n+" true) = true ↔
      (parse_hunks "@@ -1 +1,2 @@\n x\n+" ≠ [] ∧
       2 ≤ (apply_hunks (pySplitlines "x")
         (parse_hunks "@@ -1 +1,2 @@\n x\n+") true).length ∧
       (apply_hunks (pySplitlines "x")
         (parse_hunks "@@ -1 +1,2 @@\n x\n+") true).getLast? = some "")) :=
  ⟨rfl, trailing_terminator_policy "x" "@@ -1 +1,2 @@\n x\n+" true rfl⟩

/-! ## Claim theorems: reconstruction -/

lemma reconstruct_fold_length (l : List LogEntry) (c : String) (vs : List Version)
    (h : ∀ e ∈ l, e.diff ≠ "") :
    ((l.foldl reconstructStep (c, vs)).2).length = vs.length + l.length := by
  induction l generalizing c vs with
  | nil => simp
  | cons e l ih =>
    rw [List.foldl_cons, reconstructStep, if_pos (h e (by simp))]
    rw [ih _ _ fun e he => h e (by simp [he])]
    simp
    omega

/-- C6 counterexample: a log entry whose diff text is empty is skipped by
the reconstruction walk, so a one-entry log yields one version, not two. -/
theorem empty_diff_entry_skipped :
    (reconstruct_versions "abc" [⟨"t1", ""⟩]).length = 1 := rfl

/-- C6 amended: the reconstructed version list has one element per log
entry with a non-empty diff text, plus the current snapshot; when every
entry carries a non-empty diff (which normal recording guarantees), this is
exactly `len(log) + 1`, ordered oldest first with the snapshot last. -/
theorem reconstruction_length (current : String) (history : List LogEntry)
    (h : ∀ e ∈ history, e.diff ≠ "") :
    (reconstruct_versions current history).length = history.length + 1 := by
  unfold reconstruct_versions
  rw [reconstruct_fold_length _ _ _ fun e he => h e (List.mem_reverse.1 he)]
  simp [Nat.add_comm]

/-- Witness for the amended C6. -/
theorem reconstruction_length_witness :
    (reconstruct_versions "v2" [⟨"t1", "@@ -1 +1 @@\n-v1\n+v2\n"⟩]).length = 1 + 1 :=
  reconstruction_length "v2" [⟨"t1", "@@ -1 +1 @@\n-v1\n+v2\n"⟩]
    (by intro e he; simp at he; subst he; decide)

lemma reconstruct_fold_endpoints (l : List LogEntry) (c : String)
    (vs : List Version) (v0 : Version)
    (hlast : vs.getLast? = some v0)
    (hhead : vs.head?.map Version.content = some c) :
    ((l.foldl reconstructStep (c, vs)).2).getLast? = some v0 ∧
    ((l.foldl reconstructStep (c, vs)).2).head?.map Version.content =
      some (l.foldl (fun s e => apply_diff s e.diff true) c) := by
  induction l generalizing c vs with
  | nil => exact ⟨hlast, hhead⟩
  | cons e l ih =>
    rw [List.foldl_cons, List.foldl_cons]
    by_cases hd : e.diff ≠ ""
    · rw [reconstructStep, if_pos hd]
      have hne : vs ≠ [] := by
        intro hv; rw [hv] at hhead; simp at hhead
      refine ih _ _ ?_ ?_
      · rw [List.getLast?_cons]
        simp only at hlast ⊢
        rw [hlast]
        rfl
      · simp
    · rw [reconstructStep, if_neg hd]
      push_neg at hd
      have : apply_diff c e.diff true = c := by rw [hd]; rfl
      rw [this] at *
      exact ih _ _ hlast hhead

/-- C7: the last element of the reconstructed list is always the current
snapshot content, labelled `"current"` and carrying no originating patch;
the first element's content is the result of reverse-applying every logged
patch, newest to oldest, starting from the current snapshot. -/
theorem reconstruction_endpoints (current : String) (history : List LogEntry) :
    (reconstruct_versions current history).getLast? =
      some ⟨current, "current", none⟩ ∧
    (reconstruct_versions current history).head?.map Version.content =
      some (history.reverse.foldl (fun c e => apply_diff c e.diff true) current) := by
  unfold reconstruct_versions
  exact reconstruct_fold_endpoints history.reverse current _ _ rfl rfl

/-- C9: the first observation of a block creates the snapshot with the
observed content and logs nothing; reconstruction from that state yields
exactly one version, carrying the snapshot content and no patch; and a
missing log reads as the empty sequence, never an error. -/
theorem first_observation_initializes (name content : String) (st : BlockState)
    (h1 : st.snapshot = none) (h2 : st.log = []) :
    observe_block name st content = ⟨some content, []⟩ ∧
    reconstruct_versions content [] = [⟨content, "current", none⟩] ∧
    load_diff_history none = [] := by
  obtain ⟨snap, log⟩ := st
  simp only at h1 h2
  subst h1 h2
  exact ⟨rfl, rfl, rfl⟩

/-- Witness for C9 (the spec's Scenario B). -/
theorem first_observation_initializes_witness :
    observe_block "persona" ⟨none, []⟩ "Helpful assistant" =
      ⟨some "Helpful assistant", []⟩ ∧
    reconstruct_versions "Helpful assistant" [] =
      [⟨"Helpful assistant", "current", none⟩] ∧
    load_diff_history none = [] :=
  first_observation_initializes "persona" "Helpful assistant" ⟨none, []⟩ rfl rfl

/-! ## Soundness of `find_longest_match`

A returned triple `(i, j, size)` always designates a true common run of
the two line lists, inside the requested window. -/

/-- A sound match inside the window `a[alo:ahi]`, `b[blo:bhi]`. -/
def GoodMatch (a b : List String) (alo ahi blo bhi : Nat) (m : FlmBest) : Prop :=
  alo ≤ m.i ∧ m.i + m.size ≤ ahi ∧ blo ≤ m.j ∧ m.j + m.size ≤ bhi ∧
  ∀ t, t < m.size → a.getD (m.i + t) "" = b.getD (m.j + t) ""

/-- Invariant of a dynamic-programming row about to be consumed at outer
index `i`: every nonzero entry is the length of a true common suffix run
ending at `(i - 1, j)`. -/
def PrevRowOK (a b : List String) (alo blo bhi i : Nat) (f : Nat → Nat) : Prop :=
  ∀ j, f j ≠ 0 → blo ≤ j ∧ j < bhi ∧ f j ≤ i - alo ∧ f j ≤ j + 1 - blo ∧
    ∀ t, t < f j → a.getD (i - 1 - t) "" = b.getD (j - t) ""

lemma zeroRow_prevOK (a b : List String) (alo blo bhi i : Nat) :
    PrevRowOK a b alo blo bhi i (fun _ => 0) := by
  intro j hj
  simp at hj

lemma mem_b2j {b : List String} {s : String} {j : Nat} (h : j ∈ b2j b s) :
    b.getD j "" = s ∧ j < b.length := by
  unfold b2j at h
  split at h
  · simp at h
  · unfold b2jAll at h
    have := List.of_mem_filter h
    have hj := List.mem_range.1 (List.mem_of_mem_filter h)
    exact ⟨by simpa using this, hj⟩

/-- The generic fold-invariant workhorse. -/
lemma foldl_inv {α β : Type} (P : β → Prop) (f : β → α → β) (l : List α)
    (init : β) (h0 : P init)
    (hstep : ∀ st x, x ∈ l → P st → P (f st x)) : P (l.foldl f init) := by
  induction l generalizing init with
  | nil => exact h0
  | cons x l ih =>
    rw [List.foldl_cons]
    exact ih (f init x) (hstep init x (by simp) h0)
      fun st y hy hP => hstep st y (by simp [hy]) hP

lemma dpInner_inv (a b : List String) (alo ahi blo bhi i : Nat)
    (hi : alo ≤ i) (hii : i < ahi) (f : Nat → Nat)
    (hf : PrevRowOK a b alo blo bhi i f)
    (st : (Nat → Nat) × FlmBest) (j : Nat)
    (hjmem : b.getD j "" = a.getD i "") (hjlo : blo ≤ j) (hjhi : j < bhi)
    (hrow : PrevRowOK a b alo blo bhi (i + 1) st.1)
    (hbest : GoodMatch a b alo ahi blo bhi st.2) :
    PrevRowOK a b alo blo bhi (i + 1) (dpInner f i st j).1 ∧
    GoodMatch a b alo ahi blo bhi (dpInner f i st j).2 := by
  have hk : ∀ t, t < (if j = 0 then 0 else f (j - 1)) + 1 →
      a.getD (i - t) "" = b.getD (j - t) "" := by
    intro t ht
    cases t with
    | zero => simpa using hjmem.symm
    | succ t =>
      by_cases hj0 : j = 0
      · rw [if_pos hj0] at ht
        omega
      · rw [if_neg hj0] at ht
        have hfz : f (j - 1) ≠ 0 := by omega
        obtain ⟨_, _, _, _, hrun⟩ := hf (j - 1) hfz
        have := hrun t (by omega)
        have e1 : i - 1 - t = i - (t + 1) := by omega
        have e2 : j - 1 - t = j - (t + 1) := by
          omega
        rwa [e1, e2] at this
  have hkb : (if j = 0 then 0 else f (j - 1)) + 1 ≤ i + 1 - alo := by
    by_cases hj0 : j = 0
    · simp [hj0]
      omega
    · rw [if_neg hj0]
      by_cases hfz : f (j - 1) = 0
      · omega
      · have := (hf (j - 1) hfz).2.2.1
        omega
  have hkj : (if j = 0 then 0 else f (j - 1)) + 1 ≤ j + 1 - blo := by
    by_cases hj0 : j = 0
    · simp [hj0] at hjlo ⊢
      omega
    · rw [if_neg hj0]
      by_cases hfz : f (j - 1) = 0
      · omega
      · have h1 := (hf (j - 1) hfz).1
        have h2 := (hf (j - 1) hfz).2.2.2.1
        omega
  have hupd : (dpInner f i st j).1 =
      Function.update st.1 j ((if j = 0 then 0 else f (j - 1)) + 1) := by
    unfold dpInner
    by_cases hlt : st.2.size < (if j = 0 then 0 else f (j - 1)) + 1 <;>
      simp [hlt]
  constructor
  · -- the updated row
    intro j' hj'
    rw [hupd] at hj' ⊢
    by_cases hjj : j' = j
    · subst hjj
      rw [Function.update_same] at hj' ⊢
      refine ⟨hjlo, hjhi, hkb, hkj, ?_⟩
      intro t ht
      have := hk t ht
      have e : i + 1 - 1 - t = i - t := by omega
      rwa [e]
    · rw [Function.update_noteq hjj] at hj' ⊢
      exact hrow j' hj'
  · -- the updated best
    have hpair : (dpInner f i st j).2 =
        if st.2.size < (if j = 0 then 0 else f (j - 1)) + 1 then
          (⟨i + 1 - ((if j = 0 then 0 else f (j - 1)) + 1),
            j + 1 - ((if j = 0 then 0 else f (j - 1)) + 1),
            (if j = 0 then 0 else f (j - 1)) + 1⟩ : FlmBest)
        else st.2 := by
      unfold dpInner
      by_cases hlt : st.2.size < (if j = 0 then 0 else f (j - 1)) + 1 <;>
        simp [hlt]
    rw [hpair]
    by_cases hlt : st.2.size < (if j = 0 then 0 else f (j - 1)) + 1
    · rw [if_pos hlt]
      set k := (if j = 0 then 0 else f (j - 1)) + 1 with hkdef
      unfold GoodMatch
      dsimp only
      refine ⟨by omega, by omega, by omega, by omega, ?_⟩
      intro t ht
      have hsub : k - 1 - t < k := by omega
      have := hk (k - 1 - t) hsub
      have e1 : i + 1 - k + t = i - (k - 1 - t) := by omega
      have e2 : j + 1 - k + t = j - (k - 1 - t) := by omega
      rw [e1, e2]
      exact this
    · rw [if_neg hlt]
      exact hbest

lemma dpOuter_inv (a b : List String) (alo ahi blo bhi i : Nat)
    (hi : alo ≤ i) (hii : i < ahi) (st : (Nat → Nat) × FlmBest)
    (hrow : PrevRowOK a b alo blo bhi i st.1)
    (hbest : GoodMatch a b alo ahi blo bhi st.2) :
    PrevRowOK a b alo blo bhi (i + 1) (dpOuter a b blo bhi st i).1 ∧
    GoodMatch a b alo ahi blo bhi (dpOuter a b blo bhi st i).2 := by
  simp only [dpOuter]
  refine foldl_inv
    (fun s : (Nat → Nat) × FlmBest => PrevRowOK a b alo blo bhi (i + 1) s.1 ∧
      GoodMatch a b alo ahi blo bhi s.2) _ _ _ ?_ ?_
  · exact ⟨zeroRow_prevOK a b alo blo bhi (i + 1), hbest⟩
  · intro s j hj hP
    have hmem := List.mem_filter.1 hj
    have hb2j := mem_b2j hmem.1
    have hcond := hmem.2
    simp only [Bool.and_eq_true, decide_eq_true_eq] at hcond
    exact dpInner_inv a b alo ahi blo bhi i hi hii st.1 hrow s j
      hb2j.1 hcond.1 hcond.2 hP.1 hP.2

lemma dpLoop_good (a b : List String) (alo ahi blo bhi : Nat)
    (h1 : alo ≤ ahi) (h2 : blo ≤ bhi) :
    GoodMatch a b alo ahi blo bhi (dpLoop a b alo ahi blo bhi) := by
  unfold dpLoop
  suffices H : ∀ (n i : Nat), alo ≤ i → i + n ≤ ahi →
      ∀ st : (Nat → Nat) × FlmBest, PrevRowOK a b alo blo bhi i st.1 →
      GoodMatch a b alo ahi blo bhi st.2 →
      GoodMatch a b alo ahi blo bhi
        ((List.range' i n).foldl (dpOuter a b blo bhi) st).2 by
    refine H (ahi - alo) alo (le_refl alo) (by omega) _
      (zeroRow_prevOK a b alo blo bhi alo) ?_
    unfold GoodMatch
    dsimp only
    exact ⟨le_refl alo, by omega, le_refl blo, by omega,
      fun t ht => absurd ht (by omega)⟩
  intro n
  induction n with
  | zero => intro i _ _ st _ hbest; exact hbest
  | succ n ih =>
    intro i hi hin st hrow hbest
    rw [List.range'_succ, List.foldl_cons]
    have hstep := dpOuter_inv a b alo ahi blo bhi i hi (by omega) st hrow hbest
    exact ih (i + 1) (by omega) (by omega) _ hstep.1 hstep.2

lemma extendBack_good (a b : List String) (alo ahi blo bhi : Nat) :
    ∀ (fuel : Nat) (st : FlmBest), GoodMatch a b alo ahi blo bhi st →
    GoodMatch a b alo ahi blo bhi (extendBack a b alo blo fuel st) := by
  intro fuel
  induction fuel with
  | zero => intro st h; exact h
  | succ fuel ih =>
    intro st h
    rw [extendBack]
    split
    · next hcond =>
      apply ih
      obtain ⟨hc1, hc2, hc3⟩ := hcond
      obtain ⟨g1, g2, g3, g4, g5⟩ := h
      refine ⟨by dsimp only; omega, by dsimp only; omega,
        by dsimp only; omega, by dsimp only; omega, ?_⟩
      intro t ht
      dsimp only at ht ⊢
      cases t with
      | zero =>
        simpa using hc3
      | succ t =>
        have e1 : st.i - 1 + (t + 1) = st.i + t := by omega
        have e2 : st.j - 1 + (t + 1) = st.j + t := by omega
        rw [e1, e2]
        exact g5 t (by omega)
    · exact h

lemma extendFwd_good (a b : List String) (alo ahi blo bhi : Nat) :
    ∀ (fuel : Nat) (st : FlmBest), GoodMatch a b alo ahi blo bhi st →
    GoodMatch a b alo ahi blo bhi (extendFwd a b ahi bhi fuel st) := by
  intro fuel
  induction fuel with
  | zero => intro st h; exact h
  | succ fuel ih =>
    intro st h
    rw [extendFwd]
    split
    · next hcond =>
      apply ih
      obtain ⟨hc1, hc2, hc3⟩ := hcond
      obtain ⟨g1, g2, g3, g4, g5⟩ := h
      refine ⟨by dsimp only; omega, by dsimp only; omega,
        by dsimp only; omega, by dsimp only; omega, ?_⟩
      intro t ht
      dsimp only at ht ⊢
      by_cases he : t = st.size
      · subst he
        exact hc3
      · exact g5 t (by omega)
    · exact h

/-- Soundness of `find_longest_match` on any well-formed window. -/
lemma find_longest_match_good (a b : List String) (alo ahi blo bhi : Nat)
    (h1 : alo ≤ ahi) (h2 : blo ≤ bhi) :
    GoodMatch a b alo ahi blo bhi (find_longest_match a b alo ahi blo bhi) := by
  unfold find_longest_match
  exact extendFwd_good a b alo ahi blo bhi _ _
    (extendBack_good a b alo ahi blo bhi _ _
      (dpLoop_good a b alo ahi blo bhi h1 h2))

/-! ## The matching-block worklist produces sound, pairwise-ordered blocks -/

/-- A sound nonzero matching block of the full sequences. -/
def GoodBlock (a b : List String) (m : FlmBest) : Prop :=
  1 ≤ m.size ∧ m.i + m.size ≤ a.length ∧ m.j + m.size ≤ b.length ∧
  ∀ t, t < m.size → a.getD (m.i + t) "" = b.getD (m.j + t) ""

/-- `m1` lies strictly before `m2` in both sequences. -/
def BlockBefore (m1 m2 : FlmBest) : Prop :=
  m1.i + m1.size ≤ m2.i ∧ m1.j + m1.size ≤ m2.j

/-- Worklist windows, as `(alo, ahi, blo, bhi)` tuples. -/
abbrev Win := Nat × Nat × Nat × Nat

def WinOK (a b : List String) (w : Win) : Prop :=
  w.1 ≤ w.2.1 ∧ w.2.1 ≤ a.length ∧ w.2.2.1 ≤ w.2.2.2 ∧ w.2.2.2 ≤ b.length

def BlockBeforeWin (m : FlmBest) (w : Win) : Prop :=
  m.i + m.size ≤ w.1 ∧ m.j + m.size ≤ w.2.2.1

def WinBeforeBlock (w : Win) (m : FlmBest) : Prop :=
  w.2.1 ≤ m.i ∧ w.2.2.2 ≤ m.j

def WinBefore (w1 w2 : Win) : Prop :=
  w1.2.1 ≤ w2.1 ∧ w1.2.2.2 ≤ w2.2.2.1

/-- The loop invariant of `gmbLoop`. -/
def GmbInv (a b : List String) (queue : List Win) (blocks : List FlmBest) :
    Prop :=
  (∀ w ∈ queue, WinOK a b w) ∧
  (∀ m ∈ blocks, GoodBlock a b m) ∧
  List.Pairwise (fun m1 m2 => BlockBefore m1 m2 ∨ BlockBefore m2 m1) blocks ∧
  (∀ m ∈ blocks, ∀ w ∈ queue, BlockBeforeWin m w ∨ WinBeforeBlock w m) ∧
  List.Pairwise (fun w1 w2 => WinBefore w1 w2 ∨ WinBefore w2 w1) queue

lemma winOK_iff (a b : List String) (alo ahi blo bhi : Nat) :
    WinOK a b (alo, ahi, blo, bhi) ↔
      (alo ≤ ahi ∧ ahi ≤ a.length ∧ blo ≤ bhi ∧ bhi ≤ b.length) := Iff.rfl

lemma blockBeforeWin_iff (m : FlmBest) (alo ahi blo bhi : Nat) :
    BlockBeforeWin m (alo, ahi, blo, bhi) ↔
      (m.i + m.size ≤ alo ∧ m.j + m.size ≤ blo) := Iff.rfl

lemma winBeforeBlock_iff (m : FlmBest) (alo ahi blo bhi : Nat) :
    WinBeforeBlock (alo, ahi, blo, bhi) m ↔
      (ahi ≤ m.i ∧ bhi ≤ m.j) := Iff.rfl

lemma winBefore_iff (alo ahi blo bhi alo' ahi' blo' bhi' : Nat) :
    WinBefore (alo, ahi, blo, bhi) (alo', ahi', blo', bhi') ↔
      (ahi ≤ alo' ∧ bhi ≤ blo') := Iff.rfl

lemma mem_ite_singleton {α : Type} {x y : α} {c : Prop} [Decidable c]
    (h : x ∈ (if c then [y] else [])) : x = y ∧ c := by
  by_cases hc : c
  · rw [if_pos hc] at h
    simp at h
    exact ⟨h, hc⟩
  · rw [if_neg hc] at h
    simp at h

lemma gmbLoop_post (a b : List String) :
    ∀ (fuel : Nat) (queue : List Win) (blocks : List FlmBest),
    GmbInv a b queue blocks →
    (∀ m ∈ gmbLoop a b fuel queue blocks, GoodBlock a b m) ∧
    List.Pairwise (fun m1 m2 => BlockBefore m1 m2 ∨ BlockBefore m2 m1)
      (gmbLoop a b fuel queue blocks) := by
  intro fuel
  induction fuel with
  | zero =>
    intro queue blocks hinv
    rw [gmbLoop]
    exact ⟨hinv.2.1, hinv.2.2.1⟩
  | succ fuel ih =>
    intro queue blocks hinv
    obtain ⟨hwin, hgood, hpair, hbw, hwpair⟩ := hinv
    cases queue with
    | nil =>
      rw [gmbLoop]
      exact ⟨hgood, hpair⟩
    | cons w rest =>
      obtain ⟨alo, ahi, blo, bhi⟩ := w
      have hw := hwin (alo, ahi, blo, bhi) (by simp)
      rw [winOK_iff] at hw
      obtain ⟨hw1, hw2, hw3, hw4⟩ := hw
      rw [gmbLoop]
      have hm := find_longest_match_good a b alo ahi blo bhi hw1 hw3
      set m := find_longest_match a b alo ahi blo bhi with hmdef
      obtain ⟨hm1, hm2, hm3, hm4, hm5⟩ := hm
      by_cases hsz : m.size = 0
      · rw [if_pos hsz]
        refine ih rest blocks ⟨fun w hw => hwin w (by simp [hw]),
          hgood, hpair, ?_, hwpair.sublist (List.sublist_cons_self _ _)⟩
        intro mb hmb wr hwr
        exact hbw mb hmb wr (by simp [hwr])
      · rw [if_neg hsz]
        set q1 : List Win :=
          if alo < m.i ∧ blo < m.j then [(alo, m.i, blo, m.j)] else [] with hq1
        set q2 : List Win :=
          if m.i + m.size < ahi ∧ m.j + m.size < bhi then
            [(m.i + m.size, ahi, m.j + m.size, bhi)] else [] with hq2
        have hq1mem : ∀ w' ∈ q1, w' = (alo, m.i, blo, m.j) := by
          intro w' hw'
          rw [hq1] at hw'
          exact (mem_ite_singleton hw').1
        have hq2mem : ∀ w' ∈ q2,
            w' = (m.i + m.size, ahi, m.j + m.size, bhi) := by
          intro w' hw'
          rw [hq2] at hw'
          exact (mem_ite_singleton hw').1
        apply ih
        constructor
        · -- windows are well formed
          intro w' hw'
          simp only [List.mem_append] at hw'
          rcases hw' with (hw' | hw') | hw'
          · rw [hq2mem w' hw', winOK_iff]
            exact ⟨by omega, hw2, by omega, hw4⟩
          · rw [hq1mem w' hw', winOK_iff]
            exact ⟨hm1, by omega, hm3, by omega⟩
          · exact hwin w' (by simp [hw'])
        constructor
        · -- all blocks are good
          intro mb hmb
          rcases List.mem_append.1 hmb with hmb | hmb
          · exact hgood mb hmb
          · simp at hmb
            subst hmb
            exact ⟨by omega, by omega, by omega, hm5⟩
        constructor
        · -- blocks pairwise ordered
          rw [List.pairwise_append]
          refine ⟨hpair, by simp, ?_⟩
          intro mb hmb m' hm'
          simp at hm'
          subst hm'
          rcases hbw mb hmb (alo, ahi, blo, bhi) (by simp) with hc | hc
          · rw [blockBeforeWin_iff] at hc
            exact Or.inl ⟨le_trans hc.1 hm1, le_trans hc.2 hm3⟩
          · rw [winBeforeBlock_iff] at hc
            exact Or.inr ⟨le_trans hm2 hc.1, le_trans hm4 hc.2⟩
        constructor
        · -- blocks vs new queue
          intro mb hmb w' hw'
          rcases List.mem_append.1 hmb with hmb | hmb
          · -- an old block
            simp only [List.mem_append] at hw'
            rcases hw' with (hw' | hw') | hw'
            · rw [hq2mem w' hw', blockBeforeWin_iff, winBeforeBlock_iff]
              rcases hbw mb hmb (alo, ahi, blo, bhi) (by simp) with hc | hc
              · rw [blockBeforeWin_iff] at hc
                exact Or.inl ⟨by omega, by omega⟩
              · rw [winBeforeBlock_iff] at hc
                exact Or.inr ⟨hc.1, hc.2⟩
            · rw [hq1mem w' hw', blockBeforeWin_iff, winBeforeBlock_iff]
              rcases hbw mb hmb (alo, ahi, blo, bhi) (by simp) with hc | hc
              · rw [blockBeforeWin_iff] at hc
                exact Or.inl ⟨hc.1, hc.2⟩
              · rw [winBeforeBlock_iff] at hc
                exact Or.inr ⟨by omega, by omega⟩
            · exact hbw mb hmb w' (by simp [hw'])
          · -- the new block m
            simp at hmb
            subst hmb
            simp only [List.mem_append] at hw'
            rcases hw' with (hw' | hw') | hw'
            · rw [hq2mem w' hw', blockBeforeWin_iff, winBeforeBlock_iff]
              exact Or.inl ⟨le_refl _, le_refl _⟩
            · rw [hq1mem w' hw', blockBeforeWin_iff, winBeforeBlock_iff]
              exact Or.inr ⟨le_refl _, le_refl _⟩
            · obtain ⟨alo', ahi', blo', bhi'⟩ := w'
              rcases List.rel_of_pairwise_cons hwpair hw' with
                hc | hc
              all_goals rw [winBefore_iff] at hc
              all_goals rw [blockBeforeWin_iff, winBeforeBlock_iff]
              · exact Or.inl ⟨le_trans hm2 hc.1, le_trans hm4 hc.2⟩
              · exact Or.inr ⟨le_trans hc.1 hm1, le_trans hc.2 hm3⟩
        · -- new queue pairwise ordered
          rw [List.pairwise_append]
          refine ⟨?_, hwpair.sublist (List.sublist_cons_self _ _), ?_⟩
          · -- q2 ++ q1
            rw [List.pairwise_append]
            refine ⟨?_, ?_, ?_⟩
            · rw [hq2]
              split
              · exact List.Pairwise.cons (by simp) List.Pairwise.nil
              · exact List.Pairwise.nil
            · rw [hq1]
              split
              · exact List.Pairwise.cons (by simp) List.Pairwise.nil
              · exact List.Pairwise.nil
            · intro w1 hw1 w2 hw2
              rw [hq2mem w1 hw1, hq1mem w2 hw2, winBefore_iff, winBefore_iff]
              exact Or.inr ⟨by omega, by omega⟩
          · -- q2 ++ q1 versus rest
            intro w1 hw1 w2 hw2
            obtain ⟨alo', ahi', blo', bhi'⟩ := w2
            have hcs := List.rel_of_pairwise_cons hwpair hw2
            rcases List.mem_append.1 hw1 with hw1 | hw1
            · rw [hq2mem w1 hw1]
              rcases hcs with hc | hc
              all_goals rw [winBefore_iff] at hc
              all_goals rw [winBefore_iff, winBefore_iff]
              · exact Or.inl ⟨hc.1, hc.2⟩
              · exact Or.inr ⟨by omega, by omega⟩
            · rw [hq1mem w1 hw1]
              rcases hcs with hc | hc
              all_goals rw [winBefore_iff] at hc
              all_goals rw [winBefore_iff, winBefore_iff]
              · exact Or.inl ⟨by omega, by omega⟩
              · exact Or.inr ⟨hc.1, hc.2⟩

/-! ## Sorting and merging of matching blocks -/

lemma insertBlock_perm (x : FlmBest) (l : List FlmBest) :
    (insertBlock x l).Perm (x :: l) := by
  induction l with
  | nil => exact List.Perm.refl _
  | cons y l ih =>
    rw [insertBlock]
    split
    · exact List.Perm.refl _
    · exact (ih.cons y).trans (List.Perm.swap x y l)

lemma blockLe_total (x y : FlmBest) :
    blockLe x y = true ∨ blockLe y x = true := by
  unfold blockLe
  simp only [Bool.or_eq_true, Bool.and_eq_true, decide_eq_true_eq]
  omega

lemma blockLe_trans {x y z : FlmBest} (h1 : blockLe x y = true)
    (h2 : blockLe y z = true) : blockLe x z = true := by
  unfold blockLe at *
  simp only [Bool.or_eq_true, Bool.and_eq_true, decide_eq_true_eq] at *
  omega

lemma insertBlock_sorted (x : FlmBest) (l : List FlmBest)
    (h : List.Pairwise (fun u v => blockLe u v = true) l) :
    List.Pairwise (fun u v => blockLe u v = true) (insertBlock x l) := by
  induction l with
  | nil => exact List.Pairwise.cons (by simp) List.Pairwise.nil
  | cons y l ih =>
    rw [insertBlock]
    split
    · next hxy =>
      refine List.Pairwise.cons ?_ h
      intro z hz
      rcases List.mem_cons.1 hz with rfl | hz
      · exact hxy
      · exact blockLe_trans hxy (List.rel_of_pairwise_cons h hz)
    · next hxy =>
      have hyx : blockLe y x = true := by
        rcases blockLe_total x y with hc | hc
        · exact absurd hc hxy
        · exact hc
      refine List.Pairwise.cons ?_ (ih h.of_cons)
      intro z hz
      have hz2 : z ∈ x :: l := (insertBlock_perm x l).mem_iff.1 hz
      rcases List.mem_cons.1 hz2 with rfl | hz2
      · exact hyx
      · exact List.rel_of_pairwise_cons h hz2

lemma sortBlocks_perm (l : List FlmBest) : (sortBlocks l).Perm l := by
  induction l with
  | nil => exact List.Perm.refl _
  | cons x l ih =>
    exact (insertBlock_perm x (sortBlocks l)).trans (ih.cons x)

lemma sortBlocks_sorted (l : List FlmBest) :
    List.Pairwise (fun u v => blockLe u v = true) (sortBlocks l) := by
  induction l with
  | nil => exact List.Pairwise.nil
  | cons x l ih => exact insertBlock_sorted x (sortBlocks l) ih

lemma sorted_comparable_before (l : List FlmBest)
    (hsort : List.Pairwise (fun u v => blockLe u v = true) l)
    (hcomp : List.Pairwise (fun m1 m2 => BlockBefore m1 m2 ∨ BlockBefore m2 m1) l)
    (hgood : ∀ m ∈ l, 1 ≤ m.size) :
    List.Pairwise BlockBefore l := by
  induction l with
  | nil => exact List.Pairwise.nil
  | cons x l ih =>
    refine List.Pairwise.cons ?_
      (ih hsort.of_cons hcomp.of_cons fun m hm => hgood m (by simp [hm]))
    intro y hy
    rcases List.rel_of_pairwise_cons hcomp hy with h | h
    · exact h
    · exfalso
      have h1 := hgood y (by simp [hy])
      have hle := List.rel_of_pairwise_cons hsort hy
      unfold blockLe at hle
      simp only [Bool.or_eq_true, Bool.and_eq_true, decide_eq_true_eq] at hle
      unfold BlockBefore at h
      omega

lemma mergeAdjacent_post (a b : List String) :
    ∀ (l : List FlmBest) (acc : FlmBest),
    (1 ≤ acc.size → GoodBlock a b acc) →
    (∀ m ∈ l, GoodBlock a b m) →
    List.Pairwise BlockBefore l →
    (∀ m ∈ l, acc.i + acc.size ≤ m.i ∧ acc.j + acc.size ≤ m.j) →
    (∀ m ∈ mergeAdjacent acc l, GoodBlock a b m) ∧
    List.Pairwise BlockBefore (mergeAdjacent acc l) ∧
    (∀ m ∈ mergeAdjacent acc l, acc.i ≤ m.i ∧ acc.j ≤ m.j) := by
  intro l
  induction l with
  | nil =>
    intro acc hacc _ _ _
    rw [mergeAdjacent]
    split
    · next hz =>
      refine ⟨?_, List.Pairwise.cons (by simp) List.Pairwise.nil, ?_⟩
      · intro m hm
        simp at hm
        subst hm
        exact hacc (by omega)
      · intro m hm
        simp at hm
        subst hm
        exact ⟨le_refl _, le_refl _⟩
    · exact ⟨by simp, List.Pairwise.nil, by simp⟩
  | cons blk l ih =>
    intro acc hacc hgood hpair hbefore
    have hblk := hgood blk (by simp)
    obtain ⟨hb1, hb2, hb3, hb4⟩ := hblk
    have hbef := hbefore blk (by simp)
    rw [mergeAdjacent]
    by_cases hadj : acc.i + acc.size = blk.i ∧ acc.j + acc.size = blk.j
    · rw [if_pos hadj]
      have hres := ih ⟨acc.i, acc.j, acc.size + blk.size⟩
        (by
          intro _
          refine ⟨by dsimp only; omega, by dsimp only; omega,
            by dsimp only; omega, ?_⟩
          intro t ht
          dsimp only at ht ⊢
          by_cases hta : t < acc.size
          · exact (hacc (by omega)).2.2.2 t hta
          · have e1 : acc.i + t = blk.i + (t - acc.size) := by omega
            have e2 : acc.j + t = blk.j + (t - acc.size) := by omega
            rw [e1, e2]
            exact hb4 (t - acc.size) (by omega))
        (fun m hm => hgood m (by simp [hm]))
        hpair.of_cons
        (by
          intro m hm
          have := List.rel_of_pairwise_cons hpair hm
          unfold BlockBefore at this
          dsimp only
          omega)
      refine ⟨hres.1, hres.2.1, ?_⟩
      intro m hm
      have := hres.2.2 m hm
      dsimp only at this
      omega
    · rw [if_neg hadj]
      have hres := ih blk (fun _ => ⟨hb1, hb2, hb3, hb4⟩)
        (fun m hm => hgood m (by simp [hm]))
        hpair.of_cons
        (by
          intro m hm
          have := List.rel_of_pairwise_cons hpair hm
          unfold BlockBefore at this
          omega)
      by_cases hz : acc.size ≠ 0
      · rw [if_pos hz]
        refine ⟨?_, ?_, ?_⟩
        · intro m hm
          rcases List.mem_cons.1 hm with rfl | hm
          · exact hacc (by omega)
          · exact hres.1 m hm
        · refine List.Pairwise.cons ?_ hres.2.1
          intro m hm
          have := hres.2.2 m hm
          unfold BlockBefore
          omega
        · intro m hm
          rcases List.mem_cons.1 hm with rfl | hm
          · exact ⟨le_refl _, le_refl _⟩
          · have := hres.2.2 m hm
            omega
      · rw [if_neg hz]
        push_neg at hz
        refine ⟨hres.1, hres.2.1, ?_⟩
        intro m hm
        have := hres.2.2 m hm
        omega

/-- Structure of `get_matching_blocks`: all blocks but the sentinel are
sound nonzero matches, the list is ordered, and the sentinel
`(la, lb, 0)` is last. -/
lemma get_matching_blocks_post (a b : List String) :
    (∀ m ∈ (get_matching_blocks a b).dropLast, GoodBlock a b m) ∧
    List.Pairwise BlockBefore (get_matching_blocks a b) ∧
    (get_matching_blocks a b).getLast? = some ⟨a.length, b.length, 0⟩ := by
  have hraw := gmbLoop_post a b (a.length + b.length + 1)
    [(0, a.length, 0, b.length)] []
    ⟨by
      intro w hw
      simp at hw
      subst hw
      rw [winOK_iff]
      exact ⟨Nat.zero_le _, le_refl _, Nat.zero_le _, le_refl _⟩,
     by simp, List.Pairwise.nil, by simp,
     List.Pairwise.cons (by simp) List.Pairwise.nil⟩
  set raw := gmbLoop a b (a.length + b.length + 1)
    [(0, a.length, 0, b.length)] [] with hrawdef
  have hsortgood : ∀ m ∈ sortBlocks raw, GoodBlock a b m := by
    intro m hm
    exact hraw.1 m ((sortBlocks_perm raw).mem_iff.1 hm)
  have hsortcomp : List.Pairwise
      (fun m1 m2 => BlockBefore m1 m2 ∨ BlockBefore m2 m1) (sortBlocks raw) :=
    ((sortBlocks_perm raw).pairwise_iff
      (fun h => h.symm)).2 hraw.2
  have hbefore := sorted_comparable_before (sortBlocks raw)
    (sortBlocks_sorted raw) hsortcomp (fun m hm => (hsortgood m hm).1)
  have hmerge := mergeAdjacent_post a b (sortBlocks raw) ⟨0, 0, 0⟩
    (by intro h; exact absurd h (by decide)) hsortgood hbefore (by simp)
  simp only [get_matching_blocks]
  rw [← hrawdef]
  refine ⟨?_, ?_, ?_⟩
  · intro m hm
    rw [List.dropLast_concat] at hm
    exact hmerge.1 m hm
  · rw [List.pairwise_append]
    refine ⟨hmerge.2.1, List.Pairwise.cons (by simp) List.Pairwise.nil, ?_⟩
    intro m hm s hs
    simp at hs
    subst hs
    have := hmerge.1 m hm
    unfold BlockBefore
    unfold GoodBlock at this
    dsimp only
    omega
  · rw [List.getLast?_concat]

/-! ## Opcodes form a valid tiling chain -/

/-- Validity of one opcode against the two line lists. -/
def CodeOK (a b : List String) (c : Opcode) : Prop :=
  c.a1 ≤ c.a2 ∧ c.b1 ≤ c.b2 ∧ c.a2 ≤ a.length ∧ c.b2 ≤ b.length ∧
  (c.tag = "equal" →
    c.a2 - c.a1 = c.b2 - c.b1 ∧ c.a1 < c.a2 ∧
    ∀ t, t < c.a2 - c.a1 → a.getD (c.a1 + t) "" = b.getD (c.b1 + t) "") ∧
  (c.tag = "replace" → c.a1 < c.a2 ∧ c.b1 < c.b2) ∧
  (c.tag = "delete" → c.a1 < c.a2 ∧ c.b1 = c.b2) ∧
  (c.tag = "insert" → c.a1 = c.a2 ∧ c.b1 < c.b2) ∧
  (c.tag = "equal" ∨ c.tag = "replace" ∨ c.tag = "delete" ∨ c.tag = "insert")

/-- A contiguous chain of valid opcodes tiling `a[i:iEnd]` against
`b[j:jEnd]`. -/
def Seg (a b : List String) : Nat → Nat → Nat → Nat → List Opcode → Prop
  | i, j, iEnd, jEnd, [] => i = iEnd ∧ j = jEnd
  | i, j, iEnd, jEnd, c :: rest =>
    c.a1 = i ∧ c.b1 = j ∧ CodeOK a b c ∧ Seg a b c.a2 c.b2 iEnd jEnd rest

lemma codeOK_replace (a b : List String) {i1 i2 j1 j2 : Nat}
    (h1 : i1 < i2) (h2 : j1 < j2) (h3 : i2 ≤ a.length) (h4 : j2 ≤ b.length) :
    CodeOK a b ⟨"replace", i1, i2, j1, j2⟩ := by
  unfold CodeOK
  dsimp only
  refine ⟨by omega, by omega, h3, h4, ?_, ?_, ?_, ?_, ?_⟩
  · intro h; exact absurd h (by decide)
  · intro _; exact ⟨h1, h2⟩
  · intro h; exact absurd h (by decide)
  · intro h; exact absurd h (by decide)
  · exact Or.inr (Or.inl rfl)

lemma codeOK_delete (a b : List String) {i1 i2 j1 : Nat}
    (h1 : i1 < i2) (h3 : i2 ≤ a.length) (h4 : j1 ≤ b.length) :
    CodeOK a b ⟨"delete", i1, i2, j1, j1⟩ := by
  unfold CodeOK
  dsimp only
  refine ⟨by omega, by omega, h3, h4, ?_, ?_, ?_, ?_, ?_⟩
  · intro h; exact absurd h (by decide)
  · intro h; exact absurd h (by decide)
  · intro _; exact ⟨h1, rfl⟩
  · intro h; exact absurd h (by decide)
  · exact Or.inr (Or.inr (Or.inl rfl))

lemma codeOK_insert (a b : List String) {i1 j1 j2 : Nat}
    (h2 : j1 < j2) (h3 : i1 ≤ a.length) (h4 : j2 ≤ b.length) :
    CodeOK a b ⟨"insert", i1, i1, j1, j2⟩ := by
  unfold CodeOK
  dsimp only
  refine ⟨by omega, by omega, h3, h4, ?_, ?_, ?_, ?_, ?_⟩
  · intro h; exact absurd h (by decide)
  · intro h; exact absurd h (by decide)
  · intro h; exact absurd h (by decide)
  · intro _; exact ⟨rfl, h2⟩
  · exact Or.inr (Or.inr (Or.inr rfl))

lemma codeOK_equal (a b : List String) {i1 i2 j1 j2 : Nat}
    (h1 : i1 < i2) (heq : i2 - i1 = j2 - j1)
    (h3 : i2 ≤ a.length) (h4 : j2 ≤ b.length)
    (hrun : ∀ t, t < i2 - i1 → a.getD (i1 + t) "" = b.getD (j1 + t) "") :
    CodeOK a b ⟨"equal", i1, i2, j1, j2⟩ := by
  unfold CodeOK
  dsimp only
  refine ⟨by omega, by omega, h3, h4, ?_, ?_, ?_, ?_, ?_⟩
  · intro _; exact ⟨heq, h1, hrun⟩
  · intro h; exact absurd h (by decide)
  · intro h; exact absurd h (by decide)
  · intro h; exact absurd h (by decide)
  · exact Or.inl rfl

lemma opcodesGo_chain (a b : List String) :
    ∀ (bs : List FlmBest) (i j : Nat),
    (∀ m ∈ bs, i ≤ m.i ∧ j ≤ m.j) →
    List.Pairwise BlockBefore bs →
    (∀ m ∈ bs.dropLast, GoodBlock a b m) →
    bs.getLast? = some ⟨a.length, b.length, 0⟩ →
    i ≤ a.length → j ≤ b.length →
    Seg a b i j a.length b.length (opcodesGo i j bs) := by
  intro bs
  induction bs with
  | nil =>
    intro i j _ _ _ hlast
    simp at hlast
  | cons m bs ih =>
    intro i j hbefore hpair hgood hlast hi hj
    cases bs with
    | nil =>
      simp at hlast
      subst hlast
      rw [opcodesGo]
      dsimp only
      by_cases h1 : i < a.length ∧ j < b.length
      · rw [if_pos h1]
        show Seg a b i j a.length b.length
          (([⟨"replace", i, a.length, j, b.length⟩] : List Opcode) ++ [] ++ [])
        rw [List.append_nil, List.append_nil]
        exact ⟨rfl, rfl, codeOK_replace a b h1.1 h1.2 (le_refl _) (le_refl _),
          rfl, rfl⟩
      · by_cases h2 : i < a.length
        · rw [if_neg h1, if_pos h2]
          have hjb : j = b.length := by omega
          subst hjb
          show Seg a b i b.length a.length b.length
            (([⟨"delete", i, a.length, b.length, b.length⟩] : List Opcode) ++
              [] ++ [])
          rw [List.append_nil, List.append_nil]
          exact ⟨rfl, rfl, codeOK_delete a b h2 (le_refl _) (le_refl _),
            rfl, rfl⟩
        · by_cases h3 : j < b.length
          · rw [if_neg h1, if_neg h2, if_pos h3]
            have hia : i = a.length := by omega
            subst hia
            show Seg a b a.length j a.length b.length
              (([⟨"insert", a.length, a.length, j, b.length⟩] : List Opcode) ++
                [] ++ [])
            rw [List.append_nil, List.append_nil]
            exact ⟨rfl, rfl, codeOK_insert a b h3 (le_refl _) (le_refl _),
              rfl, rfl⟩
          · rw [if_neg h1, if_neg h2, if_neg h3]
            have hia : i = a.length := by omega
            have hjb : j = b.length := by omega
            subst hia hjb
            show Seg a b a.length b.length a.length b.length
              (([] : List Opcode) ++ [] ++ [])
            exact ⟨rfl, rfl⟩
    | cons m2 bs2 =>
      have hgm : GoodBlock a b m := hgood m (by simp)
      obtain ⟨hg1, hg2, hg3, hg4⟩ := hgm
      obtain ⟨hbi, hbj⟩ := hbefore m (by simp)
      have hnext := List.rel_of_pairwise_cons hpair
        (show m2 ∈ m2 :: bs2 by simp)
      have hszp : m.size ≠ 0 := by omega
      have hrest : Seg a b (m.i + m.size) (m.j + m.size) a.length b.length
          (opcodesGo (m.i + m.size) (m.j + m.size) (m2 :: bs2)) := by
        refine ih (m.i + m.size) (m.j + m.size) ?_ hpair.of_cons ?_ ?_
          (by omega) (by omega)
        · intro mb hmb
          rcases List.mem_cons.1 hmb with rfl | hmb
          · exact ⟨hnext.1, hnext.2⟩
          · have := List.rel_of_pairwise_cons hpair.of_cons hmb
            unfold BlockBefore at hnext this
            omega
        · intro mb hmb
          exact hgood mb (by
            rw [List.dropLast_cons_of_ne_nil (by simp)]
            simp [hmb])
        · simpa using hlast
      rw [opcodesGo]
      by_cases h1 : i < m.i ∧ j < m.j
      · rw [if_pos h1, if_pos hszp]
        show Seg a b i j a.length b.length
          (([⟨"replace", i, m.i, j, m.j⟩] : List Opcode) ++
            [⟨"equal", m.i, m.i + m.size, m.j, m.j + m.size⟩] ++
            opcodesGo (m.i + m.size) (m.j + m.size) (m2 :: bs2))
        refine ⟨rfl, rfl, codeOK_replace a b h1.1 h1.2 (by omega) (by omega),
          rfl, rfl, codeOK_equal a b (by omega) (by omega) (by omega)
            (by omega) ?_, hrest⟩
        intro t ht
        exact hg4 t (by omega)
      · by_cases h2 : i < m.i
        · rw [if_neg h1, if_pos h2, if_pos hszp]
          have hjm : j = m.j := by omega
          subst hjm
          show Seg a b i m.j a.length b.length
            (([⟨"delete", i, m.i, m.j, m.j⟩] : List Opcode) ++
              [⟨"equal", m.i, m.i + m.size, m.j, m.j + m.size⟩] ++
              opcodesGo (m.i + m.size) (m.j + m.size) (m2 :: bs2))
          refine ⟨rfl, rfl, codeOK_delete a b h2 (by omega) (by omega),
            rfl, rfl, codeOK_equal a b (by omega) (by omega) (by omega)
              (by omega) ?_, hrest⟩
          intro t ht
          exact hg4 t (by omega)
        · by_cases h3 : j < m.j
          · rw [if_neg h1, if_neg h2, if_pos h3, if_pos hszp]
            have him : i = m.i := by omega
            subst him
            show Seg a b m.i j a.length b.length
              (([⟨"insert", m.i, m.i, j, m.j⟩] : List Opcode) ++
                [⟨"equal", m.i, m.i + m.size, m.j, m.j + m.size⟩] ++
                opcodesGo (m.i + m.size) (m.j + m.size) (m2 :: bs2))
            refine ⟨rfl, rfl, codeOK_insert a b h3 (by omega) (by omega),
              rfl, rfl, codeOK_equal a b (by omega) (by omega) (by omega)
                (by omega) ?_, hrest⟩
            intro t ht
            exact hg4 t (by omega)
          · rw [if_neg h1, if_neg h2, if_neg h3, if_pos hszp]
            have him : i = m.i := by omega
            have hjm : j = m.j := by omega
            subst him hjm
            show Seg a b m.i m.j a.length b.length
              (([] : List Opcode) ++
                [⟨"equal", m.i, m.i + m.size, m.j, m.j + m.size⟩] ++
                opcodesGo (m.i + m.size) (m.j + m.size) (m2 :: bs2))
            refine ⟨rfl, rfl, codeOK_equal a b (by omega) (by omega)
              (by omega) (by omega) ?_, hrest⟩
            intro t ht
            exact hg4 t (by omega)

/-- `get_opcodes` produces a valid chain over the full line lists. -/
lemma get_opcodes_chain (a b : List String) :
    Seg a b 0 0 a.length b.length (get_opcodes a b) := by
  obtain ⟨hgood, hpair, hlast⟩ := get_matching_blocks_post a b
  unfold get_opcodes
  exact opcodesGo_chain a b (get_matching_blocks a b) 0 0
    (by simp) hpair hgood hlast (Nat.zero_le _) (Nat.zero_le _)

/-! ## Grouping: `get_grouped_opcodes` yields aligned group chains -/

/-- `a[i:i+n]` and `b[j:j+n]` agree elementwise. -/
def EqRegion (a b : List String) (i j n : Nat) : Prop :=
  ∀ t, t < n → a.getD (i + t) "" = b.getD (j + t) ""

/-- Accessors for a group's boundary positions. -/
def gFirstA (g : List Opcode) : Nat := (g.headD ⟨"", 0, 0, 0, 0⟩).a1

def gFirstB (g : List Opcode) : Nat := (g.headD ⟨"", 0, 0, 0, 0⟩).b1

def gLastA (g : List Opcode) : Nat := (g.getLastD ⟨"", 0, 0, 0, 0⟩).a2

def gLastB (g : List Opcode) : Nat := (g.getLastD ⟨"", 0, 0, 0, 0⟩).b2

lemma gFirstA_append_one (g : List Opcode) (c : Opcode) (hg : g ≠ []) :
    gFirstA (g ++ [c]) = gFirstA g := by
  unfold gFirstA
  cases g with
  | nil => exact absurd rfl hg
  | cons x l => rfl

lemma gFirstB_append_one (g : List Opcode) (c : Opcode) (hg : g ≠ []) :
    gFirstB (g ++ [c]) = gFirstB g := by
  unfold gFirstB
  cases g with
  | nil => exact absurd rfl hg
  | cons x l => rfl

lemma gLastA_append_one (g : List Opcode) (c : Opcode) :
    gLastA (g ++ [c]) = c.a2 := by
  unfold gLastA
  rw [List.getLastD_concat]

lemma gLastB_append_one (g : List Opcode) (c : Opcode) :
    gLastB (g ++ [c]) = c.b2 := by
  unfold gLastB
  rw [List.getLastD_concat]

lemma Seg_append_one (a b : List String) :
    ∀ (g : List Opcode) (i j iM jM : Nat) (c : Opcode),
    Seg a b i j iM jM g → c.a1 = iM → c.b1 = jM → CodeOK a b c →
    Seg a b i j c.a2 c.b2 (g ++ [c]) := by
  intro g
  induction g with
  | nil =>
    intro i j iM jM c hseg h1 h2 hok
    obtain ⟨rfl, rfl⟩ := hseg
    exact ⟨h1, h2, hok, rfl, rfl⟩
  | cons x g ih =>
    intro i j iM jM c hseg h1 h2 hok
    obtain ⟨hx1, hx2, hxok, hrest⟩ := hseg
    exact ⟨hx1, hx2, hxok, ih _ _ _ _ c hrest h1 h2 hok⟩

lemma eqRegion_glue (a b : List String) {i j n m : Nat}
    (h1 : EqRegion a b i j n) (h2 : EqRegion a b (i + n) (j + n) m) :
    EqRegion a b i j (n + m) := by
  intro t ht
  by_cases hc : t < n
  · exact h1 t hc
  · have e1 : i + t = i + n + (t - n) := by omega
    have e2 : j + t = j + n + (t - n) := by omega
    rw [e1, e2]
    exact h2 (t - n) (by omega)

lemma eqRegion_zero (a b : List String) (i j : Nat) : EqRegion a b i j 0 :=
  fun t ht => absurd ht (by omega)

/-- The head-context trim preserves the chain, leaving an aligned equal
lead region. -/
lemma adjustHead_spec (a b : List String) (c : Opcode) (rest : List Opcode)
    (i j iE jE : Nat) (hseg : Seg a b i j iE jE (c :: rest)) :
    adjustHead (c :: rest) ≠ [] ∧
    gFirstA (adjustHead (c :: rest)) ≥ i ∧
    gFirstB (adjustHead (c :: rest)) ≥ j ∧
    gFirstA (adjustHead (c :: rest)) - i =
      gFirstB (adjustHead (c :: rest)) - j ∧
    EqRegion a b i j (gFirstA (adjustHead (c :: rest)) - i) ∧
    Seg a b (gFirstA (adjustHead (c :: rest)))
      (gFirstB (adjustHead (c :: rest))) iE jE (adjustHead (c :: rest)) := by
  obtain ⟨h1, h2, hok, hrest⟩ := hseg
  subst h1 h2
  rw [adjustHead]
  by_cases htag : c.tag = "equal"
  · rw [if_pos htag]
    obtain ⟨hc1, hc2, hc3, hc4, heq, _, _, _, _⟩ := hok
    obtain ⟨hlen, hpos, hrun⟩ := heq htag
    have hba : max c.a1 (c.a2 - 3) - c.a1 = max c.b1 (c.b2 - 3) - c.b1 := by
      omega
    refine ⟨by simp, ?_, ?_, ?_, ?_, ?_⟩
    · show c.a1 ≤ max c.a1 (c.a2 - 3)
      omega
    · show c.b1 ≤ max c.b1 (c.b2 - 3)
      omega
    · show max c.a1 (c.a2 - 3) - c.a1 = max c.b1 (c.b2 - 3) - c.b1
      omega
    · intro t ht
      simp only [gFirstA, List.headD_cons] at ht
      exact hrun t (by omega)
    · refine ⟨rfl, rfl, ?_, ?_⟩
      · refine ⟨by dsimp only; omega, by dsimp only; omega,
          by dsimp only; omega, by dsimp only; omega, ?_, ?_, ?_, ?_, ?_⟩
        · intro _
          dsimp only
          refine ⟨by omega, by omega, ?_⟩
          intro t ht
          have e1 : max c.a1 (c.a2 - 3) + t =
              c.a1 + (max c.a1 (c.a2 - 3) - c.a1 + t) := by omega
          have e2 : max c.b1 (c.b2 - 3) + t =
              c.b1 + (max c.a1 (c.a2 - 3) - c.a1 + t) := by omega
          rw [e1, e2]
          exact hrun _ (by omega)
        · intro h; rw [htag] at h; exact absurd h (by decide)
        · intro h; rw [htag] at h; exact absurd h (by decide)
        · intro h; rw [htag] at h; exact absurd h (by decide)
        · exact Or.inl htag
      · show Seg a b c.a2 c.b2 iE jE rest
        exact hrest
  · rw [if_neg htag]
    have h0 : gFirstA (c :: rest) - c.a1 = 0 := by simp [gFirstA]
    refine ⟨by simp, le_refl _, le_refl _, ?_, ?_, ?_⟩
    · show c.a1 - c.a1 = c.b1 - c.b1
      omega
    · rw [h0]
      exact eqRegion_zero a b _ _
    show Seg a b c.a1 c.b1 iE jE (c :: rest)
    exact ⟨rfl, rfl, ⟨hok.1, hok.2.1, hok.2.2.1, hok.2.2.2.1,
      hok.2.2.2.2.1, hok.2.2.2.2.2.1, hok.2.2.2.2.2.2.1,
      hok.2.2.2.2.2.2.2.1, hok.2.2.2.2.2.2.2.2⟩, hrest⟩

/-- The tail-context trim preserves the chain, leaving an aligned equal
trailing region up to the original chain end. -/
lemma adjustLast_spec (a b : List String) :
    ∀ (codes : List Opcode) (i j iE jE : Nat),
    codes ≠ [] → Seg a b i j iE jE codes →
    adjustLast codes ≠ [] ∧
    gFirstA (adjustLast codes) = gFirstA codes ∧
    gFirstB (adjustLast codes) = gFirstB codes ∧
    gLastA (adjustLast codes) ≤ iE ∧ gLastB (adjustLast codes) ≤ jE ∧
    iE - gLastA (adjustLast codes) = jE - gLastB (adjustLast codes) ∧
    EqRegion a b (gLastA (adjustLast codes)) (gLastB (adjustLast codes))
      (iE - gLastA (adjustLast codes)) ∧
    Seg a b i j (gLastA (adjustLast codes)) (gLastB (adjustLast codes))
      (adjustLast codes) := by
  intro codes
  induction codes with
  | nil => intro i j iE jE hne; exact absurd rfl hne
  | cons c rest ih =>
    intro i j iE jE _ hseg
    obtain ⟨h1, h2, hok, hrest⟩ := hseg
    cases rest with
    | nil =>
      obtain ⟨hE1, hE2⟩ := hrest
      subst h1 h2 hE1 hE2
      rw [adjustLast]
      by_cases htag : c.tag = "equal"
      · rw [if_pos htag]
        obtain ⟨hc1, hc2, hc3, hc4, heq, _, _, _, _⟩ := hok
        obtain ⟨hlen, hpos, hrun⟩ := heq htag
        have hA : gLastA [{ c with a2 := min c.a2 (c.a1 + 3), b2 := min c.b2 (c.b1 + 3) }] = min c.a2 (c.a1 + 3) := rfl
        have hB : gLastB [{ c with a2 := min c.a2 (c.a1 + 3), b2 := min c.b2 (c.b1 + 3) }] = min c.b2 (c.b1 + 3) := rfl
        rw [hA, hB]
        refine ⟨by simp, rfl, rfl, by omega, by omega, by omega, ?_, ?_⟩
        · intro t ht
          have e1 : min c.a2 (c.a1 + 3) + t =
              c.a1 + (min c.a2 (c.a1 + 3) - c.a1 + t) := by omega
          have e2 : min c.b2 (c.b1 + 3) + t =
              c.b1 + (min c.a2 (c.a1 + 3) - c.a1 + t) := by omega
          rw [e1, e2]
          exact hrun _ (by omega)
        · refine ⟨rfl, rfl, ?_, rfl, rfl⟩
          refine ⟨by dsimp only; omega, by dsimp only; omega,
            by dsimp only; omega, by dsimp only; omega, ?_, ?_, ?_, ?_, ?_⟩
          · intro _
            dsimp only
            refine ⟨by omega, by omega, ?_⟩
            intro t ht
            exact hrun t (by omega)
          · intro h; rw [htag] at h; exact absurd h (by decide)
          · intro h; rw [htag] at h; exact absurd h (by decide)
          · intro h; rw [htag] at h; exact absurd h (by decide)
          · exact Or.inl htag
      · rw [if_neg htag]
        have hA : gLastA [c] = c.a2 := rfl
        have hB : gLastB [c] = c.b2 := rfl
        rw [hA, hB]
        exact ⟨by simp, rfl, rfl, le_refl _, le_refl _, by omega,
          by rw [Nat.sub_self]; exact eqRegion_zero a b _ _,
          rfl, rfl, hok, rfl, rfl⟩
    | cons c2 rest2 =>
      have hres := ih c.a2 c.b2 iE jE (List.cons_ne_nil c2 rest2) hrest
      rw [adjustLast]
      obtain ⟨x, L, hxL⟩ := List.exists_cons_of_ne_nil hres.1
      rw [hxL] at hres ⊢
      subst h1 h2
      refine ⟨by simp, rfl, rfl, ?_, ?_, ?_, ?_, ?_⟩
      · show gLastA (x :: L) ≤ iE
        exact hres.2.2.2.1
      · show gLastB (x :: L) ≤ jE
        exact hres.2.2.2.2.1
      · show iE - gLastA (x :: L) = jE - gLastB (x :: L)
        exact hres.2.2.2.2.2.1
      · show EqRegion a b (gLastA (x :: L)) (gLastB (x :: L))
          (iE - gLastA (x :: L))
        exact hres.2.2.2.2.2.2.1
      · refine ⟨rfl, rfl, hok, ?_⟩
        show Seg a b c.a2 c.b2 (gLastA (x :: L)) (gLastB (x :: L)) (x :: L)
        exact hres.2.2.2.2.2.2.2
      exact fun h => List.noConfusion h

/-- A chain of nonempty groups starting from position `(i, j)`, with the
gap before each group an aligned region of equal lines, ending exactly at
`(ci, cj)`. -/
def GroupsPart (a b : List String) :
    Nat → Nat → List (List Opcode) → Nat → Nat → Prop
  | i, j, [], ci, cj => i = ci ∧ j = cj
  | i, j, g :: rest, ci, cj =>
    g ≠ [] ∧ i ≤ gFirstA g ∧ j ≤ gFirstB g ∧
    gFirstA g - i = gFirstB g - j ∧
    EqRegion a b i j (gFirstA g - i) ∧
    Seg a b (gFirstA g) (gFirstB g) (gLastA g) (gLastB g) g ∧
    GroupsPart a b (gLastA g) (gLastB g) rest ci cj

/-- Appending an opcode that starts at the chain end extends the last
group. -/
lemma groupsPart_extend (a b : List String) :
    ∀ (gs : List (List Opcode)) (g : List Opcode) (i j ci cj : Nat)
      (c : Opcode),
    GroupsPart a b i j (gs ++ [g]) ci cj → c.a1 = ci → c.b1 = cj →
    CodeOK a b c → GroupsPart a b i j (gs ++ [g ++ [c]]) c.a2 c.b2 := by
  intro gs
  induction gs with
  | nil =>
    intro g i j ci cj c hgp h1 h2 hok
    obtain ⟨hg, hle1, hle2, hal, hreg, hseg, hend1, hend2⟩ := hgp
    show GroupsPart a b i j ([g ++ [c]]) c.a2 c.b2
    refine ⟨by simp, ?_, ?_, ?_, ?_, ?_, ?_, ?_⟩
    · rw [gFirstA_append_one g c hg]; exact hle1
    · rw [gFirstB_append_one g c hg]; exact hle2
    · rw [gFirstA_append_one g c hg, gFirstB_append_one g c hg]; exact hal
    · rw [gFirstA_append_one g c hg]; exact hreg
    · rw [gFirstA_append_one g c hg, gFirstB_append_one g c hg,
        gLastA_append_one g c, gLastB_append_one g c]
      exact Seg_append_one a b g _ _ _ _ c hseg (h1.trans hend1.symm)
        (h2.trans hend2.symm) hok
    · rw [gLastA_append_one g c]
    · rw [gLastB_append_one g c]
  | cons g0 gs ih =>
    intro g i j ci cj c hgp h1 h2 hok
    obtain ⟨hg0, hle1, hle2, hal, hreg, hseg, hrest⟩ := hgp
    exact ⟨hg0, hle1, hle2, hal, hreg, hseg, ih g _ _ ci cj c hrest h1 h2 hok⟩

/-- Opening a fresh singleton group after an aligned equal gap. -/
lemma groupsPart_append_group (a b : List String) :
    ∀ (gs : List (List Opcode)) (i j ci cj : Nat) (c : Opcode),
    GroupsPart a b i j gs ci cj → ci ≤ c.a1 → cj ≤ c.b1 →
    c.a1 - ci = c.b1 - cj → EqRegion a b ci cj (c.a1 - ci) →
    CodeOK a b c → GroupsPart a b i j (gs ++ [[c]]) c.a2 c.b2 := by
  intro gs
  induction gs with
  | nil =>
    intro i j ci cj c hgp hle1 hle2 hal hreg hok
    obtain ⟨rfl, rfl⟩ := hgp
    exact ⟨List.cons_ne_nil c [], hle1, hle2, hal, hreg,
      ⟨rfl, rfl, hok, rfl, rfl⟩, rfl, rfl⟩
  | cons g0 gs ih =>
    intro i j ci cj c hgp hle1 hle2 hal hreg hok
    obtain ⟨hg0, hp1, hp2, hpal, hpreg, hseg, hrest⟩ := hgp
    exact ⟨hg0, hp1, hp2, hpal, hpreg, hseg,
      ih _ _ ci cj c hrest hle1 hle2 hal hreg hok⟩

/-- The start of a nonempty group chain can be moved left across an
aligned equal region. -/
lemma groupsPart_lead (a b : List String) (gs : List (List Opcode))
    (hne : gs ≠ []) (i j iP jP ci cj : Nat)
    (hgp : GroupsPart a b iP jP gs ci cj) (hle1 : i ≤ iP) (hle2 : j ≤ jP)
    (hal : iP - i = jP - j) (hreg : EqRegion a b i j (iP - i)) :
    GroupsPart a b i j gs ci cj := by
  cases gs with
  | nil => exact absurd rfl hne
  | cons g rest =>
    obtain ⟨hg, hp1, hp2, hpal, hpreg, hseg, hrest⟩ := hgp
    refine ⟨hg, by omega, by omega, by omega, ?_, hseg, hrest⟩
    have h2 : EqRegion a b (i + (iP - i)) (j + (iP - i)) (gFirstA g - iP) := by
      have e1 : i + (iP - i) = iP := by omega
      have e2 : j + (iP - i) = jP := by omega
      rw [e1, e2]
      exact hpreg
    have hglue := eqRegion_glue a b hreg h2
    have e3 : iP - i + (gFirstA g - iP) = gFirstA g - i := by omega
    rw [e3] at hglue
    exact hglue

/-- Dropping a trailing singleton `equal` group leaves a chain whose end
is separated from the old end by an aligned equal region. -/
lemma groupsPart_drop_last (a b : List String) :
    ∀ (gs : List (List Opcode)) (i j ci cj : Nat) (c : Opcode),
    c.tag = "equal" → GroupsPart a b i j (gs ++ [[c]]) ci cj →
    ∃ dA dB, GroupsPart a b i j gs dA dB ∧ dA ≤ ci ∧ dB ≤ cj ∧
      ci - dA = cj - dB ∧ EqRegion a b dA dB (ci - dA) := by
  intro gs
  induction gs with
  | nil =>
    intro i j ci cj c htag hgp
    obtain ⟨hg, hle1, hle2, hal, hreg, hseg, hend1, hend2⟩ := hgp
    obtain ⟨hs1, hs2, hok, hs3, hs4⟩ := hseg
    have k1 : i ≤ c.a1 := hle1
    have k2 : j ≤ c.b1 := hle2
    have k3 : c.a1 - i = c.b1 - j := hal
    have kend1 : c.a2 = ci := hend1
    have kend2 : c.b2 = cj := hend2
    obtain ⟨hlen, hpos, hrun⟩ := hok.2.2.2.2.1 htag
    have hreg1 : EqRegion a b i j (c.a1 - i) := hreg
    have h2 : EqRegion a b (i + (c.a1 - i)) (j + (c.a1 - i))
        (c.a2 - c.a1) := by
      have e1 : i + (c.a1 - i) = c.a1 := by omega
      have e2 : j + (c.a1 - i) = c.b1 := by omega
      rw [e1, e2]
      exact hrun
    have hglue := eqRegion_glue a b hreg1 h2
    have e3 : c.a1 - i + (c.a2 - c.a1) = ci - i := by omega
    rw [e3] at hglue
    exact ⟨i, j, ⟨rfl, rfl⟩, by omega, by omega, by omega, hglue⟩
  | cons g0 gs ih =>
    intro i j ci cj c htag hgp
    obtain ⟨hg0, hp1, hp2, hpal, hpreg, hseg, hrest⟩ := hgp
    obtain ⟨dA, dB, hgp', hd1, hd2, hdal, hdreg⟩ := ih _ _ ci cj c htag hrest
    exact ⟨dA, dB, ⟨hg0, hp1, hp2, hpal, hpreg, hseg, hgp'⟩,
      hd1, hd2, hdal, hdreg⟩

/-- Keeping only the last three lines of context of an `equal` opcode
yields a valid opcode. -/
lemma codeOK_trim_head (a b : List String) (c : Opcode) (hok : CodeOK a b c)
    (htag : c.tag = "equal") :
    CodeOK a b { c with a1 := max c.a1 (c.a2 - 3), b1 := max c.b1 (c.b2 - 3) } := by
  obtain ⟨hc1, hc2, hc3, hc4, heq, _, _, _, _⟩ := hok
  obtain ⟨hlen, hpos, hrun⟩ := heq htag
  refine ⟨by dsimp only; omega, by dsimp only; omega, by dsimp only; omega,
    by dsimp only; omega, ?_, ?_, ?_, ?_, ?_⟩
  · intro _
    dsimp only
    refine ⟨by omega, by omega, ?_⟩
    intro t ht
    have e1 : max c.a1 (c.a2 - 3) + t =
        c.a1 + (max c.a1 (c.a2 - 3) - c.a1 + t) := by omega
    have e2 : max c.b1 (c.b2 - 3) + t =
        c.b1 + (max c.a1 (c.a2 - 3) - c.a1 + t) := by omega
    rw [e1, e2]
    exact hrun _ (by omega)
  · intro h; rw [htag] at h; exact absurd h (by decide)
  · intro h; rw [htag] at h; exact absurd h (by decide)
  · intro h; rw [htag] at h; exact absurd h (by decide)
  · exact Or.inl htag

/-- Keeping only the first three lines of context of an `equal` opcode
yields a valid opcode. -/
lemma codeOK_trim_last (a b : List String) (c : Opcode) (hok : CodeOK a b c)
    (htag : c.tag = "equal") :
    CodeOK a b { c with a2 := min c.a2 (c.a1 + 3), b2 := min c.b2 (c.b1 + 3) } := by
  obtain ⟨hc1, hc2, hc3, hc4, heq, _, _, _, _⟩ := hok
  obtain ⟨hlen, hpos, hrun⟩ := heq htag
  refine ⟨by dsimp only; omega, by dsimp only; omega, by dsimp only; omega,
    by dsimp only; omega, ?_, ?_, ?_, ?_, ?_⟩
  · intro _
    dsimp only
    refine ⟨by omega, by omega, ?_⟩
    intro t ht
    exact hrun t (by omega)
  · intro h; rw [htag] at h; exact absurd h (by decide)
  · intro h; rw [htag] at h; exact absurd h (by decide)
  · intro h; rw [htag] at h; exact absurd h (by decide)
  · exact Or.inl htag

/-- Invariant of the grouping fold: either nothing has been consumed yet,
or the accumulated groups together with the pending group form a valid
chain from the start of the trimmed opcode chain to the current point. -/
lemma groupFold_inv (a b : List String) :
    ∀ (codes : List Opcode) (gs : List (List Opcode)) (g : List Opcode)
      (s0A s0B ci cj iE jE : Nat),
    Seg a b ci cj iE jE codes →
    ((gs = [] ∧ g = [] ∧ ci = s0A ∧ cj = s0B) ∨
      (g ≠ [] ∧ GroupsPart a b s0A s0B (gs ++ [g]) ci cj)) →
    (((codes.foldl groupStep (gs, g)).1 = [] ∧
        (codes.foldl groupStep (gs, g)).2 = [] ∧ iE = s0A ∧ jE = s0B) ∨
      ((codes.foldl groupStep (gs, g)).2 ≠ [] ∧
        GroupsPart a b s0A s0B
          ((codes.foldl groupStep (gs, g)).1 ++
            [(codes.foldl groupStep (gs, g)).2]) iE jE)) := by
  intro codes
  induction codes with
  | nil =>
    intro gs g s0A s0B ci cj iE jE hseg hinv
    obtain ⟨rfl, rfl⟩ := hseg
    rcases hinv with ⟨h1, h2, h3, h4⟩ | ⟨h1, h2⟩
    · exact Or.inl ⟨h1, h2, h3, h4⟩
    · exact Or.inr ⟨h1, h2⟩
  | cons c codes ih =>
    intro gs g s0A s0B ci cj iE jE hseg hinv
    obtain ⟨h1, h2, hok, hrest⟩ := hseg
    rw [List.foldl_cons]
    have hc1 : c.a1 ≤ c.a2 := hok.1
    have hc2 : c.b1 ≤ c.b2 := hok.2.1
    by_cases hsp : c.tag = "equal" ∧ 6 < c.a2 - c.a1
    · have hstep : groupStep (gs, g) c =
          (gs ++ [g ++ [{ c with a2 := min c.a2 (c.a1 + 3), b2 := min c.b2 (c.b1 + 3) }]],
           [{ c with a1 := max c.a1 (c.a2 - 3), b1 := max c.b1 (c.b2 - 3) }]) := by
        simp only [groupStep]
        rw [if_pos hsp]
      rw [hstep]
      obtain ⟨hlen, hpos, hrun⟩ := hok.2.2.2.2.1 hsp.1
      have hgap : EqRegion a b (min c.a2 (c.a1 + 3)) (min c.b2 (c.b1 + 3))
          (max c.a1 (c.a2 - 3) - min c.a2 (c.a1 + 3)) := by
        intro t ht
        have e1 : min c.a2 (c.a1 + 3) + t =
            c.a1 + (min c.a2 (c.a1 + 3) - c.a1 + t) := by omega
        have e2 : min c.b2 (c.b1 + 3) + t =
            c.b1 + (min c.a2 (c.a1 + 3) - c.a1 + t) := by omega
        rw [e1, e2]
        exact hrun _ (by omega)
      have hokL := codeOK_trim_last a b c hok hsp.1
      have hokR := codeOK_trim_head a b c hok hsp.1
      apply ih _ _ s0A s0B c.a2 c.b2 iE jE hrest
      refine Or.inr ⟨List.cons_ne_nil _ _, ?_⟩
      rcases hinv with ⟨hgs, hgnil, hci, hcj⟩ | ⟨hgne, hgp⟩
      · subst hgs hgnil
        have base : GroupsPart a b s0A s0B [] s0A s0B := ⟨rfl, rfl⟩
        have step1 := groupsPart_append_group a b [] s0A s0B s0A s0B
          { c with a2 := min c.a2 (c.a1 + 3), b2 := min c.b2 (c.b1 + 3) }
          base (show s0A ≤ c.a1 by omega) (show s0B ≤ c.b1 by omega)
          (show c.a1 - s0A = c.b1 - s0B by omega)
          (by rw [show c.a1 - s0A = 0 from by omega]
              exact eqRegion_zero a b _ _)
          hokL
        have step2 := groupsPart_append_group a b [[{ c with a2 := min c.a2 (c.a1 + 3), b2 := min c.b2 (c.b1 + 3) }]]
          s0A s0B (min c.a2 (c.a1 + 3)) (min c.b2 (c.b1 + 3))
          { c with a1 := max c.a1 (c.a2 - 3), b1 := max c.b1 (c.b2 - 3) }
          step1 (show min c.a2 (c.a1 + 3) ≤ max c.a1 (c.a2 - 3) by omega)
          (show min c.b2 (c.b1 + 3) ≤ max c.b1 (c.b2 - 3) by omega)
          (show max c.a1 (c.a2 - 3) - min c.a2 (c.a1 + 3) =
            max c.b1 (c.b2 - 3) - min c.b2 (c.b1 + 3) by omega)
          hgap hokR
        exact step2
      · have stepE := groupsPart_extend a b gs g s0A s0B ci cj
          { c with a2 := min c.a2 (c.a1 + 3), b2 := min c.b2 (c.b1 + 3) }
          hgp h1 h2 hokL
        have stepN := groupsPart_append_group a b (gs ++ [g ++ [{ c with a2 := min c.a2 (c.a1 + 3), b2 := min c.b2 (c.b1 + 3) }]])
          s0A s0B (min c.a2 (c.a1 + 3)) (min c.b2 (c.b1 + 3))
          { c with a1 := max c.a1 (c.a2 - 3), b1 := max c.b1 (c.b2 - 3) }
          stepE (show min c.a2 (c.a1 + 3) ≤ max c.a1 (c.a2 - 3) by omega)
          (show min c.b2 (c.b1 + 3) ≤ max c.b1 (c.b2 - 3) by omega)
          (show max c.a1 (c.a2 - 3) - min c.a2 (c.a1 + 3) =
            max c.b1 (c.b2 - 3) - min c.b2 (c.b1 + 3) by omega)
          hgap hokR
        exact stepN
    · have hstep : groupStep (gs, g) c = (gs, g ++ [c]) := by
        simp only [groupStep]
        rw [if_neg hsp]
      rw [hstep]
      apply ih gs (g ++ [c]) s0A s0B c.a2 c.b2 iE jE hrest
      refine Or.inr ⟨by simp, ?_⟩
      rcases hinv with ⟨hgs, hgnil, hci, hcj⟩ | ⟨hgne, hgp⟩
      · subst hgs hgnil
        have base : GroupsPart a b s0A s0B [] s0A s0B := ⟨rfl, rfl⟩
        exact groupsPart_append_group a b [] s0A s0B s0A s0B c base
          (by omega) (by omega) (by omega)
          (by rw [show c.a1 - s0A = 0 from by omega]
              exact eqRegion_zero a b _ _)
          hok
      · exact groupsPart_extend a b gs g s0A s0B ci cj c hgp h1 h2 hok

/-- Structure theorem for `get_grouped_opcodes`: the produced groups tile
an aligned prefix of the two line lists, separated by aligned equal
regions, and the suffix after the last group is an aligned equal region
reaching the ends of both lists. -/
theorem get_grouped_opcodes_spec (a b : List String) :
    ∃ eA eB, eA ≤ a.length ∧ eB ≤ b.length ∧
      a.length - eA = b.length - eB ∧
      EqRegion a b eA eB (a.length - eA) ∧
      GroupsPart a b 0 0 (get_grouped_opcodes a b) eA eB := by
  by_cases hemp : (get_opcodes a b).isEmpty
  · have hnil : get_opcodes a b = [] := by
      cases h : get_opcodes a b with
      | nil => rfl
      | cons x l => rw [h] at hemp; exact absurd hemp (by simp)
    have hchain := get_opcodes_chain a b
    rw [hnil] at hchain
    obtain ⟨hla, hlb⟩ := hchain
    have hg : get_grouped_opcodes a b = [] := by
      unfold get_grouped_opcodes
      rw [hnil]
      rfl
    rw [hg]
    exact ⟨0, 0, by omega, by omega, by omega,
      by rw [show a.length - 0 = 0 from by omega]
         exact eqRegion_zero a b 0 0,
      rfl, rfl⟩
  · have hne : get_opcodes a b ≠ [] := by
      intro h
      apply hemp
      rw [h]
      rfl
    obtain ⟨c0, rest0, hcons⟩ := List.exists_cons_of_ne_nil hne
    have hchain := get_opcodes_chain a b
    rw [hcons] at hchain
    obtain ⟨hHne, hHge1, hHge2, hHal, hHreg, hHseg⟩ :=
      adjustHead_spec a b c0 rest0 0 0 a.length b.length hchain
    obtain ⟨hLne, hLf1, hLf2, hLa, hLb, hLal, hLreg, hLseg⟩ :=
      adjustLast_spec a b (adjustHead (c0 :: rest0))
        (gFirstA (adjustHead (c0 :: rest0)))
        (gFirstB (adjustHead (c0 :: rest0)))
        a.length b.length hHne hHseg
    have hF := groupFold_inv a b (adjustLast (adjustHead (c0 :: rest0))) [] []
      (gFirstA (adjustHead (c0 :: rest0)))
      (gFirstB (adjustHead (c0 :: rest0)))
      (gFirstA (adjustHead (c0 :: rest0)))
      (gFirstB (adjustHead (c0 :: rest0)))
      (gLastA (adjustLast (adjustHead (c0 :: rest0))))
      (gLastB (adjustLast (adjustHead (c0 :: rest0))))
      hLseg (Or.inl ⟨rfl, rfl, rfl, rfl⟩)
    have hs0 : gFirstA (adjustHead (c0 :: rest0)) =
        gFirstB (adjustHead (c0 :: rest0)) := by omega
    simp only [get_grouped_opcodes]
    rw [hcons, if_neg (by rw [← hcons]; exact hemp)]
    rcases hF with ⟨hF1, hF2, hEA, hEB⟩ | ⟨hFne, hFgp⟩
    · rw [hF2]
      refine ⟨0, 0, Nat.zero_le _, Nat.zero_le _, ?_, ?_, ?_⟩
      · omega
      · have h2 : EqRegion a b (0 + (gFirstA (adjustHead (c0 :: rest0)) - 0))
            (0 + (gFirstA (adjustHead (c0 :: rest0)) - 0))
            (a.length - gLastA (adjustLast (adjustHead (c0 :: rest0)))) := by
          have e1 : 0 + (gFirstA (adjustHead (c0 :: rest0)) - 0) =
              gLastA (adjustLast (adjustHead (c0 :: rest0))) := by omega
          have e2 : 0 + (gFirstA (adjustHead (c0 :: rest0)) - 0) =
              gLastB (adjustLast (adjustHead (c0 :: rest0))) := by omega
          nth_rewrite 1 [e1]
          rw [e2]
          exact hLreg
        have hglue := eqRegion_glue a b hHreg h2
        have e3 : gFirstA (adjustHead (c0 :: rest0)) - 0 +
            (a.length - gLastA (adjustLast (adjustHead (c0 :: rest0)))) =
            a.length - 0 := by omega
        rw [e3] at hglue
        exact hglue
      · show GroupsPart a b 0 0
          (List.foldl groupStep ([], [])
            (adjustLast (adjustHead (c0 :: rest0)))).1 0 0
        rw [hF1]
        exact ⟨rfl, rfl⟩
    · have hlead := groupsPart_lead a b
        ((List.foldl groupStep ([], []) (adjustLast (adjustHead (c0 :: rest0)))).1 ++
          [(List.foldl groupStep ([], []) (adjustLast (adjustHead (c0 :: rest0)))).2])
        (by simp) 0 0
        (gFirstA (adjustHead (c0 :: rest0)))
        (gFirstB (adjustHead (c0 :: rest0)))
        (gLastA (adjustLast (adjustHead (c0 :: rest0))))
        (gLastB (adjustLast (adjustHead (c0 :: rest0))))
        hFgp (Nat.zero_le _) (Nat.zero_le _) (by omega)
        (by intro t ht
            have := hHreg t ht
            exact this)
      obtain ⟨x, l, hxl⟩ := List.exists_cons_of_ne_nil hFne
      rw [hxl] at hlead
      rw [hxl]
      cases l with
      | nil =>
        by_cases hxt : x.tag = "equal"
        · obtain ⟨dA, dB, hgp', hd1, hd2, hdal, hdreg⟩ :=
            groupsPart_drop_last a b
              (List.foldl groupStep ([], [])
                (adjustLast (adjustHead (c0 :: rest0)))).1
              0 0
              (gLastA (adjustLast (adjustHead (c0 :: rest0))))
              (gLastB (adjustLast (adjustHead (c0 :: rest0))))
              x hxt hlead
          refine ⟨dA, dB, by omega, by omega, by omega, ?_, ?_⟩
          · have h2 : EqRegion a b
                (dA + (gLastA (adjustLast (adjustHead (c0 :: rest0))) - dA))
                (dB + (gLastA (adjustLast (adjustHead (c0 :: rest0))) - dA))
                (a.length - gLastA (adjustLast (adjustHead (c0 :: rest0)))) := by
              have e1 : dA + (gLastA (adjustLast (adjustHead (c0 :: rest0))) - dA) =
                  gLastA (adjustLast (adjustHead (c0 :: rest0))) := by omega
              have e2 : dB + (gLastA (adjustLast (adjustHead (c0 :: rest0))) - dA) =
                  gLastB (adjustLast (adjustHead (c0 :: rest0))) := by omega
              rw [e1, e2]
              exact hLreg
            have hglue := eqRegion_glue a b hdreg h2
            have e3 : gLastA (adjustLast (adjustHead (c0 :: rest0))) - dA +
                (a.length - gLastA (adjustLast (adjustHead (c0 :: rest0)))) =
                a.length - dA := by omega
            rw [e3] at hglue
            exact hglue
          · show GroupsPart a b 0 0
              (if x.tag = "equal" then
                (List.foldl groupStep ([], [])
                  (adjustLast (adjustHead (c0 :: rest0)))).1
              else
                (List.foldl groupStep ([], [])
                  (adjustLast (adjustHead (c0 :: rest0)))).1 ++ [[x]])
              dA dB
            rw [if_pos hxt]
            exact hgp'
        · refine ⟨gLastA (adjustLast (adjustHead (c0 :: rest0))),
            gLastB (adjustLast (adjustHead (c0 :: rest0))),
            hLa, hLb, hLal, hLreg, ?_⟩
          show GroupsPart a b 0 0
            (if x.tag = "equal" then
              (List.foldl groupStep ([], [])
                (adjustLast (adjustHead (c0 :: rest0)))).1
            else
              (List.foldl groupStep ([], [])
                (adjustLast (adjustHead (c0 :: rest0)))).1 ++ [[x]])
            (gLastA (adjustLast (adjustHead (c0 :: rest0))))
            (gLastB (adjustLast (adjustHead (c0 :: rest0))))
          rw [if_neg hxt]
          exact hlead
      | cons x2 l2 =>
        exact ⟨gLastA (adjustLast (adjustHead (c0 :: rest0))),
          gLastB (adjustLast (adjustHead (c0 :: rest0))),
          hLa, hLb, hLal, hLreg, hlead⟩

/-! ## Serialization: splitting the rendered diff back into its lines -/

/-- A character list ending in a line terminator. -/
def ClosedChars (xs : List Char) : Prop :=
  ∃ c, xs.getLast? = some c ∧ isLineTerm c = true

/-- Splitting distributes over concatenation at a line boundary, provided
the boundary is not inside a `"\r\n"` pair. -/
lemma pyLinesGo_append : ∀ (n : Nat) (xs : List Char), xs.length ≤ n →
    ∀ (acc ys : List Char), ClosedChars xs →
    (xs.getLast? = some '\r' → ys.head? ≠ some '\n') →
    pyLinesGo acc (xs ++ ys) = pyLinesGo acc xs ++ pyLinesGo [] ys := by
  intro n
  induction n with
  | zero =>
    intro xs hlen acc ys hcl hsafe
    have hx : xs = [] := List.eq_nil_of_length_eq_zero (by omega)
    subst hx
    obtain ⟨c, hc, _⟩ := hcl
    simp at hc
  | succ n ih =>
    intro xs hlen acc ys hcl hsafe
    cases xs with
    | nil =>
      obtain ⟨c, hc, _⟩ := hcl
      simp at hc
    | cons c rest =>
      by_cases hterm : isLineTerm c = true
      · cases rest with
        | nil =>
          have hlastc : (([c] : List Char)).getLast? = some c := rfl
          cases ys with
          | nil =>
            rw [List.append_nil]
            have h0 : pyLinesGo ([] : List Char) [] = [] := by
              rw [pyLinesGo_nil]
              rfl
            rw [h0, List.append_nil]
          | cons d ys' =>
            have hshape1 : ¬(c = '\r' ∧ (d :: ys').head? = some '\n') := by
              rintro ⟨rfl, hd⟩
              exact hsafe hlastc hd
            have hshape2 : ¬(c = '\r' ∧ ([] : List Char).head? = some '\n') := by
              rintro ⟨_, hd⟩
              simp at hd
            rw [List.cons_append, List.nil_append,
              pyLinesGo_cons_term acc c (d :: ys') hterm hshape1,
              pyLinesGo_cons_term acc c [] hterm hshape2]
            have h0 : pyLinesGo ([] : List Char) [] = [] := by
              rw [pyLinesGo_nil]
              rfl
            rw [h0]
            rfl
        | cons d rest' =>
          by_cases hcd : c = '\r' ∧ d = '\n'
          · obtain ⟨rfl, rfl⟩ := hcd
            rw [List.cons_append, List.cons_append, pyLinesGo_cons_crlf,
              pyLinesGo_cons_crlf]
            cases hr : rest' with
            | nil =>
              have h0 : pyLinesGo ([] : List Char) [] = [] := by
                rw [pyLinesGo_nil]
                rfl
              rw [List.nil_append, h0]
              rfl
            | cons e r2 =>
              rw [← hr]
              have hrne : rest' ≠ [] := by rw [hr]; exact List.cons_ne_nil _ _
              have hcl' : ClosedChars rest' := by
                obtain ⟨cc, hc1, hc2⟩ := hcl
                refine ⟨cc, ?_, hc2⟩
                rw [List.getLast?_cons_cons] at hc1
                rw [hr] at hc1 ⊢
                rw [List.getLast?_cons_cons] at hc1
                exact hc1
              have hsafe' : rest'.getLast? = some '\r' → ys.head? ≠ some '\n' := by
                intro hl
                apply hsafe
                rw [List.getLast?_cons_cons, hr, List.getLast?_cons_cons, ← hr, hl]
              have := ih rest' (by simp at hlen; omega) [] ys hcl' hsafe'
              rw [this]
              rfl
          · have hshape1 : ¬(c = '\r' ∧ (d :: (rest' ++ ys)).head? = some '\n') := by
              rintro ⟨rfl, hd⟩
              simp at hd
              exact hcd ⟨rfl, hd⟩
            have hshape2 : ¬(c = '\r' ∧ (d :: rest').head? = some '\n') := by
              rintro ⟨rfl, hd⟩
              simp at hd
              exact hcd ⟨rfl, hd⟩
            rw [List.cons_append,
              show (d :: rest') ++ ys = d :: (rest' ++ ys) from rfl] at *
            rw [pyLinesGo_cons_term acc c (d :: (rest' ++ ys)) hterm hshape1,
              pyLinesGo_cons_term acc c (d :: rest') hterm hshape2]
            have hcl' : ClosedChars (d :: rest') := by
              obtain ⟨cc, hc1, hc2⟩ := hcl
              exact ⟨cc, by rw [List.getLast?_cons_cons] at hc1; exact hc1, hc2⟩
            have hsafe' : (d :: rest').getLast? = some '\r' →
                ys.head? ≠ some '\n' := by
              intro hl
              apply hsafe
              rw [List.getLast?_cons_cons]
              exact hl
            have := ih (d :: rest') (by simp at hlen ⊢; omega) [] ys hcl' hsafe'
            rw [show d :: (rest' ++ ys) = (d :: rest') ++ ys from rfl, this]
            rfl
      · have hrne : rest ≠ [] := by
          intro h
          subst h
          obtain ⟨c', hc', ht'⟩ := hcl
          simp at hc'
          subst hc'
          exact hterm ht'
        have hfalse : isLineTerm c = false := by
          cases h : isLineTerm c
          · rfl
          · exact absurd h hterm
        rw [List.cons_append, pyLinesGo_cons_nonterm _ c _ hfalse,
          pyLinesGo_cons_nonterm acc c rest hfalse]
        obtain ⟨d, rest', rfl⟩ := List.exists_cons_of_ne_nil hrne
        have hcl' : ClosedChars (d :: rest') := by
          obtain ⟨cc, hc1, hc2⟩ := hcl
          exact ⟨cc, by rw [List.getLast?_cons_cons] at hc1; exact hc1, hc2⟩
        have hsafe' : (d :: rest').getLast? = some '\r' →
            ys.head? ≠ some '\n' := by
          intro hl
          apply hsafe
          rw [List.getLast?_cons_cons]
          exact hl
        exact ih (d :: rest') (by simp at hlen ⊢; omega) (c :: acc) ys hcl' hsafe'

/-- String-level splitting across a line boundary. -/
lemma pySplitlines_append (s t : String) (hcl : endsWithLineTerm s = true)
    (hsafe : s.data.getLast? = some '\r' → t.data.head? ≠ some '\n') :
    pySplitlines (s ++ t) = pySplitlines s ++ pySplitlines t := by
  have hcl' : ClosedChars s.data := by
    unfold endsWithLineTerm at hcl
    cases h : s.data.getLast? with
    | none => rw [h] at hcl; exact absurd hcl (by simp)
    | some c => rw [h] at hcl; exact ⟨c, h, hcl⟩
  unfold pySplitlines
  rw [show (s ++ t).data = s.data ++ t.data from String.data_append s t,
    pyLinesGo_append s.data.length s.data (le_refl _) [] t.data hcl' hsafe,
    List.map_append]

/-- Splitting the concatenation of terminator-closed pieces, none of which
begins with `'\n'`, yields the concatenation of the pieces' splits. -/
lemma pySplitlines_joinAll : ∀ (ps : List String),
    (∀ p ∈ ps, endsWithLineTerm p = true) →
    (∀ p ∈ ps, p.data.head? ≠ some '\n') →
    pySplitlines (joinAll ps) = (ps.map pySplitlines).flatten := by
  intro ps
  induction ps with
  | nil => intro _ _; rfl
  | cons p ps ih =>
    intro hc hs
    have hcp : endsWithLineTerm p = true := hc p (by simp)
    rw [show joinAll (p :: ps) = p ++ joinAll ps from rfl]
    have hsafe : p.data.getLast? = some '\r' →
        (joinAll ps).data.head? ≠ some '\n' := by
      intro _
      cases ps with
      | nil => simp [joinAll]
      | cons q ps' =>
        have hq : endsWithLineTerm q = true := hc q (by simp)
        have hqne : q.data ≠ [] := by
          unfold endsWithLineTerm at hq
          cases h : q.data.getLast? with
          | none => rw [h] at hq; exact absurd hq (by simp)
          | some c =>
            intro hnil
            rw [hnil] at h
            simp at h
        rw [show joinAll (q :: ps') = q ++ joinAll ps' from rfl,
          String.data_append]
        rw [List.head?_append_of_ne_nil _ hqne]
        exact hs q (by simp)
    rw [pySplitlines_append p (joinAll ps) hcp hsafe,
      ih (fun x hx => hc x (by simp [hx])) (fun x hx => hs x (by simp [hx]))]
    rfl

/-! ## Header serialization round-trip -/

lemma digitChar_isDigit (d : Nat) (h : d < 10) : (digitChar d).isDigit = true := by
  interval_cases d <;> decide

lemma digitChar_toNat (d : Nat) (h : d < 10) : (digitChar d).toNat = 48 + d := by
  interval_cases d <;> decide

lemma digitChar_notTerm (d : Nat) (h : d < 10) :
    isLineTerm (digitChar d) = false := by
  interval_cases d <;> decide

lemma natDigitsGo_digits : ∀ fuel n, ∀ c ∈ natDigitsGo fuel n,
    c.isDigit = true := by
  intro fuel
  induction fuel with
  | zero => intro n c hc; simp [natDigitsGo] at hc
  | succ fuel ih =>
    intro n c hc
    rw [natDigitsGo] at hc
    by_cases h : n < 10
    · rw [if_pos h] at hc
      simp at hc
      subst hc
      exact digitChar_isDigit n h
    · rw [if_neg h] at hc
      rcases List.mem_append.1 hc with h1 | h2
      · exact ih _ c h1
      · simp at h2
        subst h2
        exact digitChar_isDigit _ (Nat.mod_lt n (by omega))

lemma natDigitsGo_notTerm : ∀ fuel n, ∀ c ∈ natDigitsGo fuel n,
    isLineTerm c = false := by
  intro fuel
  induction fuel with
  | zero => intro n c hc; simp [natDigitsGo] at hc
  | succ fuel ih =>
    intro n c hc
    rw [natDigitsGo] at hc
    by_cases h : n < 10
    · rw [if_pos h] at hc
      simp at hc
      subst hc
      exact digitChar_notTerm n h
    · rw [if_neg h] at hc
      rcases List.mem_append.1 hc with h1 | h2
      · exact ih _ c h1
      · simp at h2
        subst h2
        exact digitChar_notTerm _ (Nat.mod_lt n (by omega))

lemma natDigitsGo_ne_nil (fuel n : Nat) (h : 1 ≤ fuel) :
    natDigitsGo fuel n ≠ [] := by
  cases fuel with
  | zero => omega
  | succ fuel =>
    rw [natDigitsGo]
    by_cases h10 : n < 10
    · rw [if_pos h10]; simp
    · rw [if_neg h10]; simp

lemma digitsVal_append (ds : List Char) (c : Char) :
    digitsVal (ds ++ [c]) = digitsVal ds * 10 + (c.toNat - 48) := by
  unfold digitsVal
  rw [List.foldl_append]
  rfl

lemma digitsVal_natDigitsGo : ∀ fuel n, n < 10 ^ fuel →
    digitsVal (natDigitsGo fuel n) = n := by
  intro fuel
  induction fuel with
  | zero =>
    intro n h
    have : n = 0 := by simpa using h
    subst this
    rfl
  | succ fuel ih =>
    intro n h
    rw [natDigitsGo]
    by_cases h10 : n < 10
    · rw [if_pos h10]
      rw [show digitsVal [digitChar n] = 0 * 10 + ((digitChar n).toNat - 48) from rfl,
        digitChar_toNat n h10]
      omega
    · have hdiv : n / 10 < 10 ^ fuel := by
        apply Nat.div_lt_of_lt_mul
        rw [Nat.mul_comm, ← pow_succ]
        exact h
      rw [if_neg h10, digitsVal_append, ih (n / 10) hdiv,
        digitChar_toNat _ (Nat.mod_lt n (by omega))]
      omega

lemma takeWhile_dropWhile_all {p : Char → Bool} :
    ∀ (l rest : List Char), (∀ c ∈ l, p c = true) →
    (∀ c, rest.head? = some c → p c = false) →
    (l ++ rest).takeWhile p = l ∧ (l ++ rest).dropWhile p = rest := by
  intro l
  induction l with
  | nil =>
    intro rest _ hr
    cases rest with
    | nil => exact ⟨rfl, rfl⟩
    | cons c cs =>
      have hc := hr c rfl
      rw [List.nil_append]
      constructor
      · rw [List.takeWhile_cons, hc]
        rfl
      · rw [List.dropWhile_cons, hc]
        rfl
  | cons a l ih =>
    intro rest hall hr
    have ha : p a = true := hall a (by simp)
    obtain ⟨ht, hd⟩ := ih rest (fun c hc => hall c (by simp [hc])) hr
    constructor
    · rw [List.cons_append, List.takeWhile_cons, ha]
      simp only [if_true]
      rw [ht]
    · rw [List.cons_append, List.dropWhile_cons, ha]
      simp only [if_true]
      rw [hd]

lemma natDecimal_lt_pow (n : Nat) : n < 10 ^ (n + 1) := by
  calc n < 10 ^ n := Nat.lt_pow_self (by norm_num) n
  _ ≤ 10 ^ (n + 1) := Nat.pow_le_pow_right (by norm_num) (Nat.le_succ n)

lemma parseNatCore_render (n : Nat) (rest : List Char)
    (hrest : ∀ c, rest.head? = some c → c.isDigit = false) :
    parseNatCore ((natDecimal n).data ++ rest) = some (n, rest) := by
  obtain ⟨ht, hd⟩ := takeWhile_dropWhile_all (natDecimal n).data rest
    (fun c hc => natDigitsGo_digits (n + 1) n c hc) hrest
  simp only [parseNatCore]
  rw [ht, hd, if_neg (by simpa using natDigitsGo_ne_nil (n + 1) n (by omega)),
    show (natDecimal n).data = natDigitsGo (n + 1) n from rfl,
    digitsVal_natDigitsGo (n + 1) n (natDecimal_lt_pow n)]

/-- The start figure recovered by the parser from a rendered range with
1-based `beginning` (zero-length ranges print the 0-based position). -/
def parsedStart (s e : Nat) : Nat := if e - s = 0 then s else s + 1

lemma strEq_of_data {s t : String} (h : s.data = t.data) : s = t :=
  String.ext h

lemma afterCount_noComma (l : List Char) (h : l.head? ≠ some ',') :
    afterCount l = l := by
  cases l with
  | nil => rfl
  | cons c r =>
    rw [afterCount]
    rw [if_neg (by intro hc; exact h (by rw [hc]; rfl))]

lemma parseHunkHeader_cons (rest : List Char) :
    parseHunkHeader ⟨'@' :: '@' :: ' ' :: '-' :: rest⟩ =
      (match parseNatCore rest with
      | none => none
      | some (oldS, r1) =>
        match afterCount r1 with
        | c1 :: c2 :: r3 =>
          if c1 = ' ' ∧ c2 = '+' then
            match parseNatCore r3 with
            | none => none
            | some (newS, r4) =>
              match afterCount r4 with
              | d1 :: d2 :: d3 :: _ =>
                if d1 = ' ' ∧ d2 = '@' ∧ d3 = '@' then some (oldS, newS)
                else none
              | _ => none
          else none
        | _ => none) := rfl

/-- Parsing a rendered unified range recovers `parsedStart` and leaves the
remainder intact after the count is consumed. -/
lemma range_roundtrip (s e : Nat) (rest : List Char)
    (hrest : ∀ c, rest.head? = some c → c.isDigit = false)
    (hrest2 : rest.head? ≠ some ',') :
    ∃ r1, parseNatCore ((formatRangeUnified s e).data ++ rest) =
      some (parsedStart s e, r1) ∧ afterCount r1 = rest := by
  by_cases h1 : e - s = 1
  · refine ⟨rest, ?_, afterCount_noComma rest hrest2⟩
    simp only [formatRangeUnified]
    rw [if_pos h1,
      show parsedStart s e = s + 1 from by unfold parsedStart; rw [if_neg (by omega)]]
    exact parseNatCore_render (s + 1) rest hrest
  · refine ⟨',' :: ((natDecimal (e - s)).data ++ rest), ?_, ?_⟩
    · simp only [formatRangeUnified]
      rw [if_neg h1, String.data_append, String.data_append,
        show (",").data = [','] from rfl, List.append_assoc, List.append_assoc,
        show ([','] ++ ((natDecimal (e - s)).data ++ rest)) =
          ',' :: ((natDecimal (e - s)).data ++ rest) from rfl]
      rw [parseNatCore_render _ _ (by intro c hc; cases hc; decide)]
      rfl
    · rw [afterCount, if_pos rfl,
        parseNatCore_render (e - s) rest hrest]

/-- Parsing the rendered `@@` header of a group recovers the two
`parsedStart` figures. -/
lemma parseHunkHeader_render (s1 e1 s2 e2 : Nat) :
    parseHunkHeader ("@@ -" ++ formatRangeUnified s1 e1 ++ " +" ++
      formatRangeUnified s2 e2 ++ " @@") =
    some (parsedStart s1 e1, parsedStart s2 e2) := by
  have hd : ("@@ -" ++ formatRangeUnified s1 e1 ++ " +" ++
      formatRangeUnified s2 e2 ++ " @@") =
      ⟨'@' :: '@' :: ' ' :: '-' ::
        ((formatRangeUnified s1 e1).data ++
          (' ' :: '+' :: ((formatRangeUnified s2 e2).data ++
            [' ', '@', '@'])))⟩ := by
    apply strEq_of_data
    rw [String.data_append, String.data_append, String.data_append,
      String.data_append,
      show ("@@ -").data = ['@', '@', ' ', '-'] from rfl,
      show (" +").data = [' ', '+'] from rfl,
      show (" @@").data = [' ', '@', '@'] from rfl]
    simp [List.append_assoc]
  rw [hd, parseHunkHeader_cons]
  obtain ⟨r1, hp1, ha1⟩ := range_roundtrip s1 e1
    (' ' :: '+' :: ((formatRangeUnified s2 e2).data ++ [' ', '@', '@']))
    (by intro c hc; cases hc; decide) (by intro hc; cases hc)
  obtain ⟨r4, hp2, ha2⟩ := range_roundtrip s2 e2 [' ', '@', '@']
    (by intro c hc; cases hc; decide) (by intro hc; cases hc)
  simp only [hp1, ha1]
  rw [if_pos (by simp)]
  simp only [hp2, ha2]
  rw [if_pos (by simp)]

/-! ## The shape of keepends lines after the trailing-newline fix -/

/-- Strip the trailing terminator of a line (its terminator-free prefix). -/
def stripTerm (s : String) : String :=
  ⟨s.data.takeWhile (fun c => !(isLineTerm c))⟩

/-- A line made of terminator-free content followed by one terminator
unit, or by a non-`'\r'` terminator and a forced `'\n'`. -/
def GoodLine (l : String) : Prop :=
  ∃ content u, l.data = content ++ u ∧
    (∀ c ∈ content, isLineTerm c = false) ∧
    ((∃ t, u = [t] ∧ isLineTerm t = true) ∨ u = ['\r', '\n'] ∨
     (∃ t, u = [t, '\n'] ∧ isLineTerm t = true ∧ t ≠ '\r' ∧ t ≠ '\n'))

lemma forceTrailingNL_eq (ls : List String) :
    forceTrailingNL ls = match ls.getLast? with
      | none => ls
      | some l => if l.data.getLast? = some '\n' then ls
          else ls.dropLast ++ [l ++ "\n"] := rfl

lemma forceTrailingNL_cons (x : String) (M : List String) (h : M ≠ []) :
    forceTrailingNL (x :: M) = x :: forceTrailingNL M := by
  obtain ⟨q, M', rfl⟩ := List.exists_cons_of_ne_nil h
  have hm : (q :: M').getLast? = some ((q :: M').getLast (by simp)) :=
    List.getLast?_eq_getLast _ _
  have hx : (x :: q :: M').getLast? = some ((q :: M').getLast (by simp)) := by
    rw [List.getLast?_cons_cons]
    exact hm
  rw [forceTrailingNL_eq, forceTrailingNL_eq]
  simp only [hm, hx]
  by_cases hnl : ((q :: M').getLast (by simp)).data.getLast? = some '\n'
  · rw [if_pos hnl, if_pos hnl]
  · rw [if_neg hnl, if_neg hnl]
    rfl

/-- The trailing-newline fix of a single line ending in a terminator
yields only good lines. -/
lemma goodline_single (A : List Char) (c : Char)
    (hA : ∀ x ∈ A, isLineTerm x = false) (hc : isLineTerm c = true) :
    ∀ l ∈ forceTrailingNL [⟨A ++ [c]⟩], GoodLine l := by
  intro l hl
  rw [forceTrailingNL_eq] at hl
  simp only [show ([(⟨A ++ [c]⟩ : String)]).getLast? =
    some ⟨A ++ [c]⟩ from rfl] at hl
  have hdata : (⟨A ++ [c]⟩ : String).data.getLast? = some c := by
    rw [show (⟨A ++ [c]⟩ : String).data = A ++ [c] from rfl,
      List.getLast?_concat]
  by_cases hnl : c = '\n'
  · subst hnl
    rw [if_pos hdata] at hl
    simp at hl
    subst hl
    exact ⟨A, ['\n'], rfl, hA, Or.inl ⟨'\n', rfl, by decide⟩⟩
  · rw [if_neg (by rw [hdata]; intro he; exact hnl (by simpa using he))] at hl
    simp at hl
    subst hl
    by_cases hr : c = '\r'
    · subst hr
      refine ⟨A, ['\r', '\n'], ?_, hA, Or.inr (Or.inl rfl)⟩
      rw [String.data_append,
        show (⟨A ++ ['\r']⟩ : String).data = A ++ ['\r'] from rfl,
        show ("\n").data = ['\n'] from rfl, List.append_assoc]
      rfl
    · refine ⟨A, [c, '\n'], ?_, hA, Or.inr (Or.inr ⟨c, rfl, hc, hr, hnl⟩)⟩
      rw [String.data_append,
        show (⟨A ++ [c]⟩ : String).data = A ++ [c] from rfl,
        show ("\n").data = ['\n'] from rfl, List.append_assoc]
      rfl

/-- Every line of the keepends split, after the trailing-newline fix, is a
good line. -/
lemma keep_goodlines : ∀ (acc cs : List Char),
    (∀ c ∈ acc, isLineTerm c = false) →
    ∀ l ∈ forceTrailingNL
      ((pyLinesGo acc cs).map (fun p => (⟨p.1 ++ p.2⟩ : String))),
    GoodLine l := by
  intro acc cs
  induction acc, cs using pyLinesGo.induct with
  | case1 acc hempty =>
    intro _ l hl
    rw [pyLinesGo_nil, if_pos hempty] at hl
    simp [forceTrailingNL] at hl
  | case2 acc hempty =>
    intro hacc l hl
    rw [pyLinesGo_nil, if_neg hempty] at hl
    have hA : ∀ c ∈ acc.reverse, isLineTerm c = false :=
      fun c hc => hacc c (List.mem_reverse.1 hc)
    rw [List.map_singleton, forceTrailingNL_eq] at hl
    simp only [show ([(⟨acc.reverse ++ []⟩ : String)]).getLast? =
      some ⟨acc.reverse ++ []⟩ from rfl] at hl
    rw [if_neg ?hnl] at hl
    case hnl =>
      intro hlast
      have hmem : '\n' ∈ (⟨acc.reverse ++ []⟩ : String).data :=
        List.mem_of_mem_getLast? hlast
      rw [show (⟨acc.reverse ++ []⟩ : String).data = acc.reverse ++ [] from rfl,
        List.append_nil] at hmem
      exact absurd (hA '\n' hmem) (by decide)
    simp at hl
    subst hl
    exact ⟨acc.reverse, ['\n'], rfl, hA, Or.inl ⟨'\n', rfl, by decide⟩⟩
  | case3 acc c hterm d rest2 hcd ih =>
    intro hacc l hl
    obtain ⟨rfl, rfl⟩ := hcd
    rw [pyLinesGo_cons_crlf, List.map_cons] at hl
    have hA : ∀ x ∈ acc.reverse, isLineTerm x = false :=
      fun x hx => hacc x (List.mem_reverse.1 hx)
    have hxgood : GoodLine ⟨acc.reverse ++ ['\r', '\n']⟩ :=
      ⟨acc.reverse, ['\r', '\n'], rfl, hA, Or.inr (Or.inl rfl)⟩
    cases hM : (pyLinesGo [] rest2).map (fun p => (⟨p.1 ++ p.2⟩ : String)) with
    | nil =>
      rw [hM, forceTrailingNL_eq] at hl
      simp only [show ([(⟨acc.reverse ++ ['\r', '\n']⟩ : String)]).getLast? =
        some ⟨acc.reverse ++ ['\r', '\n']⟩ from rfl] at hl
      rw [if_pos (by
        rw [show acc.reverse ++ ['\r', '\n'] =
          (acc.reverse ++ ['\r']) ++ ['\n'] from by
            rw [List.append_assoc]; rfl,
          List.getLast?_concat])] at hl
      simp at hl
      subst hl
      exact hxgood
    | cons y M2 =>
      rw [hM, forceTrailingNL_cons _ _ (List.cons_ne_nil y M2)] at hl
      rcases List.mem_cons.1 hl with rfl | hl2
      · exact hxgood
      · have := ih (by simp)
        rw [hM] at this
        exact this l hl2
  | case4 acc c hterm d rest2 hcd ih =>
    intro hacc l hl
    rw [pyLinesGo_cons_term acc c (d :: rest2) hterm (by simpa using hcd),
      List.map_cons] at hl
    have hA : ∀ x ∈ acc.reverse, isLineTerm x = false :=
      fun x hx => hacc x (List.mem_reverse.1 hx)
    have hxgood : GoodLine ⟨acc.reverse ++ [c]⟩ :=
      ⟨acc.reverse, [c], rfl, hA, Or.inl ⟨c, rfl, hterm⟩⟩
    cases hM : (pyLinesGo [] (d :: rest2)).map
        (fun p => (⟨p.1 ++ p.2⟩ : String)) with
    | nil =>
      rw [hM] at hl
      exact goodline_single acc.reverse c hA hterm l hl
    | cons y M2 =>
      rw [hM, forceTrailingNL_cons _ _ (List.cons_ne_nil y M2)] at hl
      rcases List.mem_cons.1 hl with rfl | hl2
      · exact hxgood
      · have := ih (by simp)
        rw [hM] at this
        exact this l hl2
  | case5 acc c hterm ih =>
    intro hacc l hl
    rw [pyLinesGo_cons_term acc c [] hterm (by simp), List.map_cons] at hl
    have hA : ∀ x ∈ acc.reverse, isLineTerm x = false :=
      fun x hx => hacc x (List.mem_reverse.1 hx)
    have h0 : pyLinesGo ([] : List Char) [] = [] := by
      rw [pyLinesGo_nil]
      rfl
    rw [h0] at hl
    exact goodline_single acc.reverse c hA hterm l hl
  | case6 acc c rest hterm ih =>
    intro hacc l hl
    rw [pyLinesGo_cons_nonterm acc c rest (by simpa using hterm)] at hl
    refine ih ?_ l hl
    intro e he
    rcases List.mem_cons.1 he with rfl | he2
    · simpa using hterm
    · exact hacc e he2

/-- Every line of `forceTrailingNL (pySplitlinesKeep s)` is a good line. -/
lemma forceTrailing_goodlines (s : String) :
    ∀ l ∈ forceTrailingNL (pySplitlinesKeep s), GoodLine l := by
  intro l hl
  exact keep_goodlines [] s.data (by simp) l hl

lemma pyLinesGo_termfree_run :
    ∀ (content : List Char), (∀ c ∈ content, isLineTerm c = false) →
    ∀ (acc rest : List Char),
    pyLinesGo acc (content ++ rest) = pyLinesGo (content.reverse ++ acc) rest := by
  intro content
  induction content with
  | nil => intro _ acc rest; simp
  | cons c cs ih =>
    intro h acc rest
    rw [List.cons_append, pyLinesGo_cons_nonterm _ c _ (h c (by simp)),
      ih (fun x hx => h x (by simp [hx])) (c :: acc) rest]
    congr 1
    simp

lemma goodline_strip (content u : List Char)
    (hcf : ∀ c ∈ content, isLineTerm c = false)
    (hu : (∃ t, u = [t] ∧ isLineTerm t = true) ∨ u = ['\r', '\n'] ∨
      (∃ t, u = [t, '\n'] ∧ isLineTerm t = true ∧ t ≠ '\r' ∧ t ≠ '\n')) :
    (content ++ u).takeWhile (fun c => !(isLineTerm c)) = content := by
  have hhead : ∀ c, u.head? = some c → (!(isLineTerm c)) = false := by
    intro c hc
    rcases hu with ⟨t, rfl, ht⟩ | rfl | ⟨t, rfl, ht, _, _⟩
    · simp at hc
      subst hc
      rw [ht]
      rfl
    · simp at hc
      subst hc
      rfl
    · simp at hc
      subst hc
      rw [ht]
      rfl
  exact (takeWhile_dropWhile_all content u
    (fun c hc => by rw [hcf c hc]; rfl) hhead).1

lemma goodline_ends (l : String) (hl : GoodLine l) :
    endsWithLineTerm l = true := by
  obtain ⟨content, u, hdata, hcf, hu⟩ := hl
  unfold endsWithLineTerm
  rw [hdata]
  rcases hu with ⟨t, rfl, ht⟩ | rfl | ⟨t, rfl, ht, _, _⟩
  · rw [List.getLast?_concat]
    exact ht
  · rw [show content ++ ['\r', '\n'] = (content ++ ['\r']) ++ ['\n'] from by
      simp, List.getLast?_concat]
    rfl
  · rw [show content ++ [t, '\n'] = (content ++ [t]) ++ ['\n'] from by
      simp, List.getLast?_concat]
    rfl

lemma goodline_data_ne_nil (l : String) (hl : GoodLine l) : l.data ≠ [] := by
  obtain ⟨content, u, hdata, hcf, hu⟩ := hl
  rw [hdata]
  rcases hu with ⟨t, rfl, ht⟩ | rfl | ⟨t, rfl, ht, _, _⟩ <;> simp

/-- Splitting an op line built from a good line: one line carrying the
op character and the stripped content, possibly followed by one empty
pseudo-line. -/
lemma pySplitlines_op (op : Char) (hop : isLineTerm op = false) (l : String)
    (hl : GoodLine l) :
    ∃ ex, pySplitlines ⟨op :: l.data⟩ = ⟨op :: (stripTerm l).data⟩ :: ex ∧
      (ex = [] ∨ ex = [""]) := by
  obtain ⟨content, u, hdata, hcf, hu⟩ := hl
  have hstrip : (stripTerm l).data = content := by
    show (l.data.takeWhile (fun c => !(isLineTerm c))) = content
    rw [hdata]
    exact goodline_strip content u hcf hu
  unfold pySplitlines
  rw [show (⟨op :: l.data⟩ : String).data = op :: l.data from rfl, hdata]
  rw [show pyLinesGo [] (op :: (content ++ u)) =
    pyLinesGo (content.reverse ++ [op]) u from by
      rw [pyLinesGo_cons_nonterm [] op _ hop,
        pyLinesGo_termfree_run content hcf [op] u]]
  rcases hu with ⟨t, rfl, ht⟩ | rfl | ⟨t, rfl, ht, hr, hn⟩
  · rw [pyLinesGo_cons_term _ t [] ht (by simp), pyLinesGo_nil]
    refine ⟨[], ?_, Or.inl rfl⟩
    rw [if_pos (show ([] : List Char).isEmpty = true from rfl),
      List.map_singleton, hstrip,
      show (content.reverse ++ [op]).reverse = op :: content from by simp]
  · rw [pyLinesGo_cons_crlf, pyLinesGo_nil]
    refine ⟨[], ?_, Or.inl rfl⟩
    rw [if_pos (show ([] : List Char).isEmpty = true from rfl),
      List.map_singleton, hstrip,
      show (content.reverse ++ [op]).reverse = op :: content from by simp]
  · rw [pyLinesGo_cons_term _ t ['\n'] ht
      (by rintro ⟨h1, _⟩; exact hr h1),
      pyLinesGo_cons_term [] '\n' [] (by decide) (by simp), pyLinesGo_nil]
    refine ⟨[""], ?_, Or.inr rfl⟩
    rw [if_pos (show ([] : List Char).isEmpty = true from rfl), List.map_cons,
      List.map_singleton, hstrip,
      show (content.reverse ++ [op]).reverse = op :: content from by simp]
    rfl

/-- Splitting a terminator-free line closed by a single `'\n'`. -/
lemma pySplitlines_termfree_nl (h : String) (hh : TermFreeStr h) :
    pySplitlines (h ++ "\n") = [h] := by
  unfold pySplitlines
  rw [show (h ++ "\n").data = h.data ++ ['\n'] from by
    rw [String.data_append]]
  rw [pyLinesGo_termfree_run h.data hh [] ['\n'],
    pyLinesGo_cons_term _ '\n' [] (by decide) (by simp), pyLinesGo_nil]
  rw [if_pos (show ([] : List Char).isEmpty = true from rfl),
    List.map_singleton,
    show (h.data.reverse ++ ([] : List Char)).reverse = h.data from by simp]

/-! ## Recovering the hunks from the rendered diff -/

/-- The change list the parser recovers from one rendered opcode. -/
def opChanges (a b : List String) (c : Opcode) : List (Char × String) :=
  if c.tag = "equal" then
    (sliceList a c.a1 c.a2).map (fun l => (' ', stripTerm l))
  else
    (if c.tag = "replace" ∨ c.tag = "delete" then
      (sliceList a c.a1 c.a2).map (fun l => ('-', stripTerm l)) else []) ++
    (if c.tag = "replace" ∨ c.tag = "insert" then
      (sliceList b c.b1 c.b2).map (fun l => ('+', stripTerm l)) else [])

/-- The hunk the parser recovers from one rendered group. -/
def hunkOf (a b : List String) (g : List Opcode) : Hunk :=
  ⟨parsedStart (gFirstA g) (gLastA g), parsedStart (gFirstB g) (gLastB g),
   (g.map (opChanges a b)).flatten⟩

lemma sliceList_subset {α : Type} (l : List α) (i j : Nat) :
    ∀ x ∈ sliceList l i j, x ∈ l := by
  intro x hx
  unfold sliceList at hx
  exact List.mem_of_mem_drop (List.mem_of_mem_take hx)

lemma termFree_append (x y : String) (hx : TermFreeStr x)
    (hy : TermFreeStr y) : TermFreeStr (x ++ y) := by
  intro c hc
  rw [String.data_append] at hc
  rcases List.mem_append.1 hc with h | h
  · exact hx c h
  · exact hy c h

lemma formatRangeUnified_termFree (s e : Nat) :
    TermFreeStr (formatRangeUnified s e) := by
  intro c hc
  simp only [formatRangeUnified] at hc
  by_cases h1 : e - s = 1
  · rw [if_pos h1] at hc
    exact natDigitsGo_notTerm _ _ c hc
  · rw [if_neg h1] at hc
    rw [String.data_append, String.data_append] at hc
    rcases List.mem_append.1 hc with hc1 | hc2
    · rcases List.mem_append.1 hc1 with hc3 | hc4
      · exact natDigitsGo_notTerm _ _ c hc3
      · rw [show (",").data = [','] from rfl] at hc4
        simp at hc4
        subst hc4
        decide
    · exact natDigitsGo_notTerm _ _ c hc2

lemma parseStep_op (done : List Hunk) (h : Hunk) (op : Char)
    (content : List Char) (hop : op = ' ' ∨ op = '-' ∨ op = '+') :
    parseStep (done, some h) ⟨op :: content⟩ =
      (done, some { h with changes :=
        h.changes ++ [(op, (⟨content⟩ : String))] }) := by
  rcases hop with rfl | rfl | rfl <;> rfl

lemma parseStep_emptyline (st : List Hunk × Option Hunk) :
    parseStep st "" = st :=
  parseStep_skip st "" (Or.inr ⟨rfl, rfl, rfl, rfl⟩)

/-- Folding the parser over the split lines of a run of same-op rendered
lines appends the corresponding changes to the open hunk. -/
lemma fold_op_lines (op : Char) (hop : op = ' ' ∨ op = '-' ∨ op = '+')
    (hopt : isLineTerm op = false) :
    ∀ (ls : List String), (∀ l ∈ ls, GoodLine l) →
    ∀ (done : List Hunk) (h : Hunk),
    ((ls.map (fun l => pySplitlines ⟨op :: l.data⟩)).flatten).foldl parseStep
      (done, some h) =
      (done, some { h with changes :=
        h.changes ++ ls.map (fun l => (op, stripTerm l)) }) := by
  intro ls
  induction ls with
  | nil =>
    intro _ done h
    simp only [List.map_nil, List.flatten_nil, List.foldl_nil,
      List.append_nil]
  | cons l ls ih =>
    intro hg done h
    obtain ⟨ex, hex, hcases⟩ := pySplitlines_op op hopt l (hg l (by simp))
    rw [List.map_cons, List.flatten_cons, hex, List.cons_append,
      List.foldl_cons]
    have hstep := parseStep_op done h op (stripTerm l).data hop
    rw [show (⟨(stripTerm l).data⟩ : String) = stripTerm l from rfl] at hstep
    rw [hstep]
    have hfold : (ex ++ (ls.map
        (fun l => pySplitlines ⟨op :: l.data⟩)).flatten).foldl parseStep
        (done, some { h with changes := h.changes ++ [(op, stripTerm l)] }) =
        ((ls.map (fun l => pySplitlines ⟨op :: l.data⟩)).flatten).foldl
          parseStep
          (done, some { h with changes := h.changes ++ [(op, stripTerm l)] }) := by
      rcases hcases with rfl | rfl
      · rw [List.nil_append]
      · rw [List.cons_append, List.nil_append, List.foldl_cons,
          parseStep_emptyline]
    rw [hfold, ih (fun x hx => hg x (by simp [hx]))]
    rw [List.map_cons]
    have hch : (h.changes ++ [(op, stripTerm l)]) ++
        ls.map (fun x => (op, stripTerm x)) =
        h.changes ++ ((op, stripTerm l) :: ls.map (fun x => (op, stripTerm x))) := by
      rw [List.append_assoc]
      rfl
    show (done, some (Hunk.mk h.old_start h.new_start
      ((h.changes ++ [(op, stripTerm l)]) ++
        ls.map (fun x => (op, stripTerm x))))) =
      (done, some (Hunk.mk h.old_start h.new_start
      (h.changes ++ ((op, stripTerm l) ::
        ls.map (fun x => (op, stripTerm x))))))
    rw [hch]

lemma flatten_map_flatten {α β : Type} (f : α → List β) :
    ∀ (Ls : List (List α)),
    (Ls.flatten.map f).flatten =
      (Ls.map (fun X => (X.map f).flatten)).flatten := by
  intro Ls
  induction Ls with
  | nil => rfl
  | cons X Ls ih =>
    rw [List.flatten_cons, List.map_append, List.flatten_append, ih,
      List.map_cons, List.flatten_cons]

lemma strHead_append (x y : String) (hx : x.data ≠ []) :
    (x ++ y).data.head? = x.data.head? := by
  rw [String.data_append, List.head?_append_of_ne_nil _ hx]

/-- Folding the parser over the split lines of one rendered opcode appends
`opChanges` to the open hunk. -/
lemma fold_renderOpcode (a b : List String)
    (ha : ∀ l ∈ a, GoodLine l) (hb : ∀ l ∈ b, GoodLine l) (c : Opcode)
    (done : List Hunk) (h : Hunk) :
    (((renderOpcode a b c).map pySplitlines).flatten).foldl parseStep
      (done, some h) =
      (done, some { h with changes := h.changes ++ opChanges a b c }) := by
  unfold renderOpcode opChanges
  by_cases ht : c.tag = "equal"
  · rw [if_pos ht, if_pos ht, List.map_map]
    have hmap : (sliceList a c.a1 c.a2).map (pySplitlines ∘ fun l => " " ++ l) =
        (sliceList a c.a1 c.a2).map (fun l => pySplitlines ⟨' ' :: l.data⟩) := rfl
    rw [hmap]
    exact fold_op_lines ' ' (Or.inl rfl) (by decide) _
      (fun l hl => ha l (sliceList_subset a _ _ l hl)) done h
  · rw [if_neg ht, if_neg ht, List.map_append, List.flatten_append,
      List.foldl_append]
    by_cases hrd : c.tag = "replace" ∨ c.tag = "delete"
    · rw [if_pos hrd, if_pos hrd, List.map_map]
      have hmap1 : (sliceList a c.a1 c.a2).map (pySplitlines ∘ fun l => "-" ++ l) =
          (sliceList a c.a1 c.a2).map (fun l => pySplitlines ⟨'-' :: l.data⟩) := rfl
      rw [hmap1, fold_op_lines '-' (Or.inr (Or.inl rfl)) (by decide) _
        (fun l hl => ha l (sliceList_subset a _ _ l hl)) done h]
      by_cases hri : c.tag = "replace" ∨ c.tag = "insert"
      · rw [if_pos hri, if_pos hri, List.map_map]
        have hmap2 : (sliceList b c.b1 c.b2).map (pySplitlines ∘ fun l => "+" ++ l) =
            (sliceList b c.b1 c.b2).map (fun l => pySplitlines ⟨'+' :: l.data⟩) := rfl
        rw [hmap2, fold_op_lines '+' (Or.inr (Or.inr rfl)) (by decide) _
          (fun l hl => hb l (sliceList_subset b _ _ l hl)) done _]
        show (done, some (Hunk.mk h.old_start h.new_start
          ((h.changes ++ (sliceList a c.a1 c.a2).map (fun l => ('-', stripTerm l))) ++
            (sliceList b c.b1 c.b2).map (fun l => ('+', stripTerm l))))) =
          (done, some (Hunk.mk h.old_start h.new_start
          (h.changes ++ ((sliceList a c.a1 c.a2).map (fun l => ('-', stripTerm l)) ++
            (sliceList b c.b1 c.b2).map (fun l => ('+', stripTerm l))))))
        rw [List.append_assoc]
      · rw [if_neg hri, if_neg hri]
        simp only [List.map_nil, List.flatten_nil, List.foldl_nil,
          List.append_nil]
    · rw [if_neg hrd, if_neg hrd]
      simp only [List.map_nil, List.flatten_nil, List.foldl_nil,
        List.nil_append]
      by_cases hri : c.tag = "replace" ∨ c.tag = "insert"
      · rw [if_pos hri, if_pos hri, List.map_map]
        have hmap2 : (sliceList b c.b1 c.b2).map (pySplitlines ∘ fun l => "+" ++ l) =
            (sliceList b c.b1 c.b2).map (fun l => pySplitlines ⟨'+' :: l.data⟩) := rfl
        rw [hmap2]
        exact fold_op_lines '+' (Or.inr (Or.inr rfl)) (by decide) _
          (fun l hl => hb l (sliceList_subset b _ _ l hl)) done h
      · rw [if_neg hri, if_neg hri]
        simp only [List.map_nil, List.flatten_nil, List.foldl_nil,
          List.append_nil]

lemma strAppend_assoc (x y z : String) : x ++ y ++ z = x ++ (y ++ z) :=
  strEq_of_data (by
    rw [String.data_append, String.data_append, String.data_append,
      String.data_append, List.append_assoc])

lemma header_eq (R1 R2 : String) :
    ("@@ -" ++ R1 ++ " +" ++ R2 ++ " @@") =
      ⟨'@' :: '@' :: ' ' :: '-' ::
        (R1.data ++ (' ' :: '+' :: (R2.data ++ [' ', '@', '@'])))⟩ := by
  apply strEq_of_data
  rw [String.data_append, String.data_append, String.data_append,
    String.data_append,
    show ("@@ -").data = ['@', '@', ' ', '-'] from rfl,
    show (" +").data = [' ', '+'] from rfl,
    show (" @@").data = [' ', '@', '@'] from rfl]
  simp [List.append_assoc]

lemma strStartsWith_header (R1 R2 : String) :
    strStartsWith ("@@ -" ++ R1 ++ " +" ++ R2 ++ " @@") "@@" = true := by
  rw [header_eq]
  rfl

lemma parseStep_header (done : List Hunk) (cur : Option Hunk)
    (s1 e1 s2 e2 : Nat) :
    parseStep (done, cur) ("@@ -" ++ formatRangeUnified s1 e1 ++ " +" ++
      formatRangeUnified s2 e2 ++ " @@") =
      (done ++ cur.toList, some ⟨parsedStart s1 e1, parsedStart s2 e2, []⟩) := by
  simp [parseStep, strStartsWith_header, parseHunkHeader_render]

lemma parseStep_none_skip (done : List Hunk) (l : String)
    (hl : strStartsWith l "@@" = false) :
    parseStep (done, none) l = (done, none) := by
  simp [parseStep, hl]

lemma strStartsWith_dashes (f : String) :
    strStartsWith ("--- " ++ f) "@@" = false := by
  rw [show ("--- " ++ f) = ⟨'-' :: '-' :: '-' :: ' ' :: f.data⟩ from
    strEq_of_data (by rw [String.data_append]; rfl)]
  rfl

lemma strStartsWith_pluses (f : String) :
    strStartsWith ("+++ " ++ f) "@@" = false := by
  rw [show ("+++ " ++ f) = ⟨'+' :: '+' :: '+' :: ' ' :: f.data⟩ from
    strEq_of_data (by rw [String.data_append]; rfl)]
  rfl

/-- Folding the parser over the split lines of a list of rendered opcodes
appends all their changes to the open hunk. -/
lemma fold_opcode_list (a b : List String)
    (ha : ∀ l ∈ a, GoodLine l) (hb : ∀ l ∈ b, GoodLine l) :
    ∀ (g : List Opcode) (done : List Hunk) (h : Hunk),
    ((g.map (fun c =>
        (((renderOpcode a b c).map pySplitlines).flatten))).flatten).foldl
      parseStep (done, some h) =
      (done, some { h with changes :=
        h.changes ++ (g.map (opChanges a b)).flatten }) := by
  intro g
  induction g with
  | nil =>
    intro done h
    simp only [List.map_nil, List.flatten_nil, List.foldl_nil,
      List.append_nil]
  | cons c g ih =>
    intro done h
    rw [List.map_cons, List.flatten_cons, List.foldl_append,
      fold_renderOpcode a b ha hb c done h, ih _ _, List.map_cons,
      List.flatten_cons]
    show (done, some (Hunk.mk h.old_start h.new_start
      ((h.changes ++ opChanges a b c) ++ (g.map (opChanges a b)).flatten))) =
      (done, some (Hunk.mk h.old_start h.new_start
      (h.changes ++ (opChanges a b c ++ (g.map (opChanges a b)).flatten))))
    rw [List.append_assoc]

/-- Folding the parser over the split lines of one rendered group closes
the open hunk and builds exactly `hunkOf` for the group. -/
lemma fold_renderGroup (a b : List String)
    (ha : ∀ l ∈ a, GoodLine l) (hb : ∀ l ∈ b, GoodLine l)
    (g : List Opcode) (done : List Hunk) (cur : Option Hunk) :
    (((renderGroup a b g).map pySplitlines).flatten).foldl parseStep
      (done, cur) = (done ++ cur.toList, some (hunkOf a b g)) := by
  simp only [renderGroup]
  rw [List.map_cons, List.flatten_cons]
  rw [show (" @@\n" : String) = " @@" ++ "\n" from rfl, ← strAppend_assoc]
  rw [pySplitlines_termfree_nl _ (termFree_append _ _
    (termFree_append _ _
      (termFree_append _ _
        (termFree_append _ _
          (by intro c hc; exact (by decide : ∀ x ∈ ("@@ -").data, isLineTerm x = false) c hc)
          (formatRangeUnified_termFree _ _))
        (by intro c hc; exact (by decide : ∀ x ∈ (" +").data, isLineTerm x = false) c hc))
      (formatRangeUnified_termFree _ _))
    (by intro c hc; exact (by decide : ∀ x ∈ (" @@").data, isLineTerm x = false) c hc))]
  rw [List.singleton_append, List.foldl_cons, parseStep_header]
  rw [flatten_map_flatten pySplitlines (g.map (renderOpcode a b)),
    List.map_map]
  rw [show (g.map ((fun X => (X.map pySplitlines).flatten) ∘ renderOpcode a b)) =
    (g.map (fun c => (((renderOpcode a b c).map pySplitlines).flatten))) from rfl]
  rw [fold_opcode_list a b ha hb g (done ++ cur.toList) _]
  show (done ++ cur.toList, some (Hunk.mk
      (parsedStart (g.headD ⟨"", 0, 0, 0, 0⟩).a1 (g.getLastD ⟨"", 0, 0, 0, 0⟩).a2)
      (parsedStart (g.headD ⟨"", 0, 0, 0, 0⟩).b1 (g.getLastD ⟨"", 0, 0, 0, 0⟩).b2)
      ([] ++ (g.map (opChanges a b)).flatten))) =
    (done ++ cur.toList, some (hunkOf a b g))
  rw [List.nil_append]
  rfl

/-- Folding the parser over the split lines of a list of rendered groups
collects exactly the `hunkOf` hunks, after the pending state. -/
lemma fold_groups (a b : List String)
    (ha : ∀ l ∈ a, GoodLine l) (hb : ∀ l ∈ b, GoodLine l) :
    ∀ (gs : List (List Opcode)) (done : List Hunk) (cur : Option Hunk),
    (((gs.map (fun g =>
        (((renderGroup a b g).map pySplitlines).flatten))).flatten).foldl
      parseStep (done, cur)).1 ++
    (((gs.map (fun g =>
        (((renderGroup a b g).map pySplitlines).flatten))).flatten).foldl
      parseStep (done, cur)).2.toList =
      done ++ cur.toList ++ gs.map (hunkOf a b) := by
  intro gs
  induction gs with
  | nil =>
    intro done cur
    simp
  | cons g gs ih =>
    intro done cur
    rw [List.map_cons, List.flatten_cons, List.foldl_append,
      fold_renderGroup a b ha hb g done cur, ih _ _, List.map_cons]
    simp [List.append_assoc]

/-- Every op line of a rendered opcode is an op string prefixed to a line
of `a` or `b`. -/
lemma renderOpcode_mem (a b : List String) (c : Opcode) (p : String)
    (hp : p ∈ renderOpcode a b c) :
    ∃ op l, (op = " " ∨ op = "-" ∨ op = "+") ∧ (l ∈ a ∨ l ∈ b) ∧
      p = op ++ l := by
  unfold renderOpcode at hp
  by_cases ht : c.tag = "equal"
  · rw [if_pos ht] at hp
    obtain ⟨l, hl, rfl⟩ := List.mem_map.1 hp
    exact ⟨" ", l, Or.inl rfl, Or.inl (sliceList_subset a _ _ l hl), rfl⟩
  · rw [if_neg ht] at hp
    rcases List.mem_append.1 hp with h1 | h2
    · by_cases hrd : c.tag = "replace" ∨ c.tag = "delete"
      · rw [if_pos hrd] at h1
        obtain ⟨l, hl, rfl⟩ := List.mem_map.1 h1
        exact ⟨"-", l, Or.inr (Or.inl rfl),
          Or.inl (sliceList_subset a _ _ l hl), rfl⟩
      · rw [if_neg hrd] at h1
        simp at h1
    · by_cases hri : c.tag = "replace" ∨ c.tag = "insert"
      · rw [if_pos hri] at h2
        obtain ⟨l, hl, rfl⟩ := List.mem_map.1 h2
        exact ⟨"+", l, Or.inr (Or.inr rfl),
          Or.inr (sliceList_subset b _ _ l hl), rfl⟩
      · rw [if_neg hri] at h2
        simp at h2

/-- The serialization round-trip: parsing the created unified diff
recovers exactly one hunk per emitted group. -/
theorem parse_create_unified (old new name : String)
    (hn : TermFreeStr name) :
    parse_hunks (create_unified_diff old new name) =
      (get_grouped_opcodes (forceTrailingNL (pySplitlinesKeep old))
        (forceTrailingNL (pySplitlinesKeep new))).map
        (hunkOf (forceTrailingNL (pySplitlinesKeep old))
          (forceTrailingNL (pySplitlinesKeep new))) := by
  have hga := forceTrailing_goodlines old
  have hgb := forceTrailing_goodlines new
  simp only [create_unified_diff, unified_diff]
  by_cases hemp : (get_grouped_opcodes (forceTrailingNL (pySplitlinesKeep old))
      (forceTrailingNL (pySplitlinesKeep new))).isEmpty
  · rw [if_pos hemp]
    have hgnil : get_grouped_opcodes (forceTrailingNL (pySplitlinesKeep old))
        (forceTrailingNL (pySplitlinesKeep new)) = [] := by
      cases h : get_grouped_opcodes (forceTrailingNL (pySplitlinesKeep old))
          (forceTrailingNL (pySplitlinesKeep new)) with
      | nil => rfl
      | cons x l => rw [h] at hemp; exact absurd hemp (by simp)
    rw [hgnil]
    rfl
  · rw [if_neg hemp]
    have hpieces : ∀ p ∈ (("--- " ++ ("a/" ++ name) ++ "\n") ::
        ("+++ " ++ ("b/" ++ name) ++ "\n") ::
        ((get_grouped_opcodes (forceTrailingNL (pySplitlinesKeep old))
          (forceTrailingNL (pySplitlinesKeep new))).map
          (renderGroup (forceTrailingNL (pySplitlinesKeep old))
            (forceTrailingNL (pySplitlinesKeep new)))).flatten),
        endsWithLineTerm p = true ∧ p.data.head? ≠ some '\n' := by
      intro p hp
      rcases List.mem_cons.1 hp with rfl | hp
      · refine ⟨endsWithLineTerm_append_nl _, ?_⟩
        rw [strHead_append _ "\n" (by
            rw [String.data_append]
            intro h
            exact absurd (List.append_eq_nil.1 h).1 (by decide)),
          strHead_append "--- " _ (by decide)]
        decide
      rcases List.mem_cons.1 hp with rfl | hp
      · refine ⟨endsWithLineTerm_append_nl _, ?_⟩
        rw [strHead_append _ "\n" (by
            rw [String.data_append]
            intro h
            exact absurd (List.append_eq_nil.1 h).1 (by decide)),
          strHead_append "+++ " _ (by decide)]
        decide
      obtain ⟨L, hL, hpL⟩ := List.mem_flatten.1 hp
      obtain ⟨g, hg, rfl⟩ := List.mem_map.1 hL
      rw [show renderGroup (forceTrailingNL (pySplitlinesKeep old))
          (forceTrailingNL (pySplitlinesKeep new)) g =
        ("@@ -" ++ formatRangeUnified (g.headD ⟨"", 0, 0, 0, 0⟩).a1
            (g.getLastD ⟨"", 0, 0, 0, 0⟩).a2 ++ " +" ++
          formatRangeUnified (g.headD ⟨"", 0, 0, 0, 0⟩).b1
            (g.getLastD ⟨"", 0, 0, 0, 0⟩).b2 ++ " @@\n") ::
        (g.map (renderOpcode (forceTrailingNL (pySplitlinesKeep old))
          (forceTrailingNL (pySplitlinesKeep new)))).flatten from rfl] at hpL
      rcases List.mem_cons.1 hpL with rfl | hpO
      · rw [show (" @@\n" : String) = " @@" ++ "\n" from rfl, ← strAppend_assoc]
        refine ⟨endsWithLineTerm_append_nl _, ?_⟩
        rw [strHead_append _ "\n" (by
            rw [header_eq]
            exact List.cons_ne_nil _ _),
          header_eq]
        simp
      obtain ⟨L2, hL2, hpL2⟩ := List.mem_flatten.1 hpO
      obtain ⟨c, hc, rfl⟩ := List.mem_map.1 hL2
      obtain ⟨op, l, hop, hmem, rfl⟩ := renderOpcode_mem _ _ c p hpL2
      have hgood : GoodLine l := by
        rcases hmem with h | h
        · exact hga l h
        · exact hgb l h
      constructor
      · rw [endsWithLineTerm_append_right op l (goodline_data_ne_nil l hgood)]
        exact goodline_ends l hgood
      · rw [strHead_append op l (by
          rcases hop with rfl | rfl | rfl <;> decide)]
        rcases hop with rfl | rfl | rfl <;> decide
    simp only [parse_hunks]
    rw [pySplitlines_joinAll _ (fun p hp => (hpieces p hp).1)
      (fun p hp => (hpieces p hp).2)]
    simp only [parse_hunks_lines]
    rw [List.map_cons, List.flatten_cons, List.map_cons, List.flatten_cons]
    rw [pySplitlines_termfree_nl ("--- " ++ ("a/" ++ name))
        (termFree_append _ _
          (by intro c hc; exact (by decide :
            ∀ x ∈ ("--- ").data, isLineTerm x = false) c hc)
          (termFree_append _ _
            (by intro c hc; exact (by decide :
              ∀ x ∈ ("a/").data, isLineTerm x = false) c hc) hn)),
      pySplitlines_termfree_nl ("+++ " ++ ("b/" ++ name))
        (termFree_append _ _
          (by intro c hc; exact (by decide :
            ∀ x ∈ ("+++ ").data, isLineTerm x = false) c hc)
          (termFree_append _ _
            (by intro c hc; exact (by decide :
              ∀ x ∈ ("b/").data, isLineTerm x = false) c hc) hn))]
    rw [List.singleton_append, List.foldl_cons,
      parseStep_none_skip [] _ (strStartsWith_dashes _),
      List.singleton_append, List.foldl_cons,
      parseStep_none_skip [] _ (strStartsWith_pluses _)]
    rw [flatten_map_flatten pySplitlines _, List.map_map]
    rw [show ((get_grouped_opcodes (forceTrailingNL (pySplitlinesKeep old))
        (forceTrailingNL (pySplitlinesKeep new))).map
        ((fun X => (X.map pySplitlines).flatten) ∘
          renderGroup (forceTrailingNL (pySplitlinesKeep old))
            (forceTrailingNL (pySplitlinesKeep new)))) =
      ((get_grouped_opcodes (forceTrailingNL (pySplitlinesKeep old))
        (forceTrailingNL (pySplitlinesKeep new))).map
        (fun g => (((renderGroup (forceTrailingNL (pySplitlinesKeep old))
          (forceTrailingNL (pySplitlinesKeep new)) g).map
            pySplitlines).flatten))) from rfl]
    rw [fold_groups _ _ hga hgb _ [] none]
    rfl

/-! ## Alternation: no two adjacent non-`equal` opcodes -/

/-- Adjacent opcodes never are both non-`equal`. -/
def Ropc (x y : Opcode) : Prop := x.tag = "equal" ∨ y.tag = "equal"

lemma opcodesGo_chain' : ∀ (blocks : List FlmBest) (i j : Nat),
    (∀ m ∈ blocks.dropLast, 1 ≤ m.size) →
    List.Chain' Ropc (opcodesGo i j blocks) := by
  intro blocks
  induction blocks with
  | nil => intro i j _; exact List.chain'_nil
  | cons blk rest ih =>
    intro i j hsz
    simp only [opcodesGo]
    generalize (if i < blk.i ∧ j < blk.j then "replace"
      else if i < blk.i then "delete"
      else if j < blk.j then "insert" else "") = tg
    have hT : (if tg ≠ "" then [(⟨tg, i, blk.i, j, blk.j⟩ : Opcode)] else []) = [] ∨
        (if tg ≠ "" then [(⟨tg, i, blk.i, j, blk.j⟩ : Opcode)] else []) =
          [⟨tg, i, blk.i, j, blk.j⟩] := by
      by_cases h : tg ≠ ""
      · right; rw [if_pos h]
      · left; rw [if_neg h]
    cases hre : rest with
    | nil =>
      subst hre
      have h0 : opcodesGo (blk.i + blk.size) (blk.j + blk.size) [] = [] := rfl
      rw [h0, List.append_nil]
      by_cases he : blk.size ≠ 0
      · rw [if_pos he]
        rcases hT with hT | hT <;> rw [hT]
        · rw [List.nil_append]
          exact List.chain'_singleton _
        · rw [List.singleton_append]
          exact List.chain'_cons.2 ⟨Or.inr rfl, List.chain'_singleton _⟩
      · rw [if_neg he]
        rcases hT with hT | hT <;> rw [hT]
        · exact List.chain'_nil
        · rw [List.singleton_append]
          exact List.chain'_singleton _
    | cons b2 rest2 =>
      have hsz1 : 1 ≤ blk.size := by
        apply hsz
        rw [hre]
        rw [show (blk :: b2 :: rest2).dropLast =
          blk :: (b2 :: rest2).dropLast from rfl]
        simp
      have hrec := ih (blk.i + blk.size) (blk.j + blk.size)
        (fun m hm => hsz m (by
          rw [hre]
          rw [show (blk :: b2 :: rest2).dropLast =
            blk :: (b2 :: rest2).dropLast from rfl]
          rw [hre] at hm
          simp [hm]))
      rw [← hre]
      rw [if_pos (by omega : blk.size ≠ 0)]
      have htail : List.Chain' Ropc
          ((⟨"equal", blk.i, blk.i + blk.size, blk.j, blk.j + blk.size⟩ : Opcode) ::
            opcodesGo (blk.i + blk.size) (blk.j + blk.size) rest) :=
        List.chain'_cons'.2 ⟨fun y _ => Or.inl rfl, hrec⟩
      rcases hT with hT | hT <;> rw [hT] <;>
        simp only [List.nil_append, List.cons_append, List.singleton_append,
          List.append_nil]
      · exact htail
      · exact List.chain'_cons'.2 ⟨fun y hy => by
          rw [List.head?_cons] at hy
          cases hy
          exact Or.inr rfl, htail⟩

/-- Adjacent opcodes of `get_opcodes` are never both non-`equal`. -/
lemma get_opcodes_chain2 (a b : List String) :
    List.Chain' Ropc (get_opcodes a b) := by
  unfold get_opcodes
  apply opcodesGo_chain'
  intro m hm
  exact (get_matching_blocks_post a b).1 m hm |>.1

lemma adjustHead_tags (l : List Opcode) :
    (adjustHead l).map Opcode.tag = l.map Opcode.tag := by
  cases l with
  | nil => rfl
  | cons c rest =>
    rw [adjustHead]
    by_cases h : c.tag = "equal"
    · rw [if_pos h]
      rfl
    · rw [if_neg h]

lemma adjustLast_tags : ∀ (l : List Opcode),
    (adjustLast l).map Opcode.tag = l.map Opcode.tag := by
  intro l
  induction l with
  | nil => rfl
  | cons c rest ih =>
    cases rest with
    | nil =>
      rw [adjustLast]
      by_cases h : c.tag = "equal"
      · rw [if_pos h]
        rfl
      · rw [if_neg h]
    | cons c2 rest2 =>
      rw [adjustLast, List.map_cons, List.map_cons, ih]
      exact fun h => List.noConfusion h

lemma chain'_of_tags (l l' : List Opcode)
    (h : l.map Opcode.tag = l'.map Opcode.tag)
    (hc : List.Chain' Ropc l) : List.Chain' Ropc l' := by
  have h1 : List.Chain' (fun s t : String => s = "equal" ∨ t = "equal")
      (l.map Opcode.tag) := (List.chain'_map Opcode.tag).2 hc
  rw [h] at h1
  exact (List.chain'_map Opcode.tag).1 h1

/-- Length is preserved by the context trims. -/
lemma adjustHead_length (l : List Opcode) :
    (adjustHead l).length = l.length := by
  have := adjustHead_tags l
  have h1 := congrArg List.length this
  simpa using h1

lemma adjustLast_length (l : List Opcode) :
    (adjustLast l).length = l.length := by
  have := adjustLast_tags l
  have h1 := congrArg List.length this
  simpa using h1

/-! ## Positions inside chains and groups -/

lemma Seg_le (a b : List String) :
    ∀ (g : List Opcode) (i j iE jE : Nat),
    Seg a b i j iE jE g → i ≤ iE ∧ j ≤ jE := by
  intro g
  induction g with
  | nil =>
    intro i j iE jE hseg
    obtain ⟨h1, h2⟩ := hseg
    omega
  | cons c rest ih =>
    intro i j iE jE hseg
    obtain ⟨h1, h2, hok, hrest⟩ := hseg
    have h3 := ih _ _ _ _ hrest
    have hc1 : c.a1 ≤ c.a2 := hok.1
    have hc2 : c.b1 ≤ c.b2 := hok.2.1
    omega

lemma Seg_mem_bounds (a b : List String) :
    ∀ (g : List Opcode) (i j iE jE : Nat),
    Seg a b i j iE jE g → ∀ c ∈ g,
    i ≤ c.a1 ∧ c.a2 ≤ iE ∧ j ≤ c.b1 ∧ c.b2 ≤ jE := by
  intro g
  induction g with
  | nil => intro i j iE jE _ c hc; simp at hc
  | cons x rest ih =>
    intro i j iE jE hseg c hc
    obtain ⟨h1, h2, hok, hrest⟩ := hseg
    have hle := Seg_le a b rest _ _ _ _ hrest
    rcases List.mem_cons.1 hc with rfl | hc2
    · have hc1 : c.a1 ≤ c.a2 := hok.1
      have hc2 : c.b1 ≤ c.b2 := hok.2.1
      omega
    · have := ih _ _ _ _ hrest c hc2
      have hc1 : x.a1 ≤ x.a2 := hok.1
      have hc2' : x.b1 ≤ x.b2 := hok.2.1
      omega

lemma groupsPart_mem_seg (a b : List String) :
    ∀ (gs : List (List Opcode)) (i j ci cj : Nat),
    GroupsPart a b i j gs ci cj → ∀ g ∈ gs,
    g ≠ [] ∧ Seg a b (gFirstA g) (gFirstB g) (gLastA g) (gLastB g) g := by
  intro gs
  induction gs with
  | nil => intro i j ci cj _ g hg; simp at hg
  | cons g0 rest ih =>
    intro i j ci cj hgp g hg
    obtain ⟨hne, _, _, _, _, hseg, hrest⟩ := hgp
    rcases List.mem_cons.1 hg with rfl | hg2
    · exact ⟨hne, hseg⟩
    · exact ih _ _ ci cj hrest g hg2

/-- The end of a group chain lies at or after its start. -/
lemma groupsPart_end_ge (a b : List String) :
    ∀ (gs : List (List Opcode)) (i j ci cj : Nat),
    GroupsPart a b i j gs ci cj → i ≤ ci ∧ j ≤ cj := by
  intro gs
  induction gs with
  | nil =>
    intro i j ci cj hgp
    obtain ⟨h1, h2⟩ := hgp
    omega
  | cons g0 rest ih =>
    intro i j ci cj hgp
    obtain ⟨hne, hle1, hle2, hal, hreg, hseg, hrest⟩ := hgp
    have h1 := Seg_le a b g0 _ _ _ _ hseg
    have h2 := ih _ _ ci cj hrest
    omega

/-- Bounds of every group inside a chain: start after `i`, end before
`ci`, with both sides aligned within the chain. -/
lemma groupsPart_mem_bounds (a b : List String) :
    ∀ (gs : List (List Opcode)) (i j ci cj : Nat),
    GroupsPart a b i j gs ci cj → ∀ g ∈ gs,
    i ≤ gFirstA g ∧ gLastA g ≤ ci ∧ j ≤ gFirstB g ∧ gLastB g ≤ cj := by
  intro gs
  induction gs with
  | nil => intro i j ci cj _ g hg; simp at hg
  | cons g0 rest ih =>
    intro i j ci cj hgp g hg
    obtain ⟨hne, hle1, hle2, hal, hreg, hseg, hrest⟩ := hgp
    have hsegle := Seg_le a b g0 _ _ _ _ hseg
    have hrestle := groupsPart_end_ge a b rest _ _ ci cj hrest
    rcases List.mem_cons.1 hg with rfl | hg2
    · exact ⟨hle1, hrestle.1, hle2, hrestle.2⟩
    · have := ih _ _ ci cj hrest g hg2
      omega

/-- Peeling the last group of a chain. -/
lemma groupsPart_snoc (a b : List String) :
    ∀ (gs : List (List Opcode)) (g : List Opcode) (i j ci cj : Nat),
    GroupsPart a b i j (gs ++ [g]) ci cj →
    ∃ X Y, GroupsPart a b i j gs X Y ∧
      X ≤ gFirstA g ∧ Y ≤ gFirstB g ∧
      gFirstA g - X = gFirstB g - Y ∧
      EqRegion a b X Y (gFirstA g - X) ∧
      g ≠ [] ∧ Seg a b (gFirstA g) (gFirstB g) (gLastA g) (gLastB g) g ∧
      gLastA g = ci ∧ gLastB g = cj := by
  intro gs
  induction gs with
  | nil =>
    intro g i j ci cj hgp
    obtain ⟨hne, hle1, hle2, hal, hreg, hseg, hend1, hend2⟩ := hgp
    exact ⟨i, j, ⟨rfl, rfl⟩, hle1, hle2, hal, hreg, hne, hseg, hend1, hend2⟩
  | cons g0 rest ih =>
    intro g i j ci cj hgp
    obtain ⟨hne0, hp1, hp2, hal0, hreg0, hseg0, hrest⟩ := hgp
    obtain ⟨X, Y, hgp', h1, h2, h3, h4, h5, h6, h7, h8⟩ :=
      ih g _ _ ci cj hrest
    exact ⟨X, Y, ⟨hne0, hp1, hp2, hal0, hreg0, hseg0, hgp'⟩,
      h1, h2, h3, h4, h5, h6, h7, h8⟩

/-- Through the grouping fold: every closed group contains a non-`insert`
opcode; a pending group without one is a lone insert that is the whole
input so far. -/
lemma fold_gpos :
    ∀ (codes done : List Opcode) (gs : List (List Opcode)) (g : List Opcode),
    List.Chain' Ropc codes →
    ((∀ gr ∈ gs, ∃ c ∈ gr, c.tag ≠ "insert") ∧
      ((g = [] ∧ gs = [] ∧ done = []) ∨ (∃ c ∈ g, c.tag ≠ "insert") ∨
        (gs = [] ∧ ∃ c, g = [c] ∧ c.tag = "insert" ∧ done = [c] ∧
          (∀ d, codes.head? = some d → d.tag = "equal")))) →
    ((∀ gr ∈ (codes.foldl groupStep (gs, g)).1, ∃ c ∈ gr, c.tag ≠ "insert") ∧
      ((codes.foldl groupStep (gs, g)).2 = [] ∨
        (∃ c ∈ (codes.foldl groupStep (gs, g)).2, c.tag ≠ "insert") ∨
        ((codes.foldl groupStep (gs, g)).1 = [] ∧
          ∃ c, (codes.foldl groupStep (gs, g)).2 = [c] ∧ c.tag = "insert" ∧
            done ++ codes = [c]))) := by
  intro codes
  induction codes with
  | nil =>
    intro done gs g _ hinv
    obtain ⟨hgs, hg⟩ := hinv
    refine ⟨hgs, ?_⟩
    rcases hg with ⟨h1, h2, h3⟩ | h | ⟨h1, c, h2, h3, h4, _⟩
    · exact Or.inl h1
    · exact Or.inr (Or.inl h)
    · exact Or.inr (Or.inr ⟨h1, c, h2, h3,
        by rw [List.append_nil]; exact h4⟩)
  | cons d rest ih =>
    intro done gs g hch hinv
    obtain ⟨hgs, hg⟩ := hinv
    rw [List.foldl_cons]
    have hch' : List.Chain' Ropc rest := hch.tail
    by_cases hsp : d.tag = "equal" ∧ 6 < d.a2 - d.a1
    · have hstep : groupStep (gs, g) d =
          (gs ++ [g ++ [{ d with a2 := min d.a2 (d.a1 + 3), b2 := min d.b2 (d.b1 + 3) }]],
           [{ d with a1 := max d.a1 (d.a2 - 3), b1 := max d.b1 (d.b2 - 3) }]) := by
        simp only [groupStep]
        rw [if_pos hsp]
      rw [hstep]
      have hL : ({ d with a2 := min d.a2 (d.a1 + 3), b2 := min d.b2 (d.b1 + 3) } : Opcode).tag ≠ "insert" := by
        show ¬(d.tag = "insert")
        rw [hsp.1]
        decide
      have hR : ({ d with a1 := max d.a1 (d.a2 - 3), b1 := max d.b1 (d.b2 - 3) } : Opcode).tag ≠ "insert" := by
        show ¬(d.tag = "insert")
        rw [hsp.1]
        decide
      have hinv' : (∀ gr ∈ gs ++ [g ++ [{ d with a2 := min d.a2 (d.a1 + 3), b2 := min d.b2 (d.b1 + 3) }]],
          ∃ c ∈ gr, c.tag ≠ "insert") ∧
          (([{ d with a1 := max d.a1 (d.a2 - 3), b1 := max d.b1 (d.b2 - 3) }] : List Opcode) = [] ∧
            gs ++ [g ++ [{ d with a2 := min d.a2 (d.a1 + 3), b2 := min d.b2 (d.b1 + 3) }]] = [] ∧
            done ++ [d] = [] ∨
          (∃ c ∈ ([{ d with a1 := max d.a1 (d.a2 - 3), b1 := max d.b1 (d.b2 - 3) }] : List Opcode),
            c.tag ≠ "insert") ∨
          (gs ++ [g ++ [{ d with a2 := min d.a2 (d.a1 + 3), b2 := min d.b2 (d.b1 + 3) }]] = [] ∧
            ∃ c, ([{ d with a1 := max d.a1 (d.a2 - 3), b1 := max d.b1 (d.b2 - 3) }] : List Opcode) = [c] ∧
              c.tag = "insert" ∧ done ++ [d] = [c] ∧
              (∀ e, rest.head? = some e → e.tag = "equal"))) := by
        constructor
        · intro gr hgr
          rcases List.mem_append.1 hgr with h | h
          · exact hgs gr h
          · simp at h
            subst h
            exact ⟨_, by simp, hL⟩
        · exact Or.inr (Or.inl ⟨_, by simp, hR⟩)
      have hres := ih (done ++ [d]) _ _ hch' hinv'
      rw [List.append_assoc] at hres
      exact hres
    · have hstep : groupStep (gs, g) d = (gs, g ++ [d]) := by
        simp only [groupStep]
        rw [if_neg hsp]
      rw [hstep]
      have hpend : (g ++ [d] = [] ∧ gs = [] ∧ done ++ [d] = []) ∨
          (∃ c ∈ g ++ [d], c.tag ≠ "insert") ∨
          (gs = [] ∧ ∃ c, g ++ [d] = [c] ∧ c.tag = "insert" ∧
            done ++ [d] = [c] ∧
            (∀ e, rest.head? = some e → e.tag = "equal")) := by
        rcases hg with ⟨h1, h2, h3⟩ | ⟨c, hc, hct⟩ | ⟨h1, c, h2, h3, h4, h5⟩
        · subst h1 h2 h3
          by_cases hd : d.tag = "insert"
          · refine Or.inr (Or.inr ⟨rfl, d, by simp, hd, by simp, ?_⟩)
            intro e he
            have hrel := (List.chain'_cons'.1 hch).1 e he
            rcases hrel with h | h
            · rw [hd] at h
              exact absurd h (by decide)
            · exact h
          · exact Or.inr (Or.inl ⟨d, by simp, hd⟩)
        · exact Or.inr (Or.inl ⟨c, List.mem_append.2 (Or.inl hc), hct⟩)
        · have hd : d.tag = "equal" := h5 d rfl
          refine Or.inr (Or.inl ⟨d, by simp, ?_⟩)
          rw [hd]
          decide
      have hres := ih (done ++ [d]) gs (g ++ [d]) hch' ⟨hgs, hpend⟩
      rw [List.append_assoc] at hres
      exact hres

/-- On a nonempty old side, every emitted group contains a non-`insert`
opcode. -/
lemma grouped_nonins (a b : List String) (hla : 0 < a.length) :
    ∀ g ∈ get_grouped_opcodes a b, ∃ c ∈ g, c.tag ≠ "insert" := by
  intro g hg
  by_cases hemp : (get_opcodes a b).isEmpty
  · have hnil : get_opcodes a b = [] := by
      cases h : get_opcodes a b with
      | nil => rfl
      | cons x l => rw [h] at hemp; exact absurd hemp (by simp)
    have hchain := get_opcodes_chain a b
    rw [hnil] at hchain
    obtain ⟨h1, _⟩ := hchain
    omega
  · have hch2 : List.Chain' Ropc (adjustLast (adjustHead (get_opcodes a b))) :=
      chain'_of_tags _ _
        (by rw [adjustLast_tags, adjustHead_tags]) (get_opcodes_chain2 a b)
    have hfold := fold_gpos (adjustLast (adjustHead (get_opcodes a b))) [] [] []
      hch2 ⟨by simp, Or.inl ⟨rfl, rfl, rfl⟩⟩
    rw [List.nil_append] at hfold
    simp only [get_grouped_opcodes] at hg
    rw [if_neg hemp] at hg
    have hsingle : ∀ c : Opcode,
        adjustLast (adjustHead (get_opcodes a b)) = [c] →
        c.tag = "insert" → False := by
      intro c hcodes2 hct
      have hlen : (get_opcodes a b).length = 1 := by
        have h1 := adjustLast_length (adjustHead (get_opcodes a b))
        have h2 := adjustHead_length (get_opcodes a b)
        rw [hcodes2] at h1
        simp at h1
        omega
      obtain ⟨c0, l0, hcons⟩ := List.exists_cons_of_ne_nil
        (show get_opcodes a b ≠ [] by
          intro h
          apply hemp
          rw [h]
          rfl)
      have hl0 : l0 = [] := by
        rw [hcons] at hlen
        simp at hlen
        exact hlen
      subst hl0
      have htags : (adjustLast (adjustHead (get_opcodes a b))).map Opcode.tag =
          (get_opcodes a b).map Opcode.tag := by
        rw [adjustLast_tags, adjustHead_tags]
      rw [hcodes2, hcons] at htags
      simp at htags
      have hchain := get_opcodes_chain a b
      rw [hcons] at hchain
      obtain ⟨ha1, hb1, hok, hend1, hend2⟩ := hchain
      have hins := hok.2.2.2.2.2.2.2.1 (by rw [← htags]; exact hct)
      omega
    rcases hF2 : (List.foldl groupStep ([], [])
        (adjustLast (adjustHead (get_opcodes a b)))).2 with _ | ⟨c, l⟩
    · have hg' : g ∈ (List.foldl groupStep ([], [])
          (adjustLast (adjustHead (get_opcodes a b)))).1 := by
        rw [hF2] at hg
        exact hg
      exact hfold.1 g hg'
    · cases l with
      | nil =>
        rw [hF2] at hg
        have hg' : g ∈ (if c.tag = "equal" then
            (List.foldl groupStep ([], [])
              (adjustLast (adjustHead (get_opcodes a b)))).1
          else (List.foldl groupStep ([], [])
              (adjustLast (adjustHead (get_opcodes a b)))).1 ++ [[c]]) := hg
        by_cases hct : c.tag = "equal"
        · rw [if_pos hct] at hg'
          exact hfold.1 g hg'
        · rw [if_neg hct] at hg'
          rcases List.mem_append.1 hg' with h | h
          · exact hfold.1 g h
          · simp at h
            subst h
            rcases hfold.2 with h2 | h2 | h2
            · rw [hF2] at h2
              exact absurd h2 (by simp)
            · obtain ⟨c', hc', hct'⟩ := h2
              rw [hF2] at hc'
              simp at hc'
              exact ⟨c, by simp, hc' ▸ hct'⟩
            · obtain ⟨hF1, c', hc', hct', hcodes⟩ := h2
              rw [hF2] at hc'
              simp at hc'
              exact absurd hcodes (fun h => hsingle c' h hct')
      | cons c2 l2 =>
        rw [hF2] at hg
        have hg' : g ∈ (List.foldl groupStep ([], [])
            (adjustLast (adjustHead (get_opcodes a b)))).1 ++ [c :: c2 :: l2] := hg
        rcases List.mem_append.1 hg' with h | h
        · exact hfold.1 g h
        · simp at h
          subst h
          rcases hfold.2 with h2 | h2 | h2
          · rw [hF2] at h2
            exact absurd h2 (by simp)
          · obtain ⟨c', hc', hct'⟩ := h2
            rw [hF2] at hc'
            exact ⟨c', hc', hct'⟩
          · obtain ⟨hF1, c', hc', hct', hcodes⟩ := h2
            rw [hF2] at hc'
            simp at hc'

/-! ## The stripped keepends lines are the plain split -/

lemma takeWhile_append_nl {p : Char → Bool} (hnl : p '\n' = false) :
    ∀ (l : List Char), (l ++ ['\n']).takeWhile p = l.takeWhile p := by
  intro l
  induction l with
  | nil =>
    rw [List.nil_append, List.takeWhile_cons, hnl]
    rfl
  | cons c cs ih =>
    rw [List.cons_append, List.takeWhile_cons, List.takeWhile_cons]
    cases h : p c <;> simp [h, ih]

lemma stripTerm_append_nl (x : String) :
    stripTerm (x ++ "\n") = stripTerm x := by
  unfold stripTerm
  apply congrArg String.mk
  rw [show (x ++ "\n").data = x.data ++ ['\n'] from by rw [String.data_append]]
  exact takeWhile_append_nl (by decide) x.data

lemma pyLinesGo_units : ∀ (acc cs : List Char),
    ∀ p ∈ pyLinesGo acc cs, p.2 = [] ∨
      (∃ t, p.2 = [t] ∧ isLineTerm t = true) ∨ p.2 = ['\r', '\n'] := by
  intro acc cs
  induction acc, cs using pyLinesGo.induct with
  | case1 acc hempty =>
    intro p hp
    rw [pyLinesGo_nil, if_pos hempty] at hp
    simp at hp
  | case2 acc hempty =>
    intro p hp
    rw [pyLinesGo_nil, if_neg hempty] at hp
    simp at hp
    subst hp
    exact Or.inl rfl
  | case3 acc c hterm d rest2 hcd ih =>
    intro p hp
    obtain ⟨rfl, rfl⟩ := hcd
    rw [pyLinesGo_cons_crlf] at hp
    rcases List.mem_cons.1 hp with rfl | hp2
    · exact Or.inr (Or.inr rfl)
    · exact ih p hp2
  | case4 acc c hterm d rest2 hcd ih =>
    intro p hp
    rw [pyLinesGo_cons_term acc c (d :: rest2) hterm (by simpa using hcd)] at hp
    rcases List.mem_cons.1 hp with rfl | hp2
    · exact Or.inr (Or.inl ⟨c, rfl, hterm⟩)
    · exact ih p hp2
  | case5 acc c hterm ih =>
    intro p hp
    rw [pyLinesGo_cons_term acc c [] hterm (by simp)] at hp
    rcases List.mem_cons.1 hp with rfl | hp2
    · exact Or.inr (Or.inl ⟨c, rfl, hterm⟩)
    · exact ih p hp2
  | case6 acc c rest hterm ih =>
    intro p hp
    rw [pyLinesGo_cons_nonterm acc c rest (by simpa using hterm)] at hp
    exact ih p hp

lemma strip_pair (c1 u : List Char) (h1 : ∀ c ∈ c1, isLineTerm c = false)
    (hu : u = [] ∨ (∃ t, u = [t] ∧ isLineTerm t = true) ∨ u = ['\r', '\n']) :
    (c1 ++ u).takeWhile (fun c => !(isLineTerm c)) = c1 := by
  rcases hu with rfl | ⟨t, rfl, ht⟩ | rfl
  · rw [List.append_nil]
    have := (@takeWhile_dropWhile_all (fun c => !(isLineTerm c)) c1 []
      (fun c hc => by simp [h1 c hc]) (by intro c hc; simp at hc)).1
    rwa [List.append_nil] at this
  · exact (takeWhile_dropWhile_all c1 [t] (fun c hc => by rw [h1 c hc]; rfl)
      (by intro c hc; simp at hc; subst hc; rw [ht]; rfl)).1
  · exact (takeWhile_dropWhile_all c1 ['\r', '\n']
      (fun c hc => by rw [h1 c hc]; rfl)
      (by intro c hc; simp at hc; subst hc; rfl)).1

lemma map_strip_keep (s : String) :
    (pySplitlinesKeep s).map stripTerm = pySplitlines s := by
  unfold pySplitlinesKeep pySplitlines
  rw [List.map_map]
  apply List.map_congr_left
  intro p hp
  show stripTerm ⟨p.1 ++ p.2⟩ = ⟨p.1⟩
  unfold stripTerm
  exact congrArg String.mk (strip_pair p.1 p.2
    (fun c hc => pyLinesGo_termFree [] s.data (by simp) p hp c hc)
    (pyLinesGo_units [] s.data p hp))

lemma forceTrailingNL_some (M : List String) (l : String)
    (hM : M.getLast? = some l) :
    forceTrailingNL M = if l.data.getLast? = some '\n' then M
      else M.dropLast ++ [l ++ "\n"] := by
  rw [forceTrailingNL_eq, hM]

lemma map_strip_forceTrailing (M : List String) :
    (forceTrailingNL M).map stripTerm = M.map stripTerm := by
  cases hM : M.getLast? with
  | none =>
    rw [forceTrailingNL_eq, hM]
  | some l =>
    rw [forceTrailingNL_some M l hM]
    by_cases h : l.data.getLast? = some '\n'
    · rw [if_pos h]
    · rw [if_neg h, List.map_append]
      have hne : M ≠ [] := by
        intro h0
        rw [h0] at hM
        simp at hM
      have hgl : M.getLast hne = l := by
        have h2 := List.getLast?_eq_getLast M hne
        rw [hM] at h2
        exact (Option.some.inj h2).symm
      conv_rhs => rw [← List.dropLast_append_getLast hne]
      rw [List.map_append, hgl, List.map_singleton, List.map_singleton,
        stripTerm_append_nl]

lemma map_strip_force (s : String) :
    (forceTrailingNL (pySplitlinesKeep s)).map stripTerm = pySplitlines s := by
  rw [map_strip_forceTrailing, map_strip_keep]

lemma force_length (s : String) :
    (forceTrailingNL (pySplitlinesKeep s)).length = (pySplitlines s).length := by
  have := congrArg List.length (map_strip_force s)
  simpa using this

/-! ## Evaluating the recovered hunks -/

lemma sliceList_length {α : Type} (l : List α) (i j : Nat) :
    (sliceList l i j).length = min (j - i) (l.length - i) := by
  unfold sliceList
  rw [List.length_take, List.length_drop]

lemma sliceList_concat {α : Type} (l : List α) (i j k : Nat)
    (h1 : i ≤ j) (h2 : j ≤ k) :
    sliceList l i j ++ sliceList l j k = sliceList l i k := by
  unfold sliceList
  rw [show l.drop j = (l.drop i).drop (j - i) from by
      rw [List.drop_drop]
      congr 1
      omega]
  rw [← List.take_add]
  congr 1
  omega

lemma sliceList_map {α β : Type} (f : α → β) (l : List α) (i j : Nat) :
    (sliceList l i j).map f = sliceList (l.map f) i j := by
  unfold sliceList
  rw [List.map_take, List.map_drop]

lemma sliceList_getElem {α : Type} (l : List α) (i j k : Nat)
    (h : k < (sliceList l i j).length) (h2 : i + k < l.length) :
    (sliceList l i j)[k] = l[i + k] := by
  unfold sliceList at h ⊢
  rw [List.getElem_take, List.getElem_drop]

lemma slice_eq_of_run (A B : List String) (i j n : Nat)
    (hrun : ∀ t, t < n → A.getD (i + t) "" = B.getD (j + t) "")
    (hA : i + n ≤ A.length) (hB : j + n ≤ B.length) :
    sliceList A i (i + n) = sliceList B j (j + n) := by
  apply List.ext_getElem
  · rw [sliceList_length, sliceList_length]
    omega
  · intro k h1 h2
    have hb1 : i + k < A.length := by
      rw [sliceList_length] at h1
      omega
    have hb2 : j + k < B.length := by
      rw [sliceList_length] at h2
      omega
    rw [sliceList_getElem A i (i + n) k h1 hb1,
      sliceList_getElem B j (j + n) k h2 hb2]
    have := hrun k (by
      rw [sliceList_length] at h1
      omega)
    rwa [List.getD_eq_getElem A "" hb1, List.getD_eq_getElem B "" hb2] at this

lemma filterMap_flatten {α β : Type} (f : α → Option β) :
    ∀ (L : List (List α)),
    L.flatten.filterMap f = (L.map (List.filterMap f)).flatten := by
  intro L
  induction L with
  | nil => rfl
  | cons X L ih =>
    rw [List.flatten_cons, List.filterMap_append, ih, List.map_cons,
      List.flatten_cons]

lemma filter_flatten {α : Type} (p : α → Bool) :
    ∀ (L : List (List α)),
    L.flatten.filter p = (L.map (List.filter p)).flatten := by
  intro L
  induction L with
  | nil => rfl
  | cons X L ih =>
    rw [List.flatten_cons, List.filter_append, ih, List.map_cons,
      List.flatten_cons]

/-- The kept replacement lines of one opcode's changes are the stripped
`b`-slice of the opcode. -/
lemma opChanges_newlines (A B : List String) (c : Opcode)
    (hok : CodeOK A B c) :
    (opChanges A B c).filterMap (fun pr =>
      if hunkChangeOp pr false = ' ' ∨ hunkChangeOp pr false = '+' then
        some pr.2 else none) =
    (sliceList B c.b1 c.b2).map stripTerm := by
  obtain ⟨hc1, hc2, hc3, hc4, heq, hrep, hdel, hins, htags⟩ := hok
  unfold opChanges
  by_cases ht : c.tag = "equal"
  · rw [if_pos ht]
    obtain ⟨hlen, hpos, hrun⟩ := heq ht
    rw [List.filterMap_map]
    have hall : (sliceList A c.a1 c.a2).map
        ((fun pr => if hunkChangeOp pr false = ' ' ∨
            hunkChangeOp pr false = '+' then some pr.2 else none) ∘
          (fun l => (' ', stripTerm l))) =
        (sliceList A c.a1 c.a2).map (fun l => some (stripTerm l)) := rfl
    rw [show List.filterMap ((fun pr => if hunkChangeOp pr false = ' ' ∨
        hunkChangeOp pr false = '+' then some pr.2 else none) ∘
          (fun l => (' ', stripTerm l)))
        (sliceList A c.a1 c.a2) =
      List.filterMap (some ∘ stripTerm)
        (sliceList A c.a1 c.a2) from rfl]
    rw [List.filterMap_eq_map]
    have hA2 : sliceList A c.a1 c.a2 = sliceList B c.b1 c.b2 := by
      rw [show c.a2 = c.a1 + (c.a2 - c.a1) from by omega,
        show c.b2 = c.b1 + (c.a2 - c.a1) from by omega]
      exact slice_eq_of_run A B c.a1 c.b1 (c.a2 - c.a1) hrun
        (by omega) (by omega)
    rw [hA2]
  · rw [if_neg ht, List.filterMap_append]
    have hminus : ∀ (ls : List String),
        (ls.map (fun l => ('-', stripTerm l))).filterMap (fun pr =>
          if hunkChangeOp pr false = ' ' ∨ hunkChangeOp pr false = '+' then
            some pr.2 else none) = [] := by
      intro ls
      rw [List.filterMap_map]
      exact List.filterMap_eq_nil.2 (fun x _ => rfl)
    have hplus : (((sliceList B c.b1 c.b2).map
        (fun l => ('+', stripTerm l))).filterMap (fun pr =>
          if hunkChangeOp pr false = ' ' ∨ hunkChangeOp pr false = '+' then
            some pr.2 else none)) =
        (sliceList B c.b1 c.b2).map stripTerm := by
      rw [List.filterMap_map]
      rw [show List.filterMap ((fun pr =>
          if hunkChangeOp pr false = ' ' ∨ hunkChangeOp pr false = '+' then
            some pr.2 else none) ∘ (fun l => ('+', stripTerm l)))
          (sliceList B c.b1 c.b2) =
        List.filterMap (some ∘ stripTerm)
          (sliceList B c.b1 c.b2) from rfl]
      rw [List.filterMap_eq_map]
    by_cases hri : c.tag = "replace" ∨ c.tag = "insert"
    · rw [if_pos hri, hplus]
      by_cases hrd : c.tag = "replace" ∨ c.tag = "delete"
      · rw [if_pos hrd, hminus, List.nil_append]
      · rw [if_neg hrd]
        rfl
    · have hd : c.tag = "delete" := by
        rcases htags with h | h | h | h
        · exact absurd h ht
        · exact absurd (Or.inl h) hri
        · exact h
        · exact absurd (Or.inr h) hri
      rw [if_neg hri, if_pos (Or.inr hd), hminus]
      have hbb : c.b1 = c.b2 := (hdel hd).2
      rw [show sliceList B c.b1 c.b2 = [] from by
        unfold sliceList
        rw [show c.b2 - c.b1 = 0 from by omega]
        rfl]
      rfl

/-- The replaced-line count of one opcode's changes is its `a`-span. -/
lemma opChanges_oldcount (A B : List String) (c : Opcode)
    (hok : CodeOK A B c) :
    ((opChanges A B c).filter (fun pr =>
      decide ((if false then pr.1 = '+' else pr.1 = '-') ∨ pr.1 = ' '))).length =
    c.a2 - c.a1 := by
  obtain ⟨hc1, hc2, hc3, hc4, heq, hrep, hdel, hins, htags⟩ := hok
  have hlenA : (sliceList A c.a1 c.a2).length = c.a2 - c.a1 := by
    rw [sliceList_length]
    omega
  unfold opChanges
  by_cases ht : c.tag = "equal"
  · rw [if_pos ht]
    obtain ⟨hlen, hpos, hrun⟩ := heq ht
    have hfs : List.filter ((fun pr =>
        decide ((if false = true then pr.1 = '+' else pr.1 = '-') ∨
          pr.1 = ' ')) ∘ fun l => (' ', stripTerm l))
        (sliceList A c.a1 c.a2) = sliceList A c.a1 c.a2 :=
      List.filter_eq_self.2 (fun x _ => rfl)
    rw [List.filter_map, hfs, List.length_map, hlenA]
  · rw [if_neg ht, List.filter_append, List.length_append]
    have hplus0 : (((sliceList B c.b1 c.b2).map
        (fun l => ('+', stripTerm l))).filter (fun pr =>
          decide ((if false then pr.1 = '+' else pr.1 = '-') ∨
            pr.1 = ' '))).length = 0 := by
      rw [List.filter_map]
      rw [show List.filter ((fun pr =>
          decide ((if false then pr.1 = '+' else pr.1 = '-') ∨ pr.1 = ' ')) ∘
            (fun l => ('+', stripTerm l))) (sliceList B c.b1 c.b2) =
        List.filter (fun _ => false) (sliceList B c.b1 c.b2) from rfl]
      simp
    have hminusAll : (((sliceList A c.a1 c.a2).map
        (fun l => ('-', stripTerm l))).filter (fun pr =>
          decide ((if false then pr.1 = '+' else pr.1 = '-') ∨
            pr.1 = ' '))).length = c.a2 - c.a1 := by
      have hfs : List.filter ((fun pr =>
          decide ((if false = true then pr.1 = '+' else pr.1 = '-') ∨
            pr.1 = ' ')) ∘ fun l => ('-', stripTerm l))
          (sliceList A c.a1 c.a2) = sliceList A c.a1 c.a2 :=
        List.filter_eq_self.2 (fun x _ => rfl)
      rw [List.filter_map, hfs, List.length_map, hlenA]
    by_cases hrd : c.tag = "replace" ∨ c.tag = "delete"
    · rw [if_pos hrd, hminusAll]
      by_cases hri : c.tag = "replace" ∨ c.tag = "insert"
      · rw [if_pos hri, hplus0]
        omega
      · rw [if_neg hri]
        rfl
    · have hi : c.tag = "insert" := by
        rcases htags with h | h | h | h
        · exact absurd h ht
        · exact absurd (Or.inl h) hrd
        · exact absurd (Or.inr h) hrd
        · exact h
      rw [if_neg hrd, if_pos (Or.inr hi), hplus0]
      have : c.a1 = c.a2 := (hins hi).1
      simp
      omega

/-- Over a valid opcode chain, the kept replacement lines are exactly the
stripped `b`-side of the chain's span. -/
lemma seg_newlines (A B : List String) :
    ∀ (g : List Opcode) (i j iE jE : Nat), Seg A B i j iE jE g →
    ((g.map (opChanges A B)).flatten).filterMap (fun pr =>
      if hunkChangeOp pr false = ' ' ∨ hunkChangeOp pr false = '+' then
        some pr.2 else none) =
    (sliceList B j jE).map stripTerm := by
  intro g
  induction g with
  | nil =>
    intro i j iE jE hseg
    obtain ⟨h1, h2⟩ := hseg
    subst h2
    rw [show sliceList B j j = [] from by
      unfold sliceList
      rw [Nat.sub_self]
      rfl]
    rfl
  | cons c rest ih =>
    intro i j iE jE hseg
    obtain ⟨h1, h2, hok, hrest⟩ := hseg
    rw [List.map_cons, List.flatten_cons, List.filterMap_append,
      opChanges_newlines A B c hok, ih _ _ _ _ hrest]
    rw [← List.map_append, sliceList_concat B c.b1 c.b2 jE hok.2.1
      (Seg_le A B rest _ _ _ _ hrest).2]
    rw [h2]

/-- Over a valid opcode chain, the replaced-line count is the chain's
`a`-span. -/
lemma seg_oldcount (A B : List String) :
    ∀ (g : List Opcode) (i j iE jE : Nat), Seg A B i j iE jE g →
    (((g.map (opChanges A B)).flatten).filter (fun pr =>
      decide ((if false then pr.1 = '+' else pr.1 = '-') ∨
        pr.1 = ' '))).length = iE - i := by
  intro g
  induction g with
  | nil =>
    intro i j iE jE hseg
    obtain ⟨h1, h2⟩ := hseg
    subst h1
    simp
  | cons c rest ih =>
    intro i j iE jE hseg
    obtain ⟨h1, h2, hok, hrest⟩ := hseg
    rw [List.map_cons, List.flatten_cons, List.filter_append,
      List.length_append, opChanges_oldcount A B c hok, ih _ _ _ _ hrest]
    have h3 := Seg_le A B rest _ _ _ _ hrest
    have hc1 : c.a1 ≤ c.a2 := hok.1
    omega

lemma hunkOf_newlines (A B : List String) (g : List Opcode)
    (hseg : Seg A B (gFirstA g) (gFirstB g) (gLastA g) (gLastB g) g) :
    hunkNewLines (hunkOf A B g) false =
      (sliceList B (gFirstB g) (gLastB g)).map stripTerm := by
  unfold hunkNewLines hunkOf
  exact seg_newlines A B g _ _ _ _ hseg

lemma hunkOf_oldcount (A B : List String) (g : List Opcode)
    (hseg : Seg A B (gFirstA g) (gFirstB g) (gLastA g) (gLastB g) g) :
    hunkOldCount (hunkOf A B g) false = gLastA g - gFirstA g := by
  unfold hunkOldCount hunkOf
  exact seg_oldcount A B g _ _ _ _ hseg

lemma pyIdx_ofNat (L n : Nat) (h : n ≤ L) : pyIdx L (n : Int) = n := by
  unfold pyIdx
  rw [if_neg (by omega)]
  simp
  omega

/-- Applying the hunk of a positive-span group replaces exactly its
`a`-range by the stripped `b`-range. -/
lemma applyHunk_group (A B : List String) (L : List String) (g : List Opcode)
    (hseg : Seg A B (gFirstA g) (gFirstB g) (gLastA g) (gLastB g) g)
    (hpos : gFirstA g < gLastA g) (hub : gLastA g ≤ L.length) :
    applyHunk L (hunkOf A B g) false =
      L.take (gFirstA g) ++
        (sliceList B (gFirstB g) (gLastB g)).map stripTerm ++
        L.drop (gLastA g) := by
  unfold applyHunk
  rw [hunkOf_newlines A B g hseg, hunkOf_oldcount A B g hseg]
  have hstart : hunkStart (hunkOf A B g) false = (gFirstA g : Int) := by
    unfold hunkStart hunkOf parsedStart
    dsimp only
    rw [if_neg (by omega : ¬(gLastA g - gFirstA g = 0))]
    push_cast
    omega
  rw [hstart]
  unfold pySetSlice
  dsimp only
  have h1 : pyIdx L.length (gFirstA g : Int) = gFirstA g :=
    pyIdx_ofNat L.length (gFirstA g) (by omega)
  have h2 : pyIdx L.length ((gFirstA g : Int) + (gLastA g - gFirstA g : Nat)) =
      gLastA g := by
    rw [show ((gFirstA g : Int) + (gLastA g - gFirstA g : Nat)) =
      ((gLastA g : Nat) : Int) from by omega]
    exact pyIdx_ofNat L.length (gLastA g) hub
  rw [h1, h2]
  rw [show max (gFirstA g) (gLastA g) = gLastA g from by omega]

lemma take_slice {α : Type} (l : List α) (X f : Nat) (h : X ≤ f) :
    l.take f = l.take X ++ sliceList l X f := by
  unfold sliceList
  rw [show f = X + (f - X) from by omega, List.take_add]
  congr 2
  omega

/-- Applying the hunks of a group chain (in reverse order) to the stripped
`a`-prefix rewrites it into the stripped `b`-prefix. -/
lemma fold_apply (A B : List String) :
    ∀ (gs : List (List Opcode)) (ci cj : Nat) (TAIL : List String),
    GroupsPart A B 0 0 gs ci cj → ci ≤ A.length → cj ≤ B.length →
    (∀ g ∈ gs, gFirstA g < gLastA g) →
    ((gs.map (hunkOf A B)).reverse).foldl
      (fun res h => applyHunk res h false)
      ((A.map stripTerm).take ci ++ TAIL) =
    (B.map stripTerm).take cj ++ TAIL := by
  intro gs
  induction gs using List.reverseRecOn with
  | nil =>
    intro ci cj TAIL hgp _ _ _
    obtain ⟨h1, h2⟩ := hgp
    subst h1
    subst h2
    simp
  | append_singleton gs g ih =>
    intro ci cj TAIL hgp hciA hcjB hpos
    obtain ⟨X, Y, hgp', hXle, hYle, hal, hgap, hne2, hseg, hend1, hend2⟩ :=
      groupsPart_snoc A B gs g 0 0 ci cj hgp
    have hXY := groupsPart_end_ge A B gs 0 0 X Y hgp'
    have hsegle := Seg_le A B g _ _ _ _ hseg
    rw [List.map_append, List.map_singleton, List.reverse_append,
      List.reverse_singleton, List.singleton_append, List.foldl_cons]
    have hLlen : gLastA g ≤ ((A.map stripTerm).take ci ++ TAIL).length := by
      rw [List.length_append, List.length_take, List.length_map]
      omega
    rw [applyHunk_group A B _ g hseg (hpos g (by simp)) hLlen]
    have hl1 : ((A.map stripTerm).take ci).length = ci := by
      rw [List.length_take, List.length_map]
      omega
    have htake : ((A.map stripTerm).take ci ++ TAIL).take (gFirstA g) =
        (A.map stripTerm).take (gFirstA g) := by
      rw [List.take_append_eq_append_take, List.take_take, hl1,
        show min (gFirstA g) ci = gFirstA g from by omega,
        show gFirstA g - ci = 0 from by omega,
        List.take_zero, List.append_nil]
    have hdrop : ((A.map stripTerm).take ci ++ TAIL).drop (gLastA g) = TAIL := by
      rw [List.drop_append_eq_append_drop, hend1,
        List.drop_eq_nil_of_le (le_of_eq hl1), List.nil_append, hl1,
        Nat.sub_self, List.drop_zero]
    rw [htake, hdrop]
    rw [show (A.map stripTerm).take (gFirstA g) =
        (A.map stripTerm).take X ++ sliceList (A.map stripTerm) X (gFirstA g)
      from take_slice _ X (gFirstA g) hXle]
    rw [List.append_assoc, List.append_assoc]
    rw [ih X Y (sliceList (A.map stripTerm) X (gFirstA g) ++
        ((sliceList B (gFirstB g) (gLastB g)).map stripTerm ++ TAIL))
      hgp' (by omega) (by omega) (fun g' hg' => hpos g' (by simp [hg']))]
    have hgapB : sliceList (A.map stripTerm) X (gFirstA g) =
        sliceList (B.map stripTerm) Y (gFirstB g) := by
      rw [show gFirstA g = X + (gFirstA g - X) from by omega,
        show gFirstB g = Y + (gFirstA g - X) from by omega,
        ← sliceList_map, ← sliceList_map,
        slice_eq_of_run A B X Y (gFirstA g - X) hgap (by omega) (by omega)]
    rw [hgapB, sliceList_map]
    have hcomb1 : (B.map stripTerm).take Y ++
        sliceList (B.map stripTerm) Y (gFirstB g) =
        (B.map stripTerm).take (gFirstB g) :=
      (take_slice _ Y (gFirstB g) hYle).symm
    have hcomb2 : (B.map stripTerm).take (gFirstB g) ++
        sliceList (B.map stripTerm) (gFirstB g) (gLastB g) =
        (B.map stripTerm).take (gLastB g) :=
      (take_slice _ _ _ (by omega)).symm
    rw [← List.append_assoc, hcomb1, ← List.append_assoc, hcomb2, hend2]

lemma Seg_mem_ok (a b : List String) :
    ∀ (g : List Opcode) (i j iE jE : Nat),
    Seg a b i j iE jE g → ∀ c ∈ g, CodeOK a b c := by
  intro g
  induction g with
  | nil => intro i j iE jE _ c hc; simp at hc
  | cons x rest ih =>
    intro i j iE jE hseg c hc
    obtain ⟨h1, h2, hok, hrest⟩ := hseg
    rcases List.mem_cons.1 hc with rfl | hc2
    · exact hok
    · exact ih _ _ _ _ hrest c hc2

/-- On a nonempty old side, every emitted group spans a positive range of
`a`-lines. -/
lemma grouped_pos (a b : List String) (hla : 0 < a.length) :
    ∀ g ∈ get_grouped_opcodes a b, gFirstA g < gLastA g := by
  intro g hg
  obtain ⟨eA, eB, heA, heB, hal, hreg, hgp⟩ := get_grouped_opcodes_spec a b
  obtain ⟨hne, hseg⟩ := groupsPart_mem_seg a b _ 0 0 eA eB hgp g hg
  obtain ⟨c, hcg, hct⟩ := grouped_nonins a b hla g hg
  have hb := Seg_mem_bounds a b g _ _ _ _ hseg c hcg
  have hok := Seg_mem_ok a b g _ _ _ _ hseg c hcg
  have hlt : c.a1 < c.a2 := by
    rcases hok.2.2.2.2.2.2.2.2 with h | h | h | h
    · exact (hok.2.2.2.2.1 h).2.1
    · exact (hok.2.2.2.2.2.1 h).1
    · exact (hok.2.2.2.2.2.2.1 h).1
    · exact absurd h hct
  omega

/-- The aligned equal suffix after the last group is preserved by
stripping. -/
lemma drop_strip_eq (A B : List String) (eA eB : Nat)
    (heA : eA ≤ A.length) (heB : eB ≤ B.length)
    (hal : A.length - eA = B.length - eB)
    (hreg : EqRegion A B eA eB (A.length - eA)) :
    (A.map stripTerm).drop eA = (B.map stripTerm).drop eB := by
  have hslice : sliceList A eA (eA + (A.length - eA)) =
      sliceList B eB (eB + (A.length - eA)) :=
    slice_eq_of_run A B eA eB (A.length - eA) hreg (by omega) (by omega)
  have hA : (A.map stripTerm).drop eA =
      (sliceList A eA (eA + (A.length - eA))).map stripTerm := by
    rw [sliceList_map]
    unfold sliceList
    rw [List.take_of_length_le]
    rw [List.length_drop, List.length_map]
    omega
  have hB : (B.map stripTerm).drop eB =
      (sliceList B eB (eB + (A.length - eA))).map stripTerm := by
    rw [sliceList_map]
    unfold sliceList
    rw [List.take_of_length_le]
    rw [List.length_drop, List.length_map]
    omega
  rw [hA, hB, hslice]

/-- Against an empty old side the opcode list is empty or one `insert`
covering all of `b`. -/
lemma opcodes_nil_a (B : List String) :
    get_opcodes ([] : List String) B = [] ∨
    get_opcodes ([] : List String) B = [⟨"insert", 0, 0, 0, B.length⟩] := by
  have hch := get_opcodes_chain [] B
  have hch2 := get_opcodes_chain2 [] B
  simp only [List.length_nil] at hch
  cases hcodes : get_opcodes [] B with
  | nil => exact Or.inl rfl
  | cons c rest =>
    rw [hcodes] at hch hch2
    obtain ⟨hca1, hcb1, hok, hrest⟩ := hch
    have hle := Seg_le [] B rest _ _ _ _ hrest
    have hca2 : c.a2 = 0 := by
      have := hok.1
      omega
    have htag : c.tag = "insert" := by
      rcases hok.2.2.2.2.2.2.2.2 with h | h | h | h
      · have := (hok.2.2.2.2.1 h).2.1
        omega
      · have := (hok.2.2.2.2.2.1 h).1
        omega
      · have := (hok.2.2.2.2.2.2.1 h).1
        omega
      · exact h
    cases rest with
    | nil =>
      obtain ⟨h1, h2⟩ := hrest
      right
      have hc : c = ⟨"insert", 0, 0, 0, B.length⟩ := by
        have heta : c = ⟨c.tag, c.a1, c.a2, c.b1, c.b2⟩ := rfl
        rw [heta, htag, hca1, hca2, hcb1, h2]
      rw [hc]
    | cons d rest2 =>
      exfalso
      obtain ⟨hd1, hd2, hdok, hdrest⟩ := hrest
      have hdle := Seg_le [] B rest2 _ _ _ _ hdrest
      have hda2 : d.a2 = 0 := by
        have := hdok.1
        omega
      have hdtag : d.tag = "insert" := by
        rcases hdok.2.2.2.2.2.2.2.2 with h | h | h | h
        · have := (hdok.2.2.2.2.1 h).2.1
          omega
        · have := (hdok.2.2.2.2.2.1 h).1
          omega
        · have := (hdok.2.2.2.2.2.2.1 h).1
          omega
        · exact h
      have hR := (List.chain'_cons.mp hch2).1
      rcases hR with h | h
      · rw [htag] at h
        exact absurd h (by decide)
      · rw [hdtag] at h
        exact absurd h (by decide)

/-- Against an empty old side, a nonempty group list is exactly one group
holding the single full-`b` insert. -/
lemma grouped_nil_a (B : List String)
    (hgs : get_grouped_opcodes ([] : List String) B ≠ []) :
    get_grouped_opcodes ([] : List String) B =
      [[⟨"insert", 0, 0, 0, B.length⟩]] ∧ 0 < B.length := by
  rcases opcodes_nil_a B with h | h
  · exfalso
    apply hgs
    simp only [get_grouped_opcodes, h]
    rfl
  · refine ⟨?_, ?_⟩
    · simp only [get_grouped_opcodes, h]
      rfl
    · have hch := get_opcodes_chain [] B
      rw [h] at hch
      obtain ⟨h1, h2, hok, hrest⟩ := hch
      have := hok.2.2.2.2.2.2.2.1 rfl
      simpa using this.2

/-- Applying any hunk to an empty line list yields just its replacement
lines (Python slice assignment on an empty list). -/
lemma applyHunk_nil (h : Hunk) (r : Bool) :
    applyHunk [] h r = hunkNewLines h r := by
  unfold applyHunk pySetSlice
  simp

/-- The created diff text is empty exactly when no groups were emitted. -/
lemma diff_empty_iff (old new name : String) :
    create_unified_diff old new name = "" ↔
      get_grouped_opcodes (forceTrailingNL (pySplitlinesKeep old))
        (forceTrailingNL (pySplitlinesKeep new)) = [] := by
  unfold create_unified_diff unified_diff
  dsimp only
  by_cases h : (get_grouped_opcodes (forceTrailingNL (pySplitlinesKeep old))
      (forceTrailingNL (pySplitlinesKeep new))).isEmpty
  · rw [if_pos h]
    simp only [joinAll]
    exact iff_of_true trivial (List.isEmpty_iff.mp h)
  · rw [if_neg h]
    refine iff_of_false ?_ (by simpa [List.isEmpty_iff] using h)
    intro heq
    have h2 := congrArg String.data heq
    simp only [joinAll, String.data_append] at h2
    simp at h2

/-- Applying the parsed hunks of a nonempty group list rewrites the split
old content into the split new content. -/
lemma apply_groups (old new : String)
    (hgs : get_grouped_opcodes (forceTrailingNL (pySplitlinesKeep old))
      (forceTrailingNL (pySplitlinesKeep new)) ≠ []) :
    apply_hunks (pySplitlines old)
      ((get_grouped_opcodes (forceTrailingNL (pySplitlinesKeep old))
          (forceTrailingNL (pySplitlinesKeep new))).map
        (hunkOf (forceTrailingNL (pySplitlinesKeep old))
          (forceTrailingNL (pySplitlinesKeep new)))) false =
    pySplitlines new := by
  have hSA := map_strip_force old
  have hSB := map_strip_force new
  by_cases hA0 : (forceTrailingNL (pySplitlinesKeep old)).length = 0
  · have hAnil : forceTrailingNL (pySplitlinesKeep old) = [] :=
      List.length_eq_zero.mp hA0
    rw [hAnil] at hgs hSA ⊢
    obtain ⟨hgseq, hBpos⟩ :=
      grouped_nil_a (forceTrailingNL (pySplitlinesKeep new)) hgs
    rw [hgseq]
    have hch := get_opcodes_chain [] (forceTrailingNL (pySplitlinesKeep new))
    have hcodes := opcodes_nil_a (forceTrailingNL (pySplitlinesKeep new))
    rcases hcodes with hc | hc
    · exfalso
      apply hgs
      simp only [get_grouped_opcodes, hc]
      rfl
    · rw [hc] at hch
      simp only [List.length_nil] at hch
      have hseg : Seg [] (forceTrailingNL (pySplitlinesKeep new))
          (gFirstA [(⟨"insert", 0, 0, 0,
            (forceTrailingNL (pySplitlinesKeep new)).length⟩ : Opcode)])
          (gFirstB [(⟨"insert", 0, 0, 0,
            (forceTrailingNL (pySplitlinesKeep new)).length⟩ : Opcode)])
          (gLastA [(⟨"insert", 0, 0, 0,
            (forceTrailingNL (pySplitlinesKeep new)).length⟩ : Opcode)])
          (gLastB [(⟨"insert", 0, 0, 0,
            (forceTrailingNL (pySplitlinesKeep new)).length⟩ : Opcode)])
          [(⟨"insert", 0, 0, 0,
            (forceTrailingNL (pySplitlinesKeep new)).length⟩ : Opcode)] := hch
    -- apply the single hunk to the empty line list
      have hlines : pySplitlines old = [] := by
        rw [← hSA]
        rfl
      rw [hlines]
      unfold apply_hunks
      rw [List.map_singleton, List.reverse_singleton, List.foldl_cons,
        List.foldl_nil, applyHunk_nil,
        hunkOf_newlines [] (forceTrailingNL (pySplitlinesKeep new)) _ hseg]
      have hfull : sliceList (forceTrailingNL (pySplitlinesKeep new)) 0
          (forceTrailingNL (pySplitlinesKeep new)).length =
          forceTrailingNL (pySplitlinesKeep new) := by
        unfold sliceList
        rw [List.drop_zero, Nat.sub_zero, List.take_length]
      have hgb : gFirstB [(⟨"insert", 0, 0, 0,
          (forceTrailingNL (pySplitlinesKeep new)).length⟩ : Opcode)] = 0 := rfl
      have hlb : gLastB [(⟨"insert", 0, 0, 0,
          (forceTrailingNL (pySplitlinesKeep new)).length⟩ : Opcode)] =
          (forceTrailingNL (pySplitlinesKeep new)).length := rfl
      rw [hgb, hlb, hfull, hSB]
  · have hla : 0 < (forceTrailingNL (pySplitlinesKeep old)).length := by omega
    obtain ⟨eA, eB, heA, heB, hal, hreg, hgp⟩ :=
      get_grouped_opcodes_spec (forceTrailingNL (pySplitlinesKeep old))
        (forceTrailingNL (pySplitlinesKeep new))
    have hpos := grouped_pos (forceTrailingNL (pySplitlinesKeep old))
      (forceTrailingNL (pySplitlinesKeep new)) hla
    have key := fold_apply (forceTrailingNL (pySplitlinesKeep old))
      (forceTrailingNL (pySplitlinesKeep new))
      (get_grouped_opcodes (forceTrailingNL (pySplitlinesKeep old))
        (forceTrailingNL (pySplitlinesKeep new)))
      eA eB
      (((forceTrailingNL (pySplitlinesKeep old)).map stripTerm).drop eA)
      hgp heA heB hpos
    have hstart : pySplitlines old =
        ((forceTrailingNL (pySplitlinesKeep old)).map stripTerm).take eA ++
          ((forceTrailingNL (pySplitlinesKeep old)).map stripTerm).drop eA := by
      rw [List.take_append_drop]
      exact hSA.symm
    unfold apply_hunks
    rw [hstart, key,
      drop_strip_eq (forceTrailingNL (pySplitlinesKeep old))
        (forceTrailingNL (pySplitlinesKeep new)) eA eB heA heB hal hreg,
      List.take_append_drop]
    exact hSB

/-- C1 counterexample: the round trip is not byte-for-byte: rebuilding the
patched lines with `'\n'.join` drops the trailing newline of `new`. -/
theorem round_trip_not_exact :
    apply_diff "" (create_unified_diff "" "a\n" "b") false ≠ "a\n" := by
  decide

/-- The forward application of a created diff: the split `new` content
re-joined with `'\n'`, or `old` unchanged when no hunks were emitted. -/
lemma forward_result (old new name : String)
    (hn : TermFreeStr name) :
    apply_diff old (create_unified_diff old new name) false =
      if create_unified_diff old new name = "" then old
      else joinNL (pySplitlines new) := by
  have hparse := parse_create_unified old new name hn
  by_cases hgs : get_grouped_opcodes (forceTrailingNL (pySplitlinesKeep old))
      (forceTrailingNL (pySplitlinesKeep new)) = []
  · rw [if_pos ((diff_empty_iff old new name).mpr hgs)]
    unfold apply_diff
    dsimp only
    rw [hparse, hgs, List.map_nil]
    rfl
  · rw [if_neg (fun hdiff => hgs ((diff_empty_iff old new name).mp hdiff))]
    unfold apply_diff
    dsimp only
    rw [hparse]
    cases hg : get_grouped_opcodes (forceTrailingNL (pySplitlinesKeep old))
        (forceTrailingNL (pySplitlinesKeep new)) with
    | nil => exact absurd hg hgs
    | cons g rest =>
      rw [List.map_cons, if_neg (by simp), ← List.map_cons, ← hg,
        apply_groups old new hgs]

/-- C1 amended: applying the created diff forward to `old` yields `new` up
to line splitting: with no emitted hunks (empty diff text) `old` is
returned unchanged, and otherwise the result is exactly the lines of `new`
re-joined with `'\n'` — equal to `new` itself only when `new` carries no
trailing line terminator. -/
theorem round_trip_conditional (old new name : String)
    (hn : TermFreeStr name) :
    apply_diff old (create_unified_diff old new name) false =
      if create_unified_diff old new name = "" then old
      else joinNL (pySplitlines new) :=
  forward_result old new name hn

/-- Witness for the amended C1. -/
theorem round_trip_conditional_witness :
    TermFreeStr "m" ∧
      apply_diff "x\n" (create_unified_diff "x\n" "y\n" "m") false =
        (if create_unified_diff "x\n" "y\n" "m" = "" then "x\n"
         else joinNL (pySplitlines "y\n")) := by
  have hm : TermFreeStr "m" :=
    (by decide : ∀ x ∈ ("m").data, isLineTerm x = false)
  exact ⟨hm, round_trip_conditional "x\n" "y\n" "m" hm⟩

/-! ## Reverse application mirrors the forward one -/

lemma pySplitlines_termfree (x : String) (hx : TermFreeStr x)
    (hne : x ≠ "") : pySplitlines x = [x] := by
  have hd : x.data ≠ [] := by
    intro h
    exact hne (String.ext (by rw [h]))
  unfold pySplitlines
  rw [show pyLinesGo [] x.data = pyLinesGo [] (x.data ++ []) from by
      rw [List.append_nil],
    pyLinesGo_termfree_run x.data hx [] [],
    pyLinesGo_nil,
    if_neg (by simp [hd]),
    List.map_singleton]
  simp

/-- Splitting the `'\n'`-join of terminator-free lines gives the lines
back, provided the list does not end with an empty line. -/
lemma split_joinNL : ∀ (ls : List String),
    (∀ s ∈ ls, TermFreeStr s) → ls.getLast? ≠ some "" →
    pySplitlines (joinNL ls) = ls := by
  intro ls
  induction ls with
  | nil => intro _ _; rfl
  | cons x rest ih =>
    intro h hlast
    cases rest with
    | nil =>
      have hx : x ≠ "" := by
        intro he
        apply hlast
        rw [he]
        rfl
      exact pySplitlines_termfree x (h x (by simp)) hx
    | cons y rest2 =>
      have hj : joinNL (x :: y :: rest2) =
          (x ++ "\n") ++ joinNL (y :: rest2) := rfl
      have hglast : (x ++ "\n").data.getLast? = some '\n' := by
        rw [String.data_append, show ("\n" : String).data = ['\n'] from rfl,
          List.getLast?_concat]
      have hterm : endsWithLineTerm (x ++ "\n") = true := by
        unfold endsWithLineTerm
        rw [hglast]
        decide
      have hsafe : (x ++ "\n").data.getLast? = some '\r' →
          (joinNL (y :: rest2)).data.head? ≠ some '\n' := by
        intro hc
        rw [hglast] at hc
        exact absurd hc (by decide)
      rw [hj, pySplitlines_append (x ++ "\n") (joinNL (y :: rest2)) hterm hsafe,
        pySplitlines_termfree_nl x (h x (by simp)),
        ih (fun s hs => h s (by simp [hs])) (fun hc => hlast (by
          rw [show (x :: y :: rest2).getLast? = (y :: rest2).getLast? from
            List.getLast?_cons_cons]
          exact hc))]
      rfl

/-- Reverse direction of `opChanges_newlines`: the kept replacement lines
are the stripped `a`-side. -/
lemma opChanges_newlines_rev (A B : List String) (c : Opcode)
    (hok : CodeOK A B c) :
    (opChanges A B c).filterMap (fun pr =>
      if hunkChangeOp pr true = ' ' ∨ hunkChangeOp pr true = '+' then
        some pr.2 else none) =
    (sliceList A c.a1 c.a2).map stripTerm := by
  obtain ⟨hc1, hc2, hc3, hc4, heq, hrep, hdel, hins, htags⟩ := hok
  unfold opChanges
  by_cases ht : c.tag = "equal"
  · rw [if_pos ht, List.filterMap_map]
    rw [show List.filterMap ((fun pr => if hunkChangeOp pr true = ' ' ∨
        hunkChangeOp pr true = '+' then some pr.2 else none) ∘
          (fun l => (' ', stripTerm l)))
        (sliceList A c.a1 c.a2) =
      List.filterMap (some ∘ stripTerm)
        (sliceList A c.a1 c.a2) from rfl]
    rw [List.filterMap_eq_map]
  · rw [if_neg ht, List.filterMap_append]
    have hplus : ∀ (ls : List String),
        (ls.map (fun l => ('+', stripTerm l))).filterMap (fun pr =>
          if hunkChangeOp pr true = ' ' ∨ hunkChangeOp pr true = '+' then
            some pr.2 else none) = [] := by
      intro ls
      rw [List.filterMap_map]
      exact List.filterMap_eq_nil.2 (fun x _ => rfl)
    have hminus : (((sliceList A c.a1 c.a2).map
        (fun l => ('-', stripTerm l))).filterMap (fun pr =>
          if hunkChangeOp pr true = ' ' ∨ hunkChangeOp pr true = '+' then
            some pr.2 else none)) =
        (sliceList A c.a1 c.a2).map stripTerm := by
      rw [List.filterMap_map]
      rw [show List.filterMap ((fun pr =>
          if hunkChangeOp pr true = ' ' ∨ hunkChangeOp pr true = '+' then
            some pr.2 else none) ∘ (fun l => ('-', stripTerm l)))
          (sliceList A c.a1 c.a2) =
        List.filterMap (some ∘ stripTerm)
          (sliceList A c.a1 c.a2) from rfl]
      rw [List.filterMap_eq_map]
    by_cases hrd : c.tag = "replace" ∨ c.tag = "delete"
    · rw [if_pos hrd, hminus]
      by_cases hri : c.tag = "replace" ∨ c.tag = "insert"
      · rw [if_pos hri, hplus, List.append_nil]
      · rw [if_neg hri]
        rw [show List.filterMap (fun pr =>
            if hunkChangeOp pr true = ' ' ∨ hunkChangeOp pr true = '+' then
              some pr.2 else none) ([] : List (Char × String)) = [] from rfl,
          List.append_nil]
    · have hi : c.tag = "insert" := by
        rcases htags with h | h | h | h
        · exact absurd h ht
        · exact absurd (Or.inl h) hrd
        · exact absurd (Or.inr h) hrd
        · exact h
      rw [if_neg hrd, if_pos (Or.inr hi), hplus]
      have haa : c.a1 = c.a2 := (hins hi).1
      rw [show sliceList A c.a1 c.a2 = [] from by
        unfold sliceList
        rw [show c.a2 - c.a1 = 0 from by omega]
        rfl]
      rfl

/-- Reverse direction of `opChanges_oldcount`: the replaced-line count is
the `b`-span. -/
lemma opChanges_oldcount_rev (A B : List String) (c : Opcode)
    (hok : CodeOK A B c) :
    ((opChanges A B c).filter (fun pr =>
      decide ((if true then pr.1 = '+' else pr.1 = '-') ∨ pr.1 = ' '))).length =
    c.b2 - c.b1 := by
  obtain ⟨hc1, hc2, hc3, hc4, heq, hrep, hdel, hins, htags⟩ := hok
  have hlenA : (sliceList A c.a1 c.a2).length = c.a2 - c.a1 := by
    rw [sliceList_length]
    omega
  have hlenB : (sliceList B c.b1 c.b2).length = c.b2 - c.b1 := by
    rw [sliceList_length]
    omega
  unfold opChanges
  by_cases ht : c.tag = "equal"
  · rw [if_pos ht]
    obtain ⟨hlen, hpos, hrun⟩ := heq ht
    have hfs : List.filter ((fun pr =>
        decide ((if true = true then pr.1 = '+' else pr.1 = '-') ∨
          pr.1 = ' ')) ∘ fun l => (' ', stripTerm l))
        (sliceList A c.a1 c.a2) = sliceList A c.a1 c.a2 :=
      List.filter_eq_self.2 (fun x _ => rfl)
    rw [List.filter_map, hfs, List.length_map, hlenA]
    omega
  · rw [if_neg ht, List.filter_append, List.length_append]
    have hminus0 : (((sliceList A c.a1 c.a2).map
        (fun l => ('-', stripTerm l))).filter (fun pr =>
          decide ((if true then pr.1 = '+' else pr.1 = '-') ∨
            pr.1 = ' '))).length = 0 := by
      rw [List.filter_map]
      rw [show List.filter ((fun pr =>
          decide ((if true then pr.1 = '+' else pr.1 = '-') ∨ pr.1 = ' ')) ∘
            (fun l => ('-', stripTerm l))) (sliceList A c.a1 c.a2) =
        List.filter (fun _ => false) (sliceList A c.a1 c.a2) from rfl]
      simp
    have hplusAll : (((sliceList B c.b1 c.b2).map
        (fun l => ('+', stripTerm l))).filter (fun pr =>
          decide ((if true then pr.1 = '+' else pr.1 = '-') ∨
            pr.1 = ' '))).length = c.b2 - c.b1 := by
      have hfs : List.filter ((fun pr =>
          decide ((if true = true then pr.1 = '+' else pr.1 = '-') ∨
            pr.1 = ' ')) ∘ fun l => ('+', stripTerm l))
          (sliceList B c.b1 c.b2) = sliceList B c.b1 c.b2 :=
        List.filter_eq_self.2 (fun x _ => rfl)
      rw [List.filter_map, hfs, List.length_map, hlenB]
    by_cases hri : c.tag = "replace" ∨ c.tag = "insert"
    · rw [if_pos hri, hplusAll]
      by_cases hrd : c.tag = "replace" ∨ c.tag = "delete"
      · rw [if_pos hrd, hminus0]
        omega
      · rw [if_neg hrd]
        simp
    · have hd : c.tag = "delete" := by
        rcases htags with h | h | h | h
        · exact absurd h ht
        · exact absurd (Or.inl h) hri
        · exact h
        · exact absurd (Or.inr h) hri
      rw [if_neg hri, if_pos (Or.inr hd), hminus0]
      have hbb : c.b1 = c.b2 := (hdel hd).2
      simp
      omega

/-- Over a valid opcode chain, the reverse-kept replacement lines are the
stripped `a`-side of the chain's span. -/
lemma seg_newlines_rev (A B : List String) :
    ∀ (g : List Opcode) (i j iE jE : Nat), Seg A B i j iE jE g →
    ((g.map (opChanges A B)).flatten).filterMap (fun pr =>
      if hunkChangeOp pr true = ' ' ∨ hunkChangeOp pr true = '+' then
        some pr.2 else none) =
    (sliceList A i iE).map stripTerm := by
  intro g
  induction g with
  | nil =>
    intro i j iE jE hseg
    obtain ⟨h1, h2⟩ := hseg
    subst h1
    rw [show sliceList A i i = [] from by
      unfold sliceList
      rw [Nat.sub_self]
      rfl]
    rfl
  | cons c rest ih =>
    intro i j iE jE hseg
    obtain ⟨h1, h2, hok, hrest⟩ := hseg
    rw [List.map_cons, List.flatten_cons, List.filterMap_append,
      opChanges_newlines_rev A B c hok, ih _ _ _ _ hrest]
    rw [← List.map_append, sliceList_concat A c.a1 c.a2 iE hok.1
      (Seg_le A B rest _ _ _ _ hrest).1]
    rw [h1]

/-- Over a valid opcode chain, the reverse replaced-line count is the
chain's `b`-span. -/
lemma seg_oldcount_rev (A B : List String) :
    ∀ (g : List Opcode) (i j iE jE : Nat), Seg A B i j iE jE g →
    (((g.map (opChanges A B)).flatten).filter (fun pr =>
      decide ((if true then pr.1 = '+' else pr.1 = '-') ∨
        pr.1 = ' '))).length = jE - j := by
  intro g
  induction g with
  | nil =>
    intro i j iE jE hseg
    obtain ⟨h1, h2⟩ := hseg
    subst h2
    simp
  | cons c rest ih =>
    intro i j iE jE hseg
    obtain ⟨h1, h2, hok, hrest⟩ := hseg
    rw [List.map_cons, List.flatten_cons, List.filter_append,
      List.length_append, opChanges_oldcount_rev A B c hok, ih _ _ _ _ hrest]
    have h3 := Seg_le A B rest _ _ _ _ hrest
    have hc2 : c.b1 ≤ c.b2 := hok.2.1
    omega

lemma hunkOf_newlines_rev (A B : List String) (g : List Opcode)
    (hseg : Seg A B (gFirstA g) (gFirstB g) (gLastA g) (gLastB g) g) :
    hunkNewLines (hunkOf A B g) true =
      (sliceList A (gFirstA g) (gLastA g)).map stripTerm := by
  unfold hunkNewLines hunkOf
  exact seg_newlines_rev A B g _ _ _ _ hseg

lemma hunkOf_oldcount_rev (A B : List String) (g : List Opcode)
    (hseg : Seg A B (gFirstA g) (gFirstB g) (gLastA g) (gLastB g) g) :
    hunkOldCount (hunkOf A B g) true = gLastB g - gFirstB g := by
  unfold hunkOldCount hunkOf
  exact seg_oldcount_rev A B g _ _ _ _ hseg

/-- Reverse-applying the hunk of a group with positive `b`-span replaces
exactly its `b`-range by the stripped `a`-range. -/
lemma applyHunk_group_rev (A B : List String) (L : List String)
    (g : List Opcode)
    (hseg : Seg A B (gFirstA g) (gFirstB g) (gLastA g) (gLastB g) g)
    (hpos : gFirstB g < gLastB g) (hub : gLastB g ≤ L.length) :
    applyHunk L (hunkOf A B g) true =
      L.take (gFirstB g) ++
        (sliceList A (gFirstA g) (gLastA g)).map stripTerm ++
        L.drop (gLastB g) := by
  unfold applyHunk
  rw [hunkOf_newlines_rev A B g hseg, hunkOf_oldcount_rev A B g hseg]
  have hstart : hunkStart (hunkOf A B g) true = (gFirstB g : Int) := by
    have h0 : hunkStart (hunkOf A B g) true =
        ((parsedStart (gFirstB g) (gLastB g) : Nat) : Int) - 1 := rfl
    rw [h0]
    unfold parsedStart
    rw [if_neg (by omega : ¬(gLastB g - gFirstB g = 0))]
    push_cast
    omega
  rw [hstart]
  unfold pySetSlice
  dsimp only
  have h1 : pyIdx L.length (gFirstB g : Int) = gFirstB g :=
    pyIdx_ofNat L.length (gFirstB g) (by omega)
  have h2 : pyIdx L.length ((gFirstB g : Int) + (gLastB g - gFirstB g : Nat)) =
      gLastB g := by
    rw [show ((gFirstB g : Int) + (gLastB g - gFirstB g : Nat)) =
      ((gLastB g : Nat) : Int) from by omega]
    exact pyIdx_ofNat L.length (gLastB g) hub
  rw [h1, h2]
  rw [show max (gFirstB g) (gLastB g) = gLastB g from by omega]

/-- Reverse-applying the hunks of a group chain (in reverse order) to the
stripped `b`-prefix rewrites it into the stripped `a`-prefix. -/
lemma fold_apply_rev (A B : List String) :
    ∀ (gs : List (List Opcode)) (ci cj : Nat) (TAIL : List String),
    GroupsPart A B 0 0 gs ci cj → ci ≤ A.length → cj ≤ B.length →
    (∀ g ∈ gs, gFirstB g < gLastB g) →
    ((gs.map (hunkOf A B)).reverse).foldl
      (fun res h => applyHunk res h true)
      ((B.map stripTerm).take cj ++ TAIL) =
    (A.map stripTerm).take ci ++ TAIL := by
  intro gs
  induction gs using List.reverseRecOn with
  | nil =>
    intro ci cj TAIL hgp _ _ _
    obtain ⟨h1, h2⟩ := hgp
    subst h1
    subst h2
    simp
  | append_singleton gs g ih =>
    intro ci cj TAIL hgp hciA hcjB hpos
    obtain ⟨X, Y, hgp', hXle, hYle, hal, hgap, hne2, hseg, hend1, hend2⟩ :=
      groupsPart_snoc A B gs g 0 0 ci cj hgp
    have hXY := groupsPart_end_ge A B gs 0 0 X Y hgp'
    have hsegle := Seg_le A B g _ _ _ _ hseg
    rw [List.map_append, List.map_singleton, List.reverse_append,
      List.reverse_singleton, List.singleton_append, List.foldl_cons]
    have hLlen : gLastB g ≤ ((B.map stripTerm).take cj ++ TAIL).length := by
      rw [List.length_append, List.length_take, List.length_map]
      omega
    rw [applyHunk_group_rev A B _ g hseg (hpos g (by simp)) hLlen]
    have hl1 : ((B.map stripTerm).take cj).length = cj := by
      rw [List.length_take, List.length_map]
      omega
    have htake : ((B.map stripTerm).take cj ++ TAIL).take (gFirstB g) =
        (B.map stripTerm).take (gFirstB g) := by
      rw [List.take_append_eq_append_take, List.take_take, hl1,
        show min (gFirstB g) cj = gFirstB g from by omega,
        show gFirstB g - cj = 0 from by omega,
        List.take_zero, List.append_nil]
    have hdrop : ((B.map stripTerm).take cj ++ TAIL).drop (gLastB g) = TAIL := by
      rw [List.drop_append_eq_append_drop, hend2,
        List.drop_eq_nil_of_le (le_of_eq hl1), List.nil_append, hl1,
        Nat.sub_self, List.drop_zero]
    rw [htake, hdrop]
    rw [show (B.map stripTerm).take (gFirstB g) =
        (B.map stripTerm).take Y ++ sliceList (B.map stripTerm) Y (gFirstB g)
      from take_slice _ Y (gFirstB g) hYle]
    rw [List.append_assoc, List.append_assoc]
    rw [ih X Y (sliceList (B.map stripTerm) Y (gFirstB g) ++
        ((sliceList A (gFirstA g) (gLastA g)).map stripTerm ++ TAIL))
      hgp' (by omega) (by omega) (fun g' hg' => hpos g' (by simp [hg']))]
    have hgapA : sliceList (B.map stripTerm) Y (gFirstB g) =
        sliceList (A.map stripTerm) X (gFirstA g) := by
      rw [show gFirstA g = X + (gFirstA g - X) from by omega,
        show gFirstB g = Y + (gFirstA g - X) from by omega,
        ← sliceList_map, ← sliceList_map,
        slice_eq_of_run A B X Y (gFirstA g - X) hgap (by omega) (by omega)]
    rw [hgapA, sliceList_map]
    have hcomb1 : (A.map stripTerm).take X ++
        sliceList (A.map stripTerm) X (gFirstA g) =
        (A.map stripTerm).take (gFirstA g) :=
      (take_slice _ X (gFirstA g) hXle).symm
    have hcomb2 : (A.map stripTerm).take (gFirstA g) ++
        sliceList (A.map stripTerm) (gFirstA g) (gLastA g) =
        (A.map stripTerm).take (gLastA g) :=
      (take_slice _ _ _ (by omega)).symm
    rw [← List.append_assoc, hcomb1, ← List.append_assoc, hcomb2, hend1]

lemma fold_gposB :
    ∀ (codes done : List Opcode) (gs : List (List Opcode)) (g : List Opcode),
    List.Chain' Ropc codes →
    ((∀ gr ∈ gs, ∃ c ∈ gr, c.tag ≠ "delete") ∧
      ((g = [] ∧ gs = [] ∧ done = []) ∨ (∃ c ∈ g, c.tag ≠ "delete") ∨
        (gs = [] ∧ ∃ c, g = [c] ∧ c.tag = "delete" ∧ done = [c] ∧
          (∀ d, codes.head? = some d → d.tag = "equal")))) →
    ((∀ gr ∈ (codes.foldl groupStep (gs, g)).1, ∃ c ∈ gr, c.tag ≠ "delete") ∧
      ((codes.foldl groupStep (gs, g)).2 = [] ∨
        (∃ c ∈ (codes.foldl groupStep (gs, g)).2, c.tag ≠ "delete") ∨
        ((codes.foldl groupStep (gs, g)).1 = [] ∧
          ∃ c, (codes.foldl groupStep (gs, g)).2 = [c] ∧ c.tag = "delete" ∧
            done ++ codes = [c]))) := by
  intro codes
  induction codes with
  | nil =>
    intro done gs g _ hinv
    obtain ⟨hgs, hg⟩ := hinv
    refine ⟨hgs, ?_⟩
    rcases hg with ⟨h1, h2, h3⟩ | h | ⟨h1, c, h2, h3, h4, _⟩
    · exact Or.inl h1
    · exact Or.inr (Or.inl h)
    · exact Or.inr (Or.inr ⟨h1, c, h2, h3,
        by rw [List.append_nil]; exact h4⟩)
  | cons d rest ih =>
    intro done gs g hch hinv
    obtain ⟨hgs, hg⟩ := hinv
    rw [List.foldl_cons]
    have hch' : List.Chain' Ropc rest := hch.tail
    by_cases hsp : d.tag = "equal" ∧ 6 < d.a2 - d.a1
    · have hstep : groupStep (gs, g) d =
          (gs ++ [g ++ [{ d with a2 := min d.a2 (d.a1 + 3), b2 := min d.b2 (d.b1 + 3) }]],
           [{ d with a1 := max d.a1 (d.a2 - 3), b1 := max d.b1 (d.b2 - 3) }]) := by
        simp only [groupStep]
        rw [if_pos hsp]
      rw [hstep]
      have hL : ({ d with a2 := min d.a2 (d.a1 + 3), b2 := min d.b2 (d.b1 + 3) } : Opcode).tag ≠ "delete" := by
        show ¬(d.tag = "delete")
        rw [hsp.1]
        decide
      have hR : ({ d with a1 := max d.a1 (d.a2 - 3), b1 := max d.b1 (d.b2 - 3) } : Opcode).tag ≠ "delete" := by
        show ¬(d.tag = "delete")
        rw [hsp.1]
        decide
      have hinv' : (∀ gr ∈ gs ++ [g ++ [{ d with a2 := min d.a2 (d.a1 + 3), b2 := min d.b2 (d.b1 + 3) }]],
          ∃ c ∈ gr, c.tag ≠ "delete") ∧
          (([{ d with a1 := max d.a1 (d.a2 - 3), b1 := max d.b1 (d.b2 - 3) }] : List Opcode) = [] ∧
            gs ++ [g ++ [{ d with a2 := min d.a2 (d.a1 + 3), b2 := min d.b2 (d.b1 + 3) }]] = [] ∧
            done ++ [d] = [] ∨
          (∃ c ∈ ([{ d with a1 := max d.a1 (d.a2 - 3), b1 := max d.b1 (d.b2 - 3) }] : List Opcode),
            c.tag ≠ "delete") ∨
          (gs ++ [g ++ [{ d with a2 := min d.a2 (d.a1 + 3), b2 := min d.b2 (d.b1 + 3) }]] = [] ∧
            ∃ c, ([{ d with a1 := max d.a1 (d.a2 - 3), b1 := max d.b1 (d.b2 - 3) }] : List Opcode) = [c] ∧
              c.tag = "delete" ∧ done ++ [d] = [c] ∧
              (∀ e, rest.head? = some e → e.tag = "equal"))) := by
        constructor
        · intro gr hgr
          rcases List.mem_append.1 hgr with h | h
          · exact hgs gr h
          · simp at h
            subst h
            exact ⟨_, by simp, hL⟩
        · exact Or.inr (Or.inl ⟨_, by simp, hR⟩)
      have hres := ih (done ++ [d]) _ _ hch' hinv'
      rw [List.append_assoc] at hres
      exact hres
    · have hstep : groupStep (gs, g) d = (gs, g ++ [d]) := by
        simp only [groupStep]
        rw [if_neg hsp]
      rw [hstep]
      have hpend : (g ++ [d] = [] ∧ gs = [] ∧ done ++ [d] = []) ∨
          (∃ c ∈ g ++ [d], c.tag ≠ "delete") ∨
          (gs = [] ∧ ∃ c, g ++ [d] = [c] ∧ c.tag = "delete" ∧
            done ++ [d] = [c] ∧
            (∀ e, rest.head? = some e → e.tag = "equal")) := by
        rcases hg with ⟨h1, h2, h3⟩ | ⟨c, hc, hct⟩ | ⟨h1, c, h2, h3, h4, h5⟩
        · subst h1 h2 h3
          by_cases hd : d.tag = "delete"
          · refine Or.inr (Or.inr ⟨rfl, d, by simp, hd, by simp, ?_⟩)
            intro e he
            have hrel := (List.chain'_cons'.1 hch).1 e he
            rcases hrel with h | h
            · rw [hd] at h
              exact absurd h (by decide)
            · exact h
          · exact Or.inr (Or.inl ⟨d, by simp, hd⟩)
        · exact Or.inr (Or.inl ⟨c, List.mem_append.2 (Or.inl hc), hct⟩)
        · have hd : d.tag = "equal" := h5 d rfl
          refine Or.inr (Or.inl ⟨d, by simp, ?_⟩)
          rw [hd]
          decide
      have hres := ih (done ++ [d]) gs (g ++ [d]) hch' ⟨hgs, hpend⟩
      rw [List.append_assoc] at hres
      exact hres

/-- On a nonempty new side, every emitted group contains a non-`delete`
opcode. -/
lemma grouped_nondel (a b : List String) (hlb : 0 < b.length) :
    ∀ g ∈ get_grouped_opcodes a b, ∃ c ∈ g, c.tag ≠ "delete" := by
  intro g hg
  by_cases hemp : (get_opcodes a b).isEmpty
  · have hnil : get_opcodes a b = [] := by
      cases h : get_opcodes a b with
      | nil => rfl
      | cons x l => rw [h] at hemp; exact absurd hemp (by simp)
    have hchain := get_opcodes_chain a b
    rw [hnil] at hchain
    obtain ⟨_, h2⟩ := hchain
    omega
  · have hch2 : List.Chain' Ropc (adjustLast (adjustHead (get_opcodes a b))) :=
      chain'_of_tags _ _
        (by rw [adjustLast_tags, adjustHead_tags]) (get_opcodes_chain2 a b)
    have hfold := fold_gposB (adjustLast (adjustHead (get_opcodes a b))) [] [] []
      hch2 ⟨by simp, Or.inl ⟨rfl, rfl, rfl⟩⟩
    rw [List.nil_append] at hfold
    simp only [get_grouped_opcodes] at hg
    rw [if_neg hemp] at hg
    have hsingle : ∀ c : Opcode,
        adjustLast (adjustHead (get_opcodes a b)) = [c] →
        c.tag = "delete" → False := by
      intro c hcodes2 hct
      have hlen : (get_opcodes a b).length = 1 := by
        have h1 := adjustLast_length (adjustHead (get_opcodes a b))
        have h2 := adjustHead_length (get_opcodes a b)
        rw [hcodes2] at h1
        simp at h1
        omega
      obtain ⟨c0, l0, hcons⟩ := List.exists_cons_of_ne_nil
        (show get_opcodes a b ≠ [] by
          intro h
          apply hemp
          rw [h]
          rfl)
      have hl0 : l0 = [] := by
        rw [hcons] at hlen
        simp at hlen
        exact hlen
      subst hl0
      have htags : (adjustLast (adjustHead (get_opcodes a b))).map Opcode.tag =
          (get_opcodes a b).map Opcode.tag := by
        rw [adjustLast_tags, adjustHead_tags]
      rw [hcodes2, hcons] at htags
      simp at htags
      have hchain := get_opcodes_chain a b
      rw [hcons] at hchain
      obtain ⟨ha1, hb1, hok, hend1, hend2⟩ := hchain
      have hdel := hok.2.2.2.2.2.2.1 (by rw [← htags]; exact hct)
      omega
    rcases hF2 : (List.foldl groupStep ([], [])
        (adjustLast (adjustHead (get_opcodes a b)))).2 with _ | ⟨c, l⟩
    · have hg' : g ∈ (List.foldl groupStep ([], [])
          (adjustLast (adjustHead (get_opcodes a b)))).1 := by
        rw [hF2] at hg
        exact hg
      exact hfold.1 g hg'
    · cases l with
      | nil =>
        rw [hF2] at hg
        have hg' : g ∈ (if c.tag = "equal" then
            (List.foldl groupStep ([], [])
              (adjustLast (adjustHead (get_opcodes a b)))).1
          else (List.foldl groupStep ([], [])
              (adjustLast (adjustHead (get_opcodes a b)))).1 ++ [[c]]) := hg
        by_cases hct : c.tag = "equal"
        · rw [if_pos hct] at hg'
          exact hfold.1 g hg'
        · rw [if_neg hct] at hg'
          rcases List.mem_append.1 hg' with h | h
          · exact hfold.1 g h
          · simp at h
            subst h
            rcases hfold.2 with h2 | h2 | h2
            · rw [hF2] at h2
              exact absurd h2 (by simp)
            · obtain ⟨c', hc', hct'⟩ := h2
              rw [hF2] at hc'
              simp at hc'
              exact ⟨c, by simp, hc' ▸ hct'⟩
            · obtain ⟨hF1, c', hc', hct', hcodes⟩ := h2
              rw [hF2] at hc'
              simp at hc'
              exact absurd hcodes (fun h => hsingle c' h hct')
      | cons c2 l2 =>
        rw [hF2] at hg
        have hg' : g ∈ (List.foldl groupStep ([], [])
            (adjustLast (adjustHead (get_opcodes a b)))).1 ++ [c :: c2 :: l2] := hg
        rcases List.mem_append.1 hg' with h | h
        · exact hfold.1 g h
        · simp at h
          subst h
          rcases hfold.2 with h2 | h2 | h2
          · rw [hF2] at h2
            exact absurd h2 (by simp)
          · obtain ⟨c', hc', hct'⟩ := h2
            rw [hF2] at hc'
            exact ⟨c', hc', hct'⟩
          · obtain ⟨hF1, c', hc', hct', hcodes⟩ := h2
            rw [hF2] at hc'
            simp at hc'

/-- On a nonempty new side, every emitted group spans a positive range of
`b`-lines. -/
lemma grouped_posB (a b : List String) (hlb : 0 < b.length) :
    ∀ g ∈ get_grouped_opcodes a b, gFirstB g < gLastB g := by
  intro g hg
  obtain ⟨eA, eB, heA, heB, hal, hreg, hgp⟩ := get_grouped_opcodes_spec a b
  obtain ⟨hne, hseg⟩ := groupsPart_mem_seg a b _ 0 0 eA eB hgp g hg
  obtain ⟨c, hcg, hct⟩ := grouped_nondel a b hlb g hg
  have hb := Seg_mem_bounds a b g _ _ _ _ hseg c hcg
  have hok := Seg_mem_ok a b g _ _ _ _ hseg c hcg
  have hlt : c.b1 < c.b2 := by
    rcases hok.2.2.2.2.2.2.2.2 with h | h | h | h
    · have h1 := (hok.2.2.2.2.1 h).1
      have h2 := (hok.2.2.2.2.1 h).2.1
      have h3 := hok.2.1
      omega
    · exact (hok.2.2.2.2.2.1 h).2
    · exact absurd h hct
    · exact (hok.2.2.2.2.2.2.2.1 h).2
  omega

/-- Against an empty new side the opcode list is empty or one `delete`
covering all of `a`. -/
lemma opcodes_nil_b (A : List String) :
    get_opcodes A ([] : List String) = [] ∨
    get_opcodes A ([] : List String) = [⟨"delete", 0, A.length, 0, 0⟩] := by
  have hch := get_opcodes_chain A []
  have hch2 := get_opcodes_chain2 A []
  simp only [List.length_nil] at hch
  cases hcodes : get_opcodes A [] with
  | nil => exact Or.inl rfl
  | cons c rest =>
    rw [hcodes] at hch hch2
    obtain ⟨hca1, hcb1, hok, hrest⟩ := hch
    have hle := Seg_le A [] rest _ _ _ _ hrest
    have hcb2 : c.b2 = 0 := by
      have := hok.2.1
      omega
    have htag : c.tag = "delete" := by
      rcases hok.2.2.2.2.2.2.2.2 with h | h | h | h
      · have h1 := (hok.2.2.2.2.1 h).1
        have h2 := (hok.2.2.2.2.1 h).2.1
        have h3 := hok.2.1
        omega
      · have := (hok.2.2.2.2.2.1 h).2
        omega
      · exact h
      · have := (hok.2.2.2.2.2.2.2.1 h).2
        omega
    cases rest with
    | nil =>
      obtain ⟨h1, h2⟩ := hrest
      right
      have hc : c = ⟨"delete", 0, A.length, 0, 0⟩ := by
        have heta : c = ⟨c.tag, c.a1, c.a2, c.b1, c.b2⟩ := rfl
        rw [heta, htag, hca1, hcb1, h1, hcb2]
      rw [hc]
    | cons d rest2 =>
      exfalso
      obtain ⟨hd1, hd2, hdok, hdrest⟩ := hrest
      have hdle := Seg_le A [] rest2 _ _ _ _ hdrest
      have hdb2 : d.b2 = 0 := by
        have := hdok.2.1
        omega
      have hdtag : d.tag = "delete" := by
        rcases hdok.2.2.2.2.2.2.2.2 with h | h | h | h
        · have h1 := (hdok.2.2.2.2.1 h).1
          have h2 := (hdok.2.2.2.2.1 h).2.1
          have h3 := hdok.2.1
          omega
        · have := (hdok.2.2.2.2.2.1 h).2
          omega
        · exact h
        · have := (hdok.2.2.2.2.2.2.2.1 h).2
          omega
      have hR := (List.chain'_cons.mp hch2).1
      rcases hR with h | h
      · rw [htag] at h
        exact absurd h (by decide)
      · rw [hdtag] at h
        exact absurd h (by decide)

/-- Against an empty new side, a nonempty group list is exactly one group
holding the single full-`a` delete. -/
lemma grouped_nil_b (A : List String)
    (hgs : get_grouped_opcodes A ([] : List String) ≠ []) :
    get_grouped_opcodes A ([] : List String) =
      [[⟨"delete", 0, A.length, 0, 0⟩]] ∧ 0 < A.length := by
  rcases opcodes_nil_b A with h | h
  · exfalso
    apply hgs
    simp only [get_grouped_opcodes, h]
    rfl
  · refine ⟨?_, ?_⟩
    · simp only [get_grouped_opcodes, h]
      rfl
    · have hch := get_opcodes_chain A []
      rw [h] at hch
      obtain ⟨h1, h2, hok, hrest⟩ := hch
      have := hok.2.2.2.2.2.2.1 rfl
      simpa using this.1

/-- Reverse-applying the parsed hunks of a nonempty group list to the
re-split forward output rewrites it into the split old content. -/
lemma apply_groups_rev (old new : String)
    (hgs : get_grouped_opcodes (forceTrailingNL (pySplitlinesKeep old))
      (forceTrailingNL (pySplitlinesKeep new)) ≠ [])
    (hlast : (pySplitlines new).getLast? ≠ some "") :
    apply_hunks (pySplitlines (joinNL (pySplitlines new)))
      ((get_grouped_opcodes (forceTrailingNL (pySplitlinesKeep old))
          (forceTrailingNL (pySplitlinesKeep new))).map
        (hunkOf (forceTrailingNL (pySplitlinesKeep old))
          (forceTrailingNL (pySplitlinesKeep new)))) true =
    pySplitlines old := by
  have hSA := map_strip_force old
  have hSB := map_strip_force new
  have hsplit : pySplitlines (joinNL (pySplitlines new)) = pySplitlines new :=
    split_joinNL (pySplitlines new) (pySplitlines_termFree new) hlast
  rw [hsplit]
  by_cases hB0 : (forceTrailingNL (pySplitlinesKeep new)).length = 0
  · have hBnil : forceTrailingNL (pySplitlinesKeep new) = [] :=
      List.length_eq_zero.mp hB0
    rw [hBnil] at hgs hSB ⊢
    obtain ⟨hgseq, hApos⟩ :=
      grouped_nil_b (forceTrailingNL (pySplitlinesKeep old)) hgs
    rw [hgseq]
    have hch := get_opcodes_chain (forceTrailingNL (pySplitlinesKeep old)) []
    rcases opcodes_nil_b (forceTrailingNL (pySplitlinesKeep old)) with hc | hc
    · exfalso
      apply hgs
      simp only [get_grouped_opcodes, hc]
      rfl
    · rw [hc] at hch
      simp only [List.length_nil] at hch
      have hseg : Seg (forceTrailingNL (pySplitlinesKeep old)) []
          (gFirstA [(⟨"delete", 0,
            (forceTrailingNL (pySplitlinesKeep old)).length, 0, 0⟩ : Opcode)])
          (gFirstB [(⟨"delete", 0,
            (forceTrailingNL (pySplitlinesKeep old)).length, 0, 0⟩ : Opcode)])
          (gLastA [(⟨"delete", 0,
            (forceTrailingNL (pySplitlinesKeep old)).length, 0, 0⟩ : Opcode)])
          (gLastB [(⟨"delete", 0,
            (forceTrailingNL (pySplitlinesKeep old)).length, 0, 0⟩ : Opcode)])
          [(⟨"delete", 0,
            (forceTrailingNL (pySplitlinesKeep old)).length, 0, 0⟩ : Opcode)] := hch
      have hlines : pySplitlines new = [] := by
        rw [← hSB]
        rfl
      rw [hlines]
      unfold apply_hunks
      rw [List.map_singleton, List.reverse_singleton, List.foldl_cons,
        List.foldl_nil, applyHunk_nil,
        hunkOf_newlines_rev (forceTrailingNL (pySplitlinesKeep old)) [] _ hseg]
      have hfull : sliceList (forceTrailingNL (pySplitlinesKeep old)) 0
          (forceTrailingNL (pySplitlinesKeep old)).length =
          forceTrailingNL (pySplitlinesKeep old) := by
        unfold sliceList
        rw [List.drop_zero, Nat.sub_zero, List.take_length]
      have hga : gFirstA [(⟨"delete", 0,
          (forceTrailingNL (pySplitlinesKeep old)).length, 0, 0⟩ : Opcode)] =
          0 := rfl
      have hla : gLastA [(⟨"delete", 0,
          (forceTrailingNL (pySplitlinesKeep old)).length, 0, 0⟩ : Opcode)] =
          (forceTrailingNL (pySplitlinesKeep old)).length := rfl
      rw [hga, hla, hfull, hSA]
  · have hlb : 0 < (forceTrailingNL (pySplitlinesKeep new)).length := by omega
    obtain ⟨eA, eB, heA, heB, hal, hreg, hgp⟩ :=
      get_grouped_opcodes_spec (forceTrailingNL (pySplitlinesKeep old))
        (forceTrailingNL (pySplitlinesKeep new))
    have hpos := grouped_posB (forceTrailingNL (pySplitlinesKeep old))
      (forceTrailingNL (pySplitlinesKeep new)) hlb
    have key := fold_apply_rev (forceTrailingNL (pySplitlinesKeep old))
      (forceTrailingNL (pySplitlinesKeep new))
      (get_grouped_opcodes (forceTrailingNL (pySplitlinesKeep old))
        (forceTrailingNL (pySplitlinesKeep new)))
      eA eB
      (((forceTrailingNL (pySplitlinesKeep new)).map stripTerm).drop eB)
      hgp heA heB hpos
    have hstart : pySplitlines new =
        ((forceTrailingNL (pySplitlinesKeep new)).map stripTerm).take eB ++
          ((forceTrailingNL (pySplitlinesKeep new)).map stripTerm).drop eB := by
      rw [List.take_append_drop]
      exact hSB.symm
    unfold apply_hunks
    rw [hstart, key,
      ← drop_strip_eq (forceTrailingNL (pySplitlinesKeep old))
        (forceTrailingNL (pySplitlinesKeep new)) eA eB heA heB hal hreg,
      List.take_append_drop]
    exact hSA

/-- C2 counterexample: forward application already loses the trailing
newline of `old`, so the reverse application cannot restore it. -/
theorem involution_fails :
    apply_diff (apply_diff "b\n" (create_unified_diff "b\n" "a" "n") false)
      (create_unified_diff "b\n" "a" "n") true ≠ "b\n" := by
  decide

/-- C2 amended: reverse-applying the created diff to the forward result
recovers `old` up to line splitting, provided the split `new` content does
not end with an empty line (otherwise the intermediate `'\n'.join` merges
lines and the hunks no longer align): with no emitted hunks `old` is
returned unchanged, and otherwise the result is the lines of `old`
re-joined with `'\n'`. -/
theorem involution_conditional (old new name : String)
    (hn : TermFreeStr name)
    (hlast : (pySplitlines new).getLast? ≠ some "") :
    apply_diff (apply_diff old (create_unified_diff old new name) false)
      (create_unified_diff old new name) true =
      if create_unified_diff old new name = "" then old
      else joinNL (pySplitlines old) := by
  have hparse := parse_create_unified old new name hn
  by_cases hgs : get_grouped_opcodes (forceTrailingNL (pySplitlinesKeep old))
      (forceTrailingNL (pySplitlinesKeep new)) = []
  · rw [if_pos ((diff_empty_iff old new name).mpr hgs)]
    have hnoh : parse_hunks (create_unified_diff old new name) = [] := by
      rw [hparse, hgs]
      rfl
    have h1 : apply_diff old (create_unified_diff old new name) false = old := by
      unfold apply_diff
      dsimp only
      rw [hnoh]
      rfl
    rw [h1]
    unfold apply_diff
    dsimp only
    rw [hnoh]
    rfl
  · rw [if_neg (fun hdiff => hgs ((diff_empty_iff old new name).mp hdiff))]
    have hfwd : apply_diff old (create_unified_diff old new name) false =
        joinNL (pySplitlines new) := by
      rw [forward_result old new name hn,
        if_neg (fun hdiff => hgs ((diff_empty_iff old new name).mp hdiff))]
    rw [hfwd]
    unfold apply_diff
    dsimp only
    rw [hparse]
    cases hg : get_grouped_opcodes (forceTrailingNL (pySplitlinesKeep old))
        (forceTrailingNL (pySplitlinesKeep new)) with
    | nil => exact absurd hg hgs
    | cons g rest =>
      rw [List.map_cons, if_neg (by simp), ← List.map_cons, ← hg,
        apply_groups_rev old new hgs hlast]

/-- Witness for the amended C2. -/
theorem involution_conditional_witness :
    (TermFreeStr "m" ∧ (pySplitlines "y\n").getLast? ≠ some "") ∧
      apply_diff (apply_diff "x\n" (create_unified_diff "x\n" "y\n" "m") false)
        (create_unified_diff "x\n" "y\n" "m") true =
        (if create_unified_diff "x\n" "y\n" "m" = "" then "x\n"
         else joinNL (pySplitlines "x\n")) := by
  have hm : TermFreeStr "m" :=
    (by decide : ∀ x ∈ ("m").data, isLineTerm x = false)
  have hl : (pySplitlines "y\n").getLast? ≠ some "" := by decide
  exact ⟨⟨hm, hl⟩, involution_conditional "x\n" "y\n" "m" hm hl⟩

/-! ## The diff of a text against itself is empty

On `a` versus `a` the dynamic-programming loop of `find_longest_match`
keeps a diagonal best: a cell `(r, j)` chains only through usable
(non-popular) elements, so its value never exceeds the diagonal run at
either endpoint, and a strict improvement can only happen on the diagonal
itself. -/

/-- Whether index `r` of `a` takes part in matching `a` against itself
(in range and not dropped by the `autojunk` popularity heuristic). -/
def dUsable (a : List String) (r : Nat) : Bool :=
  decide (r < a.length) && !(isPopular a (a.getD r ""))

/-- The length of the run of usable indices ending at `r`. -/
def dRun (a : List String) : Nat → Nat
  | 0 => if dUsable a 0 then 1 else 0
  | r + 1 => if dUsable a (r + 1) then dRun a r + 1 else 0

/-- The diagonal run ending just before row `r` (`0` before row `0`). -/
def dPrev (a : List String) : Nat → Nat
  | 0 => 0
  | r + 1 => dRun a r

lemma dRun_usable (a : List String) (r : Nat) (hu : dUsable a r = true) :
    dRun a r = dPrev a r + 1 := by
  cases r with
  | zero =>
    unfold dRun
    rw [if_pos hu]
    rfl
  | succ r' =>
    unfold dRun
    rw [if_pos hu]
    rfl

lemma dRun_unusable (a : List String) (r : Nat) (hu : dUsable a r = false) :
    dRun a r = 0 := by
  cases r with
  | zero =>
    unfold dRun
    rw [if_neg (by simp [hu])]
  | succ r' =>
    unfold dRun
    rw [if_neg (by simp [hu])]

lemma dUsable_of_mem (a : List String) (r j : Nat) (hr : dUsable a r = true)
    (hj : j < a.length) (hval : a.getD j "" = a.getD r "") :
    dUsable a j = true := by
  unfold dUsable at hr ⊢
  rw [hval]
  simp only [Bool.and_eq_true, decide_eq_true_eq] at hr ⊢
  exact ⟨hj, hr.2⟩

lemma dpInner_eq (f : Nat → Nat) (i : Nat) (st : (Nat → Nat) × FlmBest)
    (j : Nat) :
    dpInner f i st j =
      if st.2.size < (if j = 0 then 0 else f (j - 1)) + 1 then
        (Function.update st.1 j ((if j = 0 then 0 else f (j - 1)) + 1),
         ⟨i + 1 - ((if j = 0 then 0 else f (j - 1)) + 1),
          j + 1 - ((if j = 0 then 0 else f (j - 1)) + 1),
          (if j = 0 then 0 else f (j - 1)) + 1⟩)
      else (Function.update st.1 j ((if j = 0 then 0 else f (j - 1)) + 1),
        st.2) := rfl

/-- The column bound: a cell of a usable column never exceeds that
column's diagonal run. -/
lemma kcol_bound (a : List String) (f : Nat → Nat)
    (hcol : ∀ j, f j ≤ dRun a j) (j : Nat) (hu : dUsable a j = true) :
    (if j = 0 then 0 else f (j - 1)) + 1 ≤ dRun a j := by
  cases j with
  | zero =>
    rw [if_pos rfl, dRun_usable a 0 hu]
    omega
  | succ j' =>
    rw [if_neg (Nat.succ_ne_zero j'), dRun_usable a (j' + 1) hu]
    simp only [Nat.add_sub_cancel]
    have := hcol j'
    have hp : dPrev a (j' + 1) = dRun a j' := rfl
    omega

/-- The row bound: a cell of a usable row never exceeds that row's
diagonal run. -/
lemma krow_bound (a : List String) (r : Nat) (f : Nat → Nat)
    (hrow : ∀ j, f j ≤ dPrev a r) (hu : dUsable a r = true) (j : Nat) :
    (if j = 0 then 0 else f (j - 1)) + 1 ≤ dRun a r := by
  rw [dRun_usable a r hu]
  by_cases hj : j = 0
  · rw [if_pos hj]
    omega
  · rw [if_neg hj]
    have := hrow (j - 1)
    omega

/-- The diagonal cell of a usable row is exactly the row's diagonal run. -/
lemma kdiag_eq (a : List String) (r : Nat) (f : Nat → Nat)
    (hexact : ∀ r', r' + 1 = r → f r' = dRun a r')
    (hu : dUsable a r = true) :
    (if r = 0 then 0 else f (r - 1)) + 1 = dRun a r := by
  rw [dRun_usable a r hu]
  cases r with
  | zero =>
    rw [if_pos rfl]
    rfl
  | succ r' =>
    rw [if_neg (Nat.succ_ne_zero r')]
    have h := hexact r' rfl
    show f (r' + 1 - 1) + 1 = dPrev a (r' + 1) + 1
    rw [show r' + 1 - 1 = r' from rfl, h]
    rfl

/-- Cells whose value stays at or below the current best never update it;
the new row keeps both the row and the column bounds. -/
lemma dpInner_noFire (a : List String) (r : Nat) (f : Nat → Nat) :
    ∀ (js : List Nat) (nr0 : Nat → Nat) (b0 : FlmBest),
    (∀ j ∈ js, (if j = 0 then 0 else f (j - 1)) + 1 ≤ b0.size) →
    (∀ j ∈ js, (if j = 0 then 0 else f (j - 1)) + 1 ≤ dRun a r) →
    (∀ j ∈ js, (if j = 0 then 0 else f (j - 1)) + 1 ≤ dRun a j) →
    (∀ j, nr0 j ≤ dRun a r) → (∀ j, nr0 j ≤ dRun a j) →
    (js.foldl (dpInner f r) (nr0, b0)).2 = b0 ∧
    (∀ j, (js.foldl (dpInner f r) (nr0, b0)).1 j ≤ dRun a r) ∧
    (∀ j, (js.foldl (dpInner f r) (nr0, b0)).1 j ≤ dRun a j) ∧
    (∀ j, j ∉ js → (js.foldl (dpInner f r) (nr0, b0)).1 j = nr0 j) := by
  intro js
  induction js with
  | nil =>
    intro nr0 b0 _ _ _ h4 h5
    exact ⟨rfl, h4, h5, fun _ _ => rfl⟩
  | cons j0 rest ih =>
    intro nr0 b0 h1 h2 h3 h4 h5
    rw [List.foldl_cons]
    have hk1 := h1 j0 (by simp)
    have hk2 := h2 j0 (by simp)
    have hk3 := h3 j0 (by simp)
    have hstep : dpInner f r (nr0, b0) j0 =
        (Function.update nr0 j0 ((if j0 = 0 then 0 else f (j0 - 1)) + 1),
          b0) := by
      rw [dpInner_eq]
      dsimp only
      rw [if_neg (by omega)]
    rw [hstep]
    have hup1 : ∀ j, Function.update nr0 j0
        ((if j0 = 0 then 0 else f (j0 - 1)) + 1) j ≤ dRun a r := by
      intro j
      by_cases hj : j = j0
      · subst hj
        rw [Function.update_same]
        exact hk2
      · rw [Function.update_noteq hj]
        exact h4 j
    have hup2 : ∀ j, Function.update nr0 j0
        ((if j0 = 0 then 0 else f (j0 - 1)) + 1) j ≤ dRun a j := by
      intro j
      by_cases hj : j = j0
      · subst hj
        rw [Function.update_same]
        exact hk3
      · rw [Function.update_noteq hj]
        exact h5 j
    have hres := ih _ b0 (fun j hj => h1 j (by simp [hj]))
      (fun j hj => h2 j (by simp [hj])) (fun j hj => h3 j (by simp [hj]))
      hup1 hup2
    refine ⟨hres.1, hres.2.1, hres.2.2.1, ?_⟩
    intro j hj
    have hj0 : j ≠ j0 := fun h => hj (by simp [h])
    have hjr : j ∉ rest := fun h => hj (by simp [h])
    rw [hres.2.2.2 j hjr, Function.update_noteq hj0]

/-- The diagonal cell fires (or is already covered) and the cells after it
cannot fire: processing the diagonal and the tail of a usable row keeps
the best diagonal and raises it to at least the row's diagonal run. -/
lemma dpDiag_then (a : List String) (r : Nat) (f : Nat → Nat)
    (hu : dUsable a r = true)
    (hK : (if r = 0 then 0 else f (r - 1)) + 1 = dRun a r)
    (hrowf : ∀ j, f j ≤ dPrev a r)
    (hcolf : ∀ j, f j ≤ dRun a j) :
    ∀ (Hp : List Nat),
    (∀ j ∈ Hp, r + 1 ≤ j ∧ j < a.length ∧ a.getD j "" = a.getD r "") →
    ∀ (st' : (Nat → Nat) × FlmBest),
    st'.2.i = st'.2.j →
    (∀ j, st'.1 j ≤ dRun a r) → (∀ j, st'.1 j ≤ dRun a j) →
    (Hp.foldl (dpInner f r) (dpInner f r st' r)).2.i =
      (Hp.foldl (dpInner f r) (dpInner f r st' r)).2.j ∧
    st'.2.size ≤ (Hp.foldl (dpInner f r) (dpInner f r st' r)).2.size ∧
    dRun a r ≤ (Hp.foldl (dpInner f r) (dpInner f r st' r)).2.size ∧
    (∀ j, (Hp.foldl (dpInner f r) (dpInner f r st' r)).1 j ≤ dRun a r) ∧
    (∀ j, (Hp.foldl (dpInner f r) (dpInner f r st' r)).1 j ≤ dRun a j) ∧
    (Hp.foldl (dpInner f r) (dpInner f r st' r)).1 r = dRun a r := by
  intro Hp hmemH st' hdiag hrowN hcolN
  obtain ⟨nr0, b0⟩ := st'
  simp only at hdiag hrowN hcolN
  have hstep : dpInner f r (nr0, b0) r =
      if b0.size < dRun a r then
        (Function.update nr0 r (dRun a r),
          ⟨r + 1 - dRun a r, r + 1 - dRun a r, dRun a r⟩)
      else (Function.update nr0 r (dRun a r), b0) := by
    rw [dpInner_eq]
    dsimp only
    rw [hK]
  have hHblock : ∀ (b1 : FlmBest), dRun a r ≤ b1.size →
      ∀ (nr1 : Nat → Nat), (∀ j, nr1 j ≤ dRun a r) →
      (∀ j, nr1 j ≤ dRun a j) → nr1 r = dRun a r →
      (Hp.foldl (dpInner f r) (nr1, b1)).2 = b1 ∧
      (∀ j, (Hp.foldl (dpInner f r) (nr1, b1)).1 j ≤ dRun a r) ∧
      (∀ j, (Hp.foldl (dpInner f r) (nr1, b1)).1 j ≤ dRun a j) ∧
      (Hp.foldl (dpInner f r) (nr1, b1)).1 r = dRun a r := by
    intro b1 hb1 nr1 h1 h2 h3
    have hres := dpInner_noFire a r f Hp nr1 b1
      (fun j hj => by
        have := krow_bound a r f hrowf hu j
        omega)
      (fun j hj => krow_bound a r f hrowf hu j)
      (fun j hj => by
        obtain ⟨hjr, hjl, hjv⟩ := hmemH j hj
        exact kcol_bound a f hcolf j (dUsable_of_mem a r j hu hjl hjv))
      h1 h2
    refine ⟨hres.1, hres.2.1, hres.2.2.1, ?_⟩
    have hrHp : r ∉ Hp := by
      intro hmem
      have := (hmemH r hmem).1
      omega
    rw [hres.2.2.2 r hrHp, h3]
  have hupr1 : ∀ j, Function.update nr0 r (dRun a r) j ≤ dRun a r := by
    intro j
    by_cases hj : j = r
    · subst hj
      rw [Function.update_same]
    · rw [Function.update_noteq hj]
      exact hrowN j
  have hupr2 : ∀ j, Function.update nr0 r (dRun a r) j ≤ dRun a j := by
    intro j
    by_cases hj : j = r
    · subst hj
      rw [Function.update_same]
    · rw [Function.update_noteq hj]
      exact hcolN j
  have hupr3 : Function.update nr0 r (dRun a r) r = dRun a r :=
    Function.update_same r (dRun a r) nr0
  by_cases hfire : b0.size < dRun a r
  · rw [hstep, if_pos hfire]
    have hres := hHblock ⟨r + 1 - dRun a r, r + 1 - dRun a r, dRun a r⟩
      (le_refl _) _ hupr1 hupr2 hupr3
    refine ⟨?_, ?_, ?_, hres.2.1, hres.2.2.1, hres.2.2.2⟩
    · rw [hres.1]
    · rw [hres.1]
      dsimp only
      omega
    · rw [hres.1]
  · rw [hstep, if_neg hfire]
    have hres := hHblock b0 (by omega) _ hupr1 hupr2 hupr3
    refine ⟨?_, ?_, ?_, hres.2.1, hres.2.2.1, hres.2.2.2⟩
    · rw [hres.1]
      exact hdiag
    · rw [hres.1]
    · rw [hres.1]
      omega

/-- One row of the self-matching loop preserves the diagonal invariant. -/
lemma dpOuter_self (a : List String) (r : Nat) (hr : r < a.length)
    (st : (Nat → Nat) × FlmBest)
    (hdiag : st.2.i = st.2.j)
    (hmax : ∀ s, s < r → dRun a s ≤ st.2.size)
    (hrow : ∀ j, st.1 j ≤ dPrev a r)
    (hcol : ∀ j, st.1 j ≤ dRun a j)
    (hexact : ∀ r', r' + 1 = r → st.1 r' = dRun a r') :
    (dpOuter a a 0 a.length st r).2.i = (dpOuter a a 0 a.length st r).2.j ∧
    (∀ s, s < r + 1 → dRun a s ≤ (dpOuter a a 0 a.length st r).2.size) ∧
    (∀ j, (dpOuter a a 0 a.length st r).1 j ≤ dPrev a (r + 1)) ∧
    (∀ j, (dpOuter a a 0 a.length st r).1 j ≤ dRun a j) ∧
    (∀ r', r' + 1 = r + 1 →
      (dpOuter a a 0 a.length st r).1 r' = dRun a r') := by
  unfold dpOuter
  dsimp only
  have hfil : (b2j a (a.getD r "")).filter
      (fun j => decide (0 ≤ j) && decide (j < a.length)) =
      b2j a (a.getD r "") := by
    apply List.filter_eq_self.2
    intro j hj
    have h2 := (mem_b2j hj).2
    simp [h2]
  rw [hfil]
  by_cases hpop : isPopular a (a.getD r "") = true
  · have hb : b2j a (a.getD r "") = [] := by
      unfold b2j
      rw [if_pos hpop]
    rw [hb, List.foldl_nil]
    have hu : dUsable a r = false := by
      unfold dUsable
      rw [hpop]
      simp
    have hdr : dRun a r = 0 := dRun_unusable a r hu
    refine ⟨hdiag, ?_, ?_, ?_, ?_⟩
    · intro s hs
      by_cases hsr : s = r
      · rw [hsr, hdr]
        exact Nat.zero_le _
      · exact hmax s (by omega)
    · intro j
      exact Nat.zero_le _
    · intro j
      exact Nat.zero_le _
    · intro r' hr'
      have hrr : r' = r := by omega
      subst hrr
      show (0 : Nat) = dRun a r'
      rw [hdr]
  · have hb : b2j a (a.getD r "") = b2jAll a (a.getD r "") := by
      unfold b2j
      rw [if_neg hpop]
    have hu : dUsable a r = true := by
      unfold dUsable
      cases h : isPopular a (a.getD r "") with
      | true => exact absurd h hpop
      | false => simp [hr]
    have hsplit : b2jAll a (a.getD r "") =
        (List.range' 0 r).filter
          (fun j => decide (a.getD j "" = a.getD r "")) ++
        r :: (List.range' (r + 1) (a.length - (r + 1))).filter
          (fun j => decide (a.getD j "" = a.getD r "")) := by
      unfold b2jAll
      rw [List.range_eq_range']
      have h1 : List.range' 0 r ++ List.range' r (a.length - r) =
          List.range' 0 a.length := by
        have h2 := List.range'_append 0 r (a.length - r) 1
        simp only [Nat.one_mul, Nat.zero_add] at h2
        rw [h2]
        congr 1
        omega
      rw [← h1, List.filter_append]
      congr 1
      rw [show a.length - r = (a.length - (r + 1)) + 1 from by omega,
        show List.range' r ((a.length - (r + 1)) + 1) =
          r :: List.range' (r + 1) (a.length - (r + 1)) from rfl,
        List.filter_cons, if_pos (by simp)]
    rw [hb, hsplit, List.foldl_append, List.foldl_cons]
    have hmemL : ∀ j ∈ (List.range' 0 r).filter
        (fun j => decide (a.getD j "" = a.getD r "")),
        j < r ∧ j < a.length ∧ a.getD j "" = a.getD r "" := by
      intro j hj
      have h1 := List.mem_filter.1 hj
      have h2 := List.mem_range'_1.1 h1.1
      have h3 := h1.2
      simp only [decide_eq_true_eq] at h3
      exact ⟨by omega, by omega, h3⟩
    have hL := dpInner_noFire a r st.1
      ((List.range' 0 r).filter (fun j => decide (a.getD j "" = a.getD r "")))
      (fun _ => 0) st.2
      (fun j hj => by
        obtain ⟨hjr, hjl, hjv⟩ := hmemL j hj
        have h1 := kcol_bound a st.1 hcol j (dUsable_of_mem a r j hu hjl hjv)
        have h2 := hmax j hjr
        omega)
      (fun j _ => krow_bound a r st.1 hrow hu j)
      (fun j hj => by
        obtain ⟨hjr, hjl, hjv⟩ := hmemL j hj
        exact kcol_bound a st.1 hcol j (dUsable_of_mem a r j hu hjl hjv))
      (fun j => Nat.zero_le _) (fun j => Nat.zero_le _)
    obtain ⟨hL2, hLrow, hLcol, _⟩ := hL
    have hmemH : ∀ j ∈ (List.range' (r + 1) (a.length - (r + 1))).filter
        (fun j => decide (a.getD j "" = a.getD r "")),
        r + 1 ≤ j ∧ j < a.length ∧ a.getD j "" = a.getD r "" := by
      intro j hj
      have h1 := List.mem_filter.1 hj
      have h2 := List.mem_range'_1.1 h1.1
      have h3 := h1.2
      simp only [decide_eq_true_eq] at h3
      exact ⟨by omega, by omega, h3⟩
    have hmain := dpDiag_then a r st.1 hu
      (kdiag_eq a r st.1 hexact hu) hrow hcol
      ((List.range' (r + 1) (a.length - (r + 1))).filter
        (fun j => decide (a.getD j "" = a.getD r ""))) hmemH
      (((List.range' 0 r).filter
        (fun j => decide (a.getD j "" = a.getD r ""))).foldl
        (dpInner st.1 r) ((fun _ => 0), st.2))
      (by rw [hL2]; exact hdiag) hLrow hLcol
    obtain ⟨hm1, hm2, hm3, hm4, hm5, hm6⟩ := hmain
    rw [hL2] at hm2
    refine ⟨hm1, ?_, ?_, hm5, ?_⟩
    · intro s hs
      by_cases hsr : s = r
      · subst hsr
        omega
      · have := hmax s (by omega)
        omega
    · intro j
      have := hm4 j
      have hp : dPrev a (r + 1) = dRun a r := rfl
      omega
    · intro r' hr'
      have hrr : r' = r := by omega
      subst hrr
      exact hm6

/-- The whole self-matching loop keeps a diagonal best. -/
lemma dpRows_self (a : List String) : ∀ (n : Nat), n ≤ a.length →
    ((List.range' 0 n).foldl (dpOuter a a 0 a.length)
      ((fun _ => 0), ⟨0, 0, 0⟩)).2.i =
    ((List.range' 0 n).foldl (dpOuter a a 0 a.length)
      ((fun _ => 0), ⟨0, 0, 0⟩)).2.j ∧
    (∀ s, s < n → dRun a s ≤
      ((List.range' 0 n).foldl (dpOuter a a 0 a.length)
        ((fun _ => 0), ⟨0, 0, 0⟩)).2.size) ∧
    (∀ j, ((List.range' 0 n).foldl (dpOuter a a 0 a.length)
      ((fun _ => 0), ⟨0, 0, 0⟩)).1 j ≤ dPrev a n) ∧
    (∀ j, ((List.range' 0 n).foldl (dpOuter a a 0 a.length)
      ((fun _ => 0), ⟨0, 0, 0⟩)).1 j ≤ dRun a j) ∧
    (∀ r', r' + 1 = n →
      ((List.range' 0 n).foldl (dpOuter a a 0 a.length)
        ((fun _ => 0), ⟨0, 0, 0⟩)).1 r' = dRun a r') := by
  intro n
  induction n with
  | zero =>
    intro _
    exact ⟨rfl, fun s hs => absurd hs (Nat.not_lt_zero s),
      fun j => Nat.zero_le _, fun j => Nat.zero_le _,
      fun r' hr' => absurd hr' (by omega)⟩
  | succ n ih =>
    intro hn
    have hsp : List.range' 0 (n + 1) = List.range' 0 n ++ [n] := by
      have h2 := List.range'_append 0 n 1 1
      simp only [Nat.one_mul, Nat.zero_add] at h2
      rw [show n + 1 = 1 + n from Nat.add_comm n 1, ← h2]
      rfl
    rw [hsp, List.foldl_append, List.foldl_cons, List.foldl_nil]
    obtain ⟨i1, i2, i3, i4, i5⟩ := ih (by omega)
    exact dpOuter_self a n (by omega) _ i1 i2 i3 i4 i5

/-- `dpLoop` on `a` against itself returns a diagonal best. -/
lemma dpLoop_self (a : List String) :
    (dpLoop a a 0 a.length 0 a.length).i =
    (dpLoop a a 0 a.length 0 a.length).j := by
  unfold dpLoop
  rw [Nat.sub_zero]
  exact (dpRows_self a a.length (le_refl _)).1

lemma extendBack_self (a : List String) :
    ∀ (fuel i k : Nat), i ≤ fuel →
    extendBack a a 0 0 fuel ⟨i, i, k⟩ = ⟨0, 0, k + i⟩ := by
  intro fuel
  induction fuel with
  | zero =>
    intro i k hi
    have : i = 0 := by omega
    subst this
    rfl
  | succ fuel ih =>
    intro i k hi
    cases i with
    | zero =>
      rw [extendBack]
      rw [if_neg (by
        intro hc
        simp at hc)]
      rfl
    | succ i' =>
      rw [extendBack]
      rw [if_pos ⟨by
          show (0 : Nat) < i' + 1
          omega, by
          show (0 : Nat) < i' + 1
          omega, rfl⟩]
      have hred : extendBack a a 0 0 fuel
          ⟨(⟨i' + 1, i' + 1, k⟩ : FlmBest).i - 1,
           (⟨i' + 1, i' + 1, k⟩ : FlmBest).j - 1,
           (⟨i' + 1, i' + 1, k⟩ : FlmBest).size + 1⟩ =
          extendBack a a 0 0 fuel ⟨i', i', k + 1⟩ := rfl
      rw [hred, ih i' (k + 1) (by omega),
        show k + 1 + i' = k + (i' + 1) from by omega]

lemma extendFwd_self (a : List String) (ahi : Nat) :
    ∀ (fuel k : Nat), k ≤ ahi → ahi - k ≤ fuel →
    extendFwd a a ahi ahi fuel ⟨0, 0, k⟩ = ⟨0, 0, ahi⟩ := by
  intro fuel
  induction fuel with
  | zero =>
    intro k hk hf
    have : k = ahi := by omega
    subst this
    rfl
  | succ fuel ih =>
    intro k hk hf
    by_cases hlt : k < ahi
    · rw [extendFwd]
      rw [if_pos ⟨by
          show (0 : Nat) + k < ahi
          omega, by
          show (0 : Nat) + k < ahi
          omega, rfl⟩]
      exact ih (k + 1) (by omega) (by omega)
    · rw [extendFwd]
      rw [if_neg (by
        intro hc
        have h1 : (0 : Nat) + k < ahi := hc.1
        omega)]
      have : k = ahi := by omega
      subst this
      rfl

/-- `find_longest_match` on identical inputs returns the full diagonal. -/
lemma flm_self (a : List String) :
    find_longest_match a a 0 a.length 0 a.length = ⟨0, 0, a.length⟩ := by
  have hdiag := dpLoop_self a
  have hgood := dpLoop_good a a 0 a.length 0 a.length
    (Nat.zero_le _) (Nat.zero_le _)
  obtain ⟨hg1, hg2, hg3, hg4, hg5⟩ := hgood
  unfold find_longest_match
  dsimp only
  have hst0 : dpLoop a a 0 a.length 0 a.length =
      ⟨(dpLoop a a 0 a.length 0 a.length).i,
       (dpLoop a a 0 a.length 0 a.length).i,
       (dpLoop a a 0 a.length 0 a.length).size⟩ := by
    have heta : dpLoop a a 0 a.length 0 a.length =
        ⟨(dpLoop a a 0 a.length 0 a.length).i,
         (dpLoop a a 0 a.length 0 a.length).j,
         (dpLoop a a 0 a.length 0 a.length).size⟩ := rfl
    rw [heta, ← hdiag]
  rw [hst0]
  rw [extendBack_self a ((dpLoop a a 0 a.length 0 a.length).i)
    ((dpLoop a a 0 a.length 0 a.length).i)
    ((dpLoop a a 0 a.length 0 a.length).size) (le_refl _)]
  exact extendFwd_self a a.length (a.length + a.length)
    ((dpLoop a a 0 a.length 0 a.length).size +
      (dpLoop a a 0 a.length 0 a.length).i)
    (by omega) (by omega)

lemma gmbLoop_nil (a b : List String) :
    ∀ (fuel : Nat) (blocks : List FlmBest),
    gmbLoop a b fuel [] blocks = blocks := by
  intro fuel blocks
  cases fuel with
  | zero => rfl
  | succ f => rfl

/-- Matching `a` against itself yields the single full-length block. -/
lemma get_matching_blocks_self (a : List String) (h : a ≠ []) :
    get_matching_blocks a a =
      [⟨0, 0, a.length⟩, ⟨a.length, a.length, 0⟩] := by
  have hla : 0 < a.length := List.length_pos.2 h
  unfold get_matching_blocks
  dsimp only
  have hraw : gmbLoop a a (a.length + a.length + 1)
      [(0, a.length, 0, a.length)] [] = [⟨0, 0, a.length⟩] := by
    rw [gmbLoop]
    dsimp only
    rw [flm_self]
    rw [if_neg (by
      show ¬(a.length = 0)
      omega)]
    rw [if_neg (by
      intro hc
      have h1 : (0 : Nat) + a.length < a.length := hc.1
      omega)]
    rw [if_neg (by
      intro hc
      simp at hc)]
    simp only [List.nil_append]
    exact gmbLoop_nil a a _ _
  rw [hraw]
  have hsort : sortBlocks [(⟨0, 0, a.length⟩ : FlmBest)] =
      [⟨0, 0, a.length⟩] := rfl
  rw [hsort]
  rw [mergeAdjacent]
  rw [if_pos ⟨rfl, rfl⟩]
  rw [mergeAdjacent]
  rw [if_pos (by
    show ¬((0 : Nat) + a.length = 0)
    omega)]
  rw [show (0 : Nat) + a.length = a.length from Nat.zero_add a.length]
  rfl

/-- The opcodes of `a` against itself form one full `equal`. -/
lemma get_opcodes_self (a : List String) (h : a ≠ []) :
    get_opcodes a a = [⟨"equal", 0, a.length, 0, a.length⟩] := by
  have hne : a.length ≠ 0 := by
    intro h0
    exact h (List.length_eq_zero.mp h0)
  unfold get_opcodes
  rw [get_matching_blocks_self a h]
  simp only [opcodesGo]
  simp [hne]

lemma adjustLast_single (c : Opcode) :
    adjustLast [c] = if c.tag = "equal" then
      [{ c with a2 := min c.a2 (c.a1 + 3), b2 := min c.b2 (c.b1 + 3) }]
    else [c] := rfl

/-- Grouping the opcodes of `a` against itself yields no groups (the lone
trimmed `equal` never exceeds the context threshold). -/
lemma get_grouped_opcodes_self (a : List String) :
    get_grouped_opcodes a a = [] := by
  by_cases h : a = []
  · subst h
    decide
  · simp only [get_grouped_opcodes]
    rw [get_opcodes_self a h]
    rw [if_neg (by simp)]
    rw [adjustHead]
    rw [if_pos rfl]
    rw [show ({ (⟨"equal", 0, a.length, 0, a.length⟩ : Opcode) with
        a1 := max (⟨"equal", 0, a.length, 0, a.length⟩ : Opcode).a1
          ((⟨"equal", 0, a.length, 0, a.length⟩ : Opcode).a2 - 3),
        b1 := max (⟨"equal", 0, a.length, 0, a.length⟩ : Opcode).b1
          ((⟨"equal", 0, a.length, 0, a.length⟩ : Opcode).b2 - 3) } : Opcode) =
      ⟨"equal", max 0 (a.length - 3), a.length,
        max 0 (a.length - 3), a.length⟩ from rfl]
    rw [adjustLast_single]
    rw [if_pos rfl]
    rw [show ({ (⟨"equal", max 0 (a.length - 3), a.length,
        max 0 (a.length - 3), a.length⟩ : Opcode) with
        a2 := min (⟨"equal", max 0 (a.length - 3), a.length,
          max 0 (a.length - 3), a.length⟩ : Opcode).a2
          ((⟨"equal", max 0 (a.length - 3), a.length,
            max 0 (a.length - 3), a.length⟩ : Opcode).a1 + 3),
        b2 := min (⟨"equal", max 0 (a.length - 3), a.length,
          max 0 (a.length - 3), a.length⟩ : Opcode).b2
          ((⟨"equal", max 0 (a.length - 3), a.length,
            max 0 (a.length - 3), a.length⟩ : Opcode).b1 + 3) } : Opcode) =
      ⟨"equal", max 0 (a.length - 3),
        min a.length (max 0 (a.length - 3) + 3),
        max 0 (a.length - 3),
        min a.length (max 0 (a.length - 3) + 3)⟩ from rfl]
    rw [List.foldl_cons, List.foldl_nil]
    simp only [groupStep]
    rw [if_neg (by
      intro hc
      have h6 := hc.2
      have h6' : 6 < min a.length (max 0 (a.length - 3) + 3) -
          max 0 (a.length - 3) := h6
      omega)]
    rfl

/-- The diff of any text against itself is the empty diff text. -/
lemma create_diff_self (x name : String) :
    create_unified_diff x x name = "" := by
  unfold create_unified_diff unified_diff
  dsimp only
  rw [get_grouped_opcodes_self]
  rw [if_pos (show ([] : List (List Opcode)).isEmpty = true from rfl)]
  rfl

/-- C8: diffing a text against itself yields an empty diff (zero hunks);
recording an observation whose content equals the stored snapshot changes
nothing (in particular appends nothing to the log); hence recording the
same content twice is a no-op on the second call. -/
theorem noop_diff_and_idempotent (x name server : String) (st : BlockState) :
    create_unified_diff x x name = "" ∧
    (st.snapshot = some server → observe_block name st server = st) ∧
    observe_block name (observe_block name st server) server =
      observe_block name st server := by
  refine ⟨create_diff_self x name, ?_, ?_⟩
  · intro hsnap
    obtain ⟨snap, log⟩ := st
    simp only at hsnap
    subst hsnap
    unfold observe_block
    dsimp only
    rw [if_pos rfl]
  · obtain ⟨snap, log⟩ := st
    cases snap with
    | none =>
      have hinner : observe_block name ⟨none, log⟩ server =
          ⟨some server, log⟩ := rfl
      rw [hinner]
      unfold observe_block
      dsimp only
      rw [if_pos rfl]
    | some c =>
      by_cases hc : c = server
      · subst hc
        have hinner : observe_block name ⟨some c, log⟩ c = ⟨some c, log⟩ := by
          unfold observe_block
          dsimp only
          rw [if_pos rfl]
        rw [hinner]
        exact hinner
      · have hinner : observe_block name ⟨some c, log⟩ server =
            ⟨some server, log ++
              (if create_unified_diff c server name ≠ "" then
                [create_unified_diff c server name] else [])⟩ := by
          unfold observe_block
          dsimp only
          rw [if_neg hc]
        rw [hinner]
        unfold observe_block
        dsimp only
        rw [if_pos rfl]

/-- Witness for C8 at concrete inputs. -/
theorem noop_diff_and_idempotent_witness :
    create_unified_diff "a\nb" "a\nb" "m" = "" ∧
    ((⟨some "s", []⟩ : BlockState).snapshot = some "s" →
      observe_block "m" ⟨some "s", []⟩ "s" = ⟨some "s", []⟩) ∧
    observe_block "m" (observe_block "m" ⟨some "s", []⟩ "s") "s" =
      observe_block "m" ⟨some "s", []⟩ "s" :=
  noop_diff_and_idempotent "a\nb" "m" "s" ⟨some "s", []⟩

end MemLog
